import Mathlib

/-!
Verification development for the dynamic-computation-graph core of the
poly-np-sim repository (src/main/dynamicComputationGraph.py,
src/main/feasibleGraph.py, src/main/verificationWalk.py).

The Python code is shallowly embedded: each mutable object becomes a pure
record, each method a pure function that returns the updated record.  Python
`dict`s and `set`s are modelled as association lists / duplicate-free lists
kept in insertion order (CPython dicts preserve insertion order; for `set`s
the iteration order is implementation-defined and the model fixes the
first-insertion order — every place whose outcome could depend on that order
is noted in a comment).  Worklist loops whose termination is not structural
take a fuel parameter and return `none` when the fuel runs out or when the
Python original would raise an uncaught exception, so a `some` result always
coincides with the value computed by the source.
-/

namespace PolyNP

/-- The transition oracle and alphabet supplied by the collaborator
(`initialize(states, symbols, delta)` in the source).  `delta q s` returns
`(nextState, outputSymbol, direction)`.  It is treated as a total black box,
exactly as the core does. -/
structure Machine where
  delta : String → String → String × String × Int
  symbols : List String

/-- The identity of a `TransitionCase`: `(index, tier, state, symbol)`.
`TransitionCase.__eq__` in the source compares exactly these four fields. -/
abbrev TCKey := Int × Nat × String × String

/-- A vertex of the dynamic computation graph (`class vertex`).  In the
source a vertex stores its `TransitionCase` and, for tier > 0, the
predecessor `TransitionCase` `P`; its identity key is
`(index, tier, state, symbol)` for tier 0 and
`(index, tier, state, symbol, P.state, P.symbol)` otherwise.
`TransitionCase.vertex` asserts `P.index == index` and `P.tier == tier - 1`,
so storing `(P.state, P.symbol)` retains the full key.  Equality of the
record coincides with the source's key equality. -/
structure Vertex where
  index : Int
  tier : Nat
  state : String
  symbol : String
  pred : Option (String × String)
deriving DecidableEq, Repr

/-- An edge is an ordered pair of vertices (`(u, v)` tuples in the source). -/
abbrev Edge := Vertex × Vertex

/-- `vertex.output()`: the output symbol of the oracle at `(state, symbol)`. -/
def Vertex.output (M : Machine) (v : Vertex) : String :=
  (M.delta v.state v.symbol).2.1

/-- `vertex.next_state()`. -/
def Vertex.next_state (M : Machine) (v : Vertex) : String :=
  (M.delta v.state v.symbol).1

/-- `vertex.next_index()` = `index + direction`. -/
def Vertex.next_index (M : Machine) (v : Vertex) : Int :=
  v.index + (M.delta v.state v.symbol).2.2

/-- `vertex.last_state()` = `pred.state`.  The source dereferences `pred`
unconditionally; it is only ever called on tier > 0 vertices, whose `pred`
is present.  On a tier-0 vertex the source would raise; the model returns
`""`. -/
def Vertex.last_state (v : Vertex) : String :=
  match v.pred with
  | some p => p.1
  | none => ""

/-- `vertex.last_symbol()` = `pred.symbol`. -/
def Vertex.last_symbol (v : Vertex) : String :=
  match v.pred with
  | some p => p.2
  | none => ""

/-- The key of the `TransitionCase` object returned by
`DynamicComputationGraph.IPrecedent(v)` for a tier > 0 vertex: the
`TransitionCase` at `(index(v), tier(v)-1, last_state(v), last_symbol(v))`.
`TakeArbitraryWalk` compares this object against the surface entry with
`TransitionCase.__eq__`, i.e. by this key. -/
def Vertex.iprecedentKey (v : Vertex) : TCKey :=
  (v.index, v.tier - 1, v.last_state, v.last_symbol)

/-- `index(e) = min(index(u), index(v))` (module-level `index` function). -/
def eIndex (e : Edge) : Int := min e.1.index e.2.index

/-- `dir(e) = index(v) - index(u)` (module-level `dir` function). -/
def eDir (e : Edge) : Int := e.2.index - e.1.index

/-- `class EdgeListOf`: the four directional edge lists kept at a vertex for
one edge slice.  Each list stores the opposite endpoints, in append order,
exactly as the Python lists do. -/
structure EdgeListOf where
  left_incoming : List Vertex
  left_outgoing : List Vertex
  right_incoming : List Vertex
  right_outgoing : List Vertex
deriving DecidableEq, Repr

def EdgeListOf.empty : EdgeListOf := ⟨[], [], [], []⟩

/-- `EdgeListOf.count()`. -/
def EdgeListOf.count (l : EdgeListOf) : Nat :=
  l.left_incoming.length + l.left_outgoing.length +
    l.right_incoming.length + l.right_outgoing.length

/-- `class EdgeSlice`: the per-tape-index store of `EdgeListOf` records,
keyed by vertex (the Python dict is keyed by `vertex.key`, and vertex
equality is key equality, so keying by the vertex record is identical).
`entries` keeps dict insertion order; `edgeCount` is the per-slice counter. -/
structure EdgeSlice where
  entries : List (Vertex × EdgeListOf)
  edgeCount : Nat
deriving DecidableEq, Repr

def EdgeSlice.empty : EdgeSlice := ⟨[], 0⟩

/-- `EdgeSlice.__getitem__` without its materialization side effect: a
missing entry reads as a fresh empty `EdgeListOf`, which is exactly what the
source materializes on first access. -/
def EdgeSlice.get (s : EdgeSlice) (v : Vertex) : EdgeListOf :=
  match s.entries.find? (fun p => p.1 == v) with
  | some p => p.2
  | none => EdgeListOf.empty

/-- Update (or first materialize, preserving dict insertion order) the
`EdgeListOf` of `v` inside a slice. -/
def EdgeSlice.set (s : EdgeSlice) (v : Vertex) (f : EdgeListOf → EdgeListOf) :
    EdgeSlice :=
  if (s.entries.find? (fun p => p.1 == v)).isSome then
    { s with entries := s.entries.map (fun p => if p.1 == v then (p.1, f p.2) else p) }
  else
    { s with entries := s.entries ++ [(v, f EdgeListOf.empty)] }

/-- `class DynamicComputationGraph`.  `slices` models the `E` cell array as
an association list from tape index to `EdgeSlice`, kept sorted by index
ascending (the Python `CellArray` is a contiguous array indexed from `base`,
iterated in ascending index order; slices that were never touched hold no
edges and are omitted).  `edgeCount` is the private `__edgeCount`.  `reg`
models the `V` axis: the duplicate-free, insertion-ordered list of vertices
registered through `addVertex`.  The statistics counters of the source are
not observable by any algorithm and are omitted. -/
structure Graph where
  slices : List (Int × EdgeSlice)
  edgeCount : Nat
  reg : List Vertex
deriving DecidableEq, Repr

def Graph.empty : Graph := ⟨[], 0, []⟩

/-- Read the slice at index `i` (materializing semantics: absent reads as
empty). -/
def Graph.slice (G : Graph) (i : Int) : EdgeSlice :=
  match G.slices.find? (fun p => p.1 == i) with
  | some p => p.2
  | none => EdgeSlice.empty

/-- The `EdgeListOf` of vertex `v` at slice `i`: `self.E[i][v]`. -/
def Graph.el (G : Graph) (i : Int) (v : Vertex) : EdgeListOf :=
  (G.slice i).get v

/-- Insert a slice into the sorted slice list. -/
def insertSlice (i : Int) (s : EdgeSlice) :
    List (Int × EdgeSlice) → List (Int × EdgeSlice)
  | [] => [(i, s)]
  | p :: r =>
    if i < p.1 then (i, s) :: p :: r
    else if i == p.1 then (i, s) :: r
    else p :: insertSlice i s r

/-- Apply `f` to the slice at index `i`, materializing it if absent. -/
def Graph.updSlice (G : Graph) (i : Int) (f : EdgeSlice → EdgeSlice) : Graph :=
  { G with slices := insertSlice i (f (G.slice i)) G.slices }

/-- Apply `f` to the `EdgeListOf` of `v` at slice `i`. -/
def Graph.updEl (G : Graph) (i : Int) (v : Vertex) (f : EdgeListOf → EdgeListOf) :
    Graph :=
  G.updSlice i (fun s => s.set v f)

/-- `DynamicComputationGraph.size()` = the private edge counter. -/
def Graph.size (G : Graph) : Nat := G.edgeCount

/-- `DynamicComputationGraph.hasEdge(e)`: membership of `v` in
`E[min][u].right_outgoing` or of `u` in `E[min][v].right_incoming`. -/
def Graph.hasEdge (G : Graph) (e : Edge) : Bool :=
  let (u, v) := e
  let i := min u.index v.index
  (G.el i u).right_outgoing.contains v || (G.el i v).right_incoming.contains u

/-- `DynamicComputationGraph.addVertex(v)`: registers `v` in the `V` axis.
The Python `set.add` is modelled by a guarded append. -/
def Graph.addVertex (G : Graph) (v : Vertex) : Graph :=
  if v ∈ G.reg then G else { G with reg := G.reg ++ [v] }

/-- `DynamicComputationGraph.addEdge(e)` (mutation part; the assertion
behaviour is modelled separately by `addEdgeRun`).  If the edge is present
this is a no-op; otherwise both endpoints are registered, the two
directional lists are appended to, and both the per-slice and the global
counters are incremented. -/
def Graph.addEdge (G : Graph) (e : Edge) : Graph :=
  let (u, v) := e
  let i := min u.index v.index
  if G.hasEdge e then G
  else
    let G := (G.addVertex u).addVertex v
    let G :=
      if u.index < v.index then
        (G.updEl u.index u (fun l => { l with right_outgoing := l.right_outgoing ++ [v] })).updEl
          u.index v (fun l => { l with left_incoming := l.left_incoming ++ [u] })
      else
        (G.updEl v.index u (fun l => { l with left_outgoing := l.left_outgoing ++ [v] })).updEl
          v.index v (fun l => { l with right_incoming := l.right_incoming ++ [u] })
    let G := G.updSlice i (fun s => { s with edgeCount := s.edgeCount + 1 })
    { G with edgeCount := G.edgeCount + 1 }

/-- `DynamicComputationGraph.removeEdge(e)`: no-op when absent, otherwise the
symmetric inverse of `addEdge` (Python `list.remove` deletes the first
occurrence, modelled by `List.erase`). -/
def Graph.removeEdge (G : Graph) (e : Edge) : Graph :=
  let (u, v) := e
  if !G.hasEdge e then G
  else
    let G :=
      if u.index < v.index then
        ((G.updEl u.index u (fun l => { l with right_outgoing := l.right_outgoing.erase v })).updEl
            u.index v (fun l => { l with left_incoming := l.left_incoming.erase u })).updSlice
          u.index (fun s => { s with edgeCount := s.edgeCount - 1 })
      else
        ((G.updEl v.index u (fun l => { l with left_outgoing := l.left_outgoing.erase v })).updEl
            v.index v (fun l => { l with right_incoming := l.right_incoming.erase u })).updSlice
          v.index (fun s => { s with edgeCount := s.edgeCount - 1 })
    { G with edgeCount := G.edgeCount - 1 }

/-- `DynamicComputationGraph.incomingEdgeOf(v)` =
`E[i][v].right_incoming + E[i-1][v].left_incoming` mapped to `(w, v)`. -/
def Graph.incomingEdgeOf (G : Graph) (v : Vertex) : List Edge :=
  ((G.el v.index v).right_incoming ++ (G.el (v.index - 1) v).left_incoming).map
    (fun w => (w, v))

/-- `DynamicComputationGraph.outgoingEdgeOf(v)` =
`E[i][v].right_outgoing + E[i-1][v].left_outgoing` mapped to `(v, w)`. -/
def Graph.outgoingEdgeOf (G : Graph) (v : Vertex) : List Edge :=
  ((G.el v.index v).right_outgoing ++ (G.el (v.index - 1) v).left_outgoing).map
    (fun w => (v, w))

/-- `DynamicComputationGraph.isFoldingNode(v)`: both incoming and outgoing
lists nonempty on the same side. -/
def Graph.isFoldingNode (G : Graph) (v : Vertex) : Bool :=
  let l := G.el (v.index - 1) v
  let r := G.el v.index v
  (l.left_incoming.length > 0 && l.left_outgoing.length > 0) ||
    (r.right_incoming.length > 0 && r.right_outgoing.length > 0)

/-- `DynamicComputationGraph.isMergingEdge(e)`.  The source asserts
`hasEdge(e)` first; all call sites in the algorithms below establish it. -/
def Graph.isMergingEdge (G : Graph) (e : Edge) : Bool :=
  let (u, v) := e
  if u.index < v.index then (G.el u.index v).left_incoming.length > 1
  else (G.el v.index v).right_incoming.length > 1

/-- `DynamicComputationGraph.isSplittingEdge(e)` (same assert note). -/
def Graph.isSplittingEdge (G : Graph) (e : Edge) : Bool :=
  let (u, v) := e
  if u.index < v.index then (G.el u.index u).right_outgoing.length > 1
  else (G.el v.index u).left_outgoing.length > 1

/-- `DynamicComputationGraph.getNextEdges(e)` = `outgoingEdgeOf(v)`. -/
def Graph.getNextEdges (G : Graph) (e : Edge) : List Edge :=
  G.outgoingEdgeOf e.2

/-- `DynamicComputationGraph.getPrevEdges(e)` = `incomingEdgeOf(u)`. -/
def Graph.getPrevEdges (G : Graph) (e : Edge) : List Edge :=
  G.incomingEdgeOf e.1

/-- `DynamicComputationGraph.IPrecedent(v)`, as the list of member vertices
of the returned `TransitionCase` set.  For tier 0 it is the empty set.  For
tier 1 the access `V[i][0][q][s]` lazily creates the floor `TransitionCase`,
whose constructor adds its unique floor vertex, so the result is always
exactly that singleton (tier-0 vertex keys carry no predecessor fields, so
the set can never hold a second element).  For tier ≥ 2 the lazily created
`TransitionCase` starts empty and only ever receives vertices through
`addVertex`, so the result is the registered vertices with the matching
`(index, tier-1, state, symbol)`. -/
def Graph.IPrecedent (G : Graph) (v : Vertex) : List Vertex :=
  if v.tier == 0 then []
  else if v.tier == 1 then [⟨v.index, 0, v.last_state, v.last_symbol, none⟩]
  else
    G.reg.filter (fun w =>
      w.index == v.index && w.tier == v.tier - 1 &&
        w.state == v.last_state && w.symbol == v.last_symbol)

/-- `DynamicComputationGraph.ISuccedent(v)`: the registered vertices at
`(index(v), tier(v)+1)` whose symbol is `v.output()` (the source looks only
inside `V[i][t][q][v.output()]`) and whose stored predecessor
`TransitionCase` equals `v.T` (`s.pred == v.T` compares the
`(index, tier, state, symbol)` key, and the creation asserts pin the
predecessor's index and tier to the vertex's own, so the comparison reduces
to the stored `(state, symbol)` pair).  The `for q in self.V[i][t]` loop
ranges over the materialized states, which include the state of every
registered vertex at `(i, t)`, so no registered candidate is skipped. -/
def Graph.ISuccedent (M : Machine) (G : Graph) (v : Vertex) : List Vertex :=
  G.reg.filter (fun s =>
    s.index == v.index && s.tier == v.tier + 1 &&
      s.symbol == v.output M && s.pred == some (v.state, v.symbol))

/-- `DynamicComputationGraph.CountIPrecedents(e)`: over the precedent set of
`e[1]`, total length of the outgoing lists at slice `index(e)`. -/
def Graph.CountIPrecedents (G : Graph) (e : Edge) : Nat :=
  let i := eIndex e
  (G.IPrecedent e.2).foldl
    (fun cnt p =>
      cnt + (G.el i p).right_outgoing.length + (G.el i p).left_outgoing.length) 0

/-- `DynamicComputationGraph.CountISuccedents(e)`: over the succedent set of
`e[0]`, total length of the incoming lists at slice `index(e)`. -/
def Graph.CountISuccedents (M : Machine) (G : Graph) (e : Edge) : Nat :=
  let i := eIndex e
  (G.ISuccedent M e.1).foldl
    (fun cnt s =>
      cnt + (G.el i s).left_incoming.length + (G.el i s).right_incoming.length) 0

/-- Append `x` if not already present (Python `set.add` on a set modelled as
an insertion-ordered duplicate-free list). -/
def insD {α : Type} [BEq α] (l : List α) (x : α) : List α :=
  if l.contains x then l else l ++ [x]

/-- `set.update` / union, keeping first-insertion order. -/
def unionD {α : Type} [BEq α] (l : List α) (xs : List α) : List α :=
  xs.foldl insD l

/-- `DynamicComputationGraph.GetIPrecedents(e)` (returns `PrecG(e)`); the
final Python `set(P)` is modelled by first-occurrence deduplication. -/
def Graph.GetIPrecedents (G : Graph) (e : Edge) : List Edge :=
  let (u, v) := e
  if v.tier == 0 then []
  else
    unionD []
      ((G.IPrecedent v).flatMap (fun v_ =>
        (G.outgoingEdgeOf v_).filter (fun f =>
          (G.IPrecedent u).contains f.2 || u == f.2 ||
            (f.2.tier : Int) < (u.tier : Int) - 1)))

/-- `DynamicComputationGraph.GetISuccedents(e)` (returns `SuccG(e)`); the
collected pairs are `(v_, u_)` for `(v_, w) ∈ incomingEdgeOf(u_)`. -/
def Graph.GetISuccedents (M : Machine) (G : Graph) (e : Edge) : List Edge :=
  let (u, v) := e
  unionD []
    ((G.ISuccedent M u).flatMap (fun u_ =>
      ((G.incomingEdgeOf u_).filter (fun f =>
        (G.ISuccedent M v).contains f.1 || v == f.1 ||
          (f.1.tier : Int) > (v.tier : Int) + 1)).map (fun f => (f.1, u_))))

/-- The edges enumerated by `getCopyedGraph`'s slice scan: for every slice in
ascending index order (the Python loop runs `minEdgeIndex()..maxEdgeIndex()`;
slices outside that range have per-slice count 0 and, in any graph built
through the public operations, empty right lists, so scanning every slice is
equivalent), for every `EdgeListOf` in dict order, first the
`right_incoming` list as `(w, at)` then the `right_outgoing` list as
`(at, w)`. -/
def Graph.allStoredEdges (G : Graph) : List Edge :=
  G.slices.flatMap (fun p =>
    p.2.entries.flatMap (fun q =>
      q.2.right_incoming.map (fun w => (w, q.1)) ++
        q.2.right_outgoing.map (fun w => (q.1, w))))

/-- `DynamicComputationGraph.getCopyedGraph()`: an empty graph when the
source is empty; otherwise a fresh graph sharing the `V` axis (`G.V =
self.V`, modelled by copying `reg`; the aliasing consequences are modelled
by `origAfterCopyMutation` below) whose edges are re-inserted by `addEdge`
in slice-scan order. -/
def Graph.getCopyedGraph (G : Graph) : Graph :=
  if G.size == 0 then Graph.empty
  else G.allStoredEdges.foldl Graph.addEdge { Graph.empty with reg := G.reg }

/-- In the source `getCopyedGraph` aliases the `V` axis (`G.V = self.V`), so
a vertex registered through the copy is also visible to the original.  This
definition reconstructs the original's observable state after the copy has
been mutated: its own edge structure is untouched, while the shared vertex
registry is the copy's. -/
def origAfterCopyMutation (orig copyAfter : Graph) : Graph :=
  { orig with reg := copyAfter.reg }

/-- `class TransitionCase` as a stateful object: its identifying fields plus
its mutable vertex set (the class extends `set`).  The oracle-derived fields
(`next_state`, `output`, `dir`, `next_index`) are functions of
`(state, symbol)` and are recovered through `Machine.delta` where needed.
The constructor seeds the vertex set with the unique floor vertex when
`tier == 0`. -/
structure TransitionCaseS where
  index : Int
  tier : Nat
  state : String
  symbol : String
  vset : List Vertex
deriving DecidableEq, Repr

/-- `TransitionCase.__init__(i, t, q, s)`. -/
def TransitionCaseS.mkTC (i : Int) (t : Nat) (q s : String) : TransitionCaseS :=
  ⟨i, t, q, s, if t == 0 then [⟨i, 0, q, s, none⟩] else []⟩

/-- `TransitionCase.vertex(P)`; `P` is the predecessor `TransitionCase`
given by its key (or `None`).  Returns the vertex together with the updated
`TransitionCase`; `none` models an abort (failed assertion, or the
attribute error of dereferencing `P = None` above tier 0).  For tier 0 with
`P` not `None` the source logs an error and returns Python `None`, also
modelled as `none`.  Note on the filter: the source filters with
`x.state==P.state and x.symbol==P.symbol`, where `x.state` is the bound
method object of the vertex and `P.state` a string, so in Python the
predicate is constantly false and `items` is always empty; the subsequently
created vertex is `set.add`ed, which deduplicates by key, so the set content
and the returned value (by key equality) coincide with the evidently
intended `x.state()` comparison. -/
def TransitionCaseS.vertexCall (T : TransitionCaseS) (P : Option TCKey) :
    Option (Vertex × TransitionCaseS) :=
  if T.tier == 0 then
    match P with
    | some _ => none
    | none =>
      match T.vset with
      | v :: _ => some (v, T)
      | [] => none
  else
    match P with
    | none => none
    | some (pi, pt, pq, ps) =>
      if pi == T.index && pt + 1 == T.tier then
        let items := T.vset.filter (fun _ => false)
        match items with
        | x :: _ => some (x, T)
        | [] =>
          let v : Vertex := ⟨T.index, T.tier, T.state, T.symbol, some (pq, ps)⟩
          some (v, { T with
            vset := if T.vset.contains v then T.vset else T.vset ++ [v] })
      else none

/-- `addEdge(e)` with its abort behaviour made explicit, following the
assertions in source order.  The first assertion,
`index == self.E[index].index`, always passes because the cell array
materializes the slice with exactly that index.  The second is
`assert abs(u.index()-v.index())` — it tests the *truthiness* of the
difference, i.e. fails exactly when the indices are equal.  `hasEdge` then
performs `E[index][u]` and (if the first membership fails) `E[index][v]`,
and `EdgeSlice.__getitem__` asserts `self.index in [w.index(), w.index()-1]`
for the accessed vertex `w`.  If the edge is absent, `addVertex` asserts
(inside `SymbolDict.__getitem__`) that each endpoint's symbol belongs to the
declared alphabet before the mutation, whose own slice accesses are at
distance 0 or 1 from each endpoint and therefore pass. -/
def addEdgeRun (M : Machine) (G : Graph) (e : Edge) : Except String Graph :=
  let (u, v) := e
  let i := min u.index v.index
  if u.index - v.index == 0 then Except.error "index difference is not +1/-1"
  else if !(i == u.index || i == u.index - 1) then
    Except.error "getitem index error"
  else if (G.el i u).right_outgoing.contains v then Except.ok G
  else if !(i == v.index || i == v.index - 1) then
    Except.error "getitem index error"
  else if (G.el i v).right_incoming.contains u then Except.ok G
  else if !(M.symbols.contains u.symbol) then Except.error "No symbol"
  else if !(M.symbols.contains v.symbol) then Except.error "No symbol"
  else Except.ok (G.addEdge e)

/-! ## feasibleGraph.py -/

/-- Inner loop of `GetWeakCeilingAdjacentEdges(G, e0, Ef)`: `Q` is the deque
of vertices (popped at the left), `Vv` the visited set, `C` the collected
edge set, `v0` the target endpoint of `e0`.  The queue extensions iterate a
Python set (`G.IPrecedent(u)`); the model uses the list order of
`Graph.IPrecedent`. -/
def weakCeilLoop (G : Graph) (v0 : Vertex) :
    Nat → List Vertex → List Vertex → List Edge → Option (List Edge)
  | 0, _, _, _ => none
  | _ + 1, [], _, C => some C
  | fuel + 1, u :: Q, Vv, C =>
    if Vv.contains u then weakCeilLoop G v0 fuel Q Vv C
    else
      let Vv := Vv ++ [u]
      if G.isFoldingNode u || u == v0 then
        weakCeilLoop G v0 fuel (Q ++ G.IPrecedent u) Vv C
      else
        weakCeilLoop G v0 fuel Q Vv (unionD C (G.incomingEdgeOf u))

/-- `GetWeakCeilingAdjacentEdges(G, e0, Ef)`: starts from `u0`, plus `v0`
when `e0 ∈ Ef`, and collects the weakly-ceiling-adjacent edges. -/
def GetWeakCeilingAdjacentEdges (fuel : Nat) (G : Graph) (e0 : Edge)
    (Ef : List Edge) : Option (List Edge) :=
  let (u0, v0) := e0
  let Q := if Ef.contains e0 then [u0, v0] else [u0]
  weakCeilLoop G v0 fuel Q [] []

/-- Loop of `collectEdgesWithPath(G, C0, Ef)`: pops the deque at the right
and extends it with `G.incomingEdgeOf(u)`.  The cover cell array is indexed
only ever at each edge's own `index(e)`, so both `C0` and the result are
modelled as flat edge sets. -/
def collectEdgesLoop (G : Graph) (C0 : List Edge) :
    Nat → List Edge → List Edge → List Edge → Option (List Edge)
  | 0, _, _, _ => none
  | fuel + 1, Q, Ev, C =>
    match Q.getLast? with
    | none => some C
    | some e =>
      let Q := Q.dropLast
      if Ev.contains e then collectEdgesLoop G C0 fuel Q Ev C
      else
        let C := if C0.contains e then insD C e else C
        let Ev := Ev ++ [e]
        collectEdgesLoop G C0 fuel (Q ++ G.incomingEdgeOf e.1) Ev C

/-- `collectEdgesWithPath(G, C0, Ef)`. -/
def collectEdgesWithPath (fuel : Nat) (G : Graph) (C0 : List Edge)
    (Ef : List Edge) : Option (List Edge) :=
  collectEdgesLoop G C0 fuel Ef [] []

/-- Loop of `ComputeCoverEdges`: pops the deque at the left, expands by weak
ceiling adjacency, and records new cover edges. -/
def coverLoop (fuel0 : Nat) (G : Graph) (Ef : List Edge) :
    Nat → List Edge → List Edge → Option (List Edge)
  | 0, _, _ => none
  | _ + 1, [], C => some C
  | fuel + 1, f :: Q, C => do
    let Ec ← GetWeakCeilingAdjacentEdges fuel0 G f Ef
    let (C, Q) := Ec.foldl
      (fun (p : List Edge × List Edge) e =>
        if p.1.contains e then p else (p.1 ++ [e], p.2 ++ [e]))
      (C, Q)
    coverLoop fuel0 G Ef fuel Q C

/-- `ComputeCoverEdges(G, Ef)`: the fixed point of weak ceiling adjacency
from the final edges, filtered by `collectEdgesWithPath`. -/
def ComputeCoverEdges (fuel : Nat) (G : Graph) (Ef : List Edge) :
    Option (List Edge) := do
  let C := Ef.foldl insD []
  let C ← coverLoop fuel G Ef fuel Ef C
  collectEdgesWithPath fuel G C Ef

/-- Loop of `GetStepPendentEdgesWithReachableGraph`: pops the worklist at the
right, inserts each new edge into the candidate graph `H`, records the
step-pendent edges in `Er`, and extends the worklist with the next edges of
non-final edges and the previous edges of edges not leaving `V0`. -/
def stepPendentLoop (M : Machine) (G : Graph) (C : List Edge)
    (V0 : List Vertex) (Ef : List Edge) :
    Nat → List Edge → Graph → List Edge → Option (Graph × List Edge)
  | 0, _, _, _ => none
  | fuel + 1, T, H, Er =>
    match T.getLast? with
    | none => some (H, Er)
    | some f =>
      let T := T.dropLast
      if H.hasEdge f then stepPendentLoop M G C V0 Ef fuel T H Er
      else
        let H := H.addEdge f
        let (u, v) := f
        let Er :=
          if !C.contains f && G.CountISuccedents M f == 0 then insD Er f else Er
        let Er :=
          if v.tier > 0 && G.CountIPrecedents f == 0 then insD Er f else Er
        let (T, Er) :=
          if !Ef.contains f then
            let En := G.getNextEdges f
            if En.isEmpty then (T, insD Er f) else (T ++ En, Er)
          else (T, Er)
        let (T, Er) :=
          if !V0.contains u then
            let Eb := G.getPrevEdges f
            if Eb.isEmpty then (T, insD Er f) else (T ++ Eb, Er)
          else (T, Er)
        stepPendentLoop M G C V0 Ef fuel T H Er

/-- `GetStepPendentEdgesWithReachableGraph(G, C, V0, Ef)`: builds the
reachable candidate graph `H` and the initial pendent set `Er`.  The seed
`E0` is the union over `V0` of the outgoing edges (a Python set; the model
keeps first-insertion order). -/
def GetStepPendentEdgesWithReachableGraph (fuel : Nat) (M : Machine)
    (G : Graph) (C : List Edge) (V0 : List Vertex) (Ef : List Edge) :
    Option (Graph × List Edge) :=
  let E0 := unionD [] (V0.flatMap G.outgoingEdgeOf)
  stepPendentLoop M G C V0 Ef fuel E0 Graph.empty []

/-- The pendent-pruning cascade of `ComputeFeasibleGraph`: the worklist `T`
is popped at the right; a popped edge still in `H` is removed after queueing
its dependents, and when the last remaining final edge (`Ef_`, the source's
`Ef_` copy) is removed the function immediately returns the empty graph. -/
def pruneCascade (M : Machine) (C : List Edge) (Ef : List Edge) :
    Nat → Graph → List Edge → List Edge → Option Graph
  | 0, _, _, _ => none
  | fuel + 1, H, T, Ef_ =>
    match T.getLast? with
    | none => some H
    | some e =>
      let T := T.dropLast
      if !H.hasEdge e then pruneCascade M C Ef fuel H T Ef_
      else
        let T := if !H.isMergingEdge e then T ++ H.getNextEdges e else T
        let Es := H.GetISuccedents M e
        let T := T ++ Es.filter (fun f => H.CountIPrecedents f == 1)
        let Ep := H.GetIPrecedents e
        let T := T ++ Ep.filter
          (fun f => !C.contains f && H.CountISuccedents M f == 1)
        let T :=
          if !H.isSplittingEdge e then
            T ++ (H.getPrevEdges e).filter (fun f => !Ef.contains f)
          else T
        let H := H.removeEdge e
        if Ef_.contains e then
          let Ef_ := Ef_.erase e
          if Ef_.isEmpty then some Graph.empty
          else pruneCascade M C Ef fuel H T Ef_
        else pruneCascade M C Ef fuel H T Ef_

/-- `ComputeFeasibleGraph(G, V0, Ef, Er_)` (the `Er_` argument defaults to
the empty set in the source and is empty at every call site of the walk
verifier).  `T` is seeded with `Er | Er_` (a Python set union: the model
keeps `Er` order first). -/
def ComputeFeasibleGraph (fuel : Nat) (M : Machine) (G : Graph)
    (V0 : List Vertex) (Ef : List Edge) (Er_ : List Edge) : Option Graph := do
  let C ← ComputeCoverEdges fuel G Ef
  let (H, Er) ← GetStepPendentEdgesWithReachableGraph fuel M G C V0 Ef
  let Ef_ := unionD [] Ef
  let T := unionD Er Er_
  pruneCascade M C Ef fuel H T Ef_

/-! ## verificationWalk.py -/

/-- Loop of `AddFinalEdgesOfObsoleteWalks(G_U, G, V0)`: traverses the
committed graph `G_U` from `V0`; an edge absent from the feasible copy `G`
whose head is above tier 0 and has precedent support in `G` is added to `G`
and recorded as an obsolete final edge. -/
def addFinalObsoleteLoop (M : Machine) (G_U : Graph) :
    Nat → List Edge → List Edge → Graph → List Edge →
      Option (Graph × List Edge)
  | 0, _, _, _, _ => none
  | fuel + 1, T, Ev, G, Eo =>
    match T.getLast? with
    | none => some (G, Eo)
    | some e =>
      let T := T.dropLast
      if Ev.contains e then addFinalObsoleteLoop M G_U fuel T Ev G Eo
      else
        let Ev := Ev ++ [e]
        if G.hasEdge e then
          addFinalObsoleteLoop M G_U fuel (T ++ G_U.getNextEdges e) Ev G Eo
        else if e.2.tier > 0 && G.CountIPrecedents e > 0 then
          addFinalObsoleteLoop M G_U fuel T Ev (G.addEdge e) (insD Eo e)
        else addFinalObsoleteLoop M G_U fuel T Ev G Eo

/-- `AddFinalEdgesOfObsoleteWalks(G_U, G, V0)`; returns the mutated `G`
together with the obsolete final edge set `Eo`. -/
def AddFinalEdgesOfObsoleteWalks (fuel : Nat) (M : Machine) (G_U G : Graph)
    (V0 : List Vertex) : Option (Graph × List Edge) :=
  let ES := unionD [] (V0.flatMap G_U.outgoingEdgeOf)
  addFinalObsoleteLoop M G_U fuel ES [] G []

/-- `FindFirstMergingEdgeOrFinalEdge(G, W)`: the first merging edge among
`W[0..len-2]`, else the final edge.  The source indexes `W[0]`
unconditionally, so an empty walk (never passed by the callers) is `none`. -/
def FindFirstMergingEdgeOrFinalEdge (G : Graph) : List Edge → Option Edge
  | [] => none
  | [e] => some e
  | e :: f :: r =>
    if G.isMergingEdge e then some e
    else FindFirstMergingEdgeOrFinalEdge G (f :: r)

/-- `PruneWalk(G_U, G, V0, Ef, W, preserveObsolete)`: removes the first
merging (or final) edge of `W`, recomputes the feasible graph (targeting
`Eo | Ef` when obsolete ends are preserved), restores the removed edge in
`G`, and strips the obsolete ends from the result when it is nonempty and a
final edge is still present.  Returns `(G_, G)` — the source mutates its
argument `G` (net effect: the removed-then-readded edge migrates to the end
of its edge lists, and preserved obsolete edges stay added), so the mutated
`G` is returned alongside. -/
def PruneWalk (fuel : Nat) (M : Machine) (G_U G : Graph) (V0 : List Vertex)
    (Ef : List Edge) (W : List Edge) (preserveObsolete : Bool) :
    Option (Graph × Graph) := do
  let e_ ← FindFirstMergingEdgeOrFinalEdge G W
  let (G, Eo) ←
    if preserveObsolete then AddFinalEdgesOfObsoleteWalks fuel M G_U G V0
    else some (G, [])
  let G := G.removeEdge e_
  let G_ ← ComputeFeasibleGraph fuel M G V0 (unionD Eo Ef) []
  let G := G.addEdge e_
  let G_ :=
    if G_.size > 0 && Ef.any (fun f => G.hasEdge f) then
      Eo.foldl (fun g e => if g.hasEdge e then g.removeEdge e else g) G_
    else G_
  some (G_, G)

/-- The surface of `TakeArbitraryWalk`: a `CellArray` of kind `TYPE_NONE`
holding the `TransitionCase` (by key) currently in force at each tape index.
`base` and `items` mirror the Python cell array exactly, including the
read-side auto-expansion and the write-side range assertion. -/
structure Surface where
  base : Int
  items : List (Option TCKey)
deriving DecidableEq, Repr

def Surface.empty : Surface := ⟨0, []⟩

/-- `CellArray.__getitem__` for kind `TYPE_NONE`: in-range reads return the
stored item; out-of-range reads first extend the array with `None` items (in
either direction) and return `None`. -/
def Surface.read (S : Surface) (i : Int) : Surface × Option TCKey :=
  if S.base ≤ i ∧ i < S.base + S.items.length then
    (S, (S.items.getD (i - S.base).toNat none))
  else if i ≥ S.base + S.items.length then
    ({ S with
        items := S.items ++ List.replicate (i - (S.base + S.items.length)).toNat none ++ [none] },
      none)
  else
    ({ base := i, items := List.replicate (S.base - i).toNat none ++ S.items }, none)

/-- `CellArray.__setitem__`: asserts `base - 1 ≤ i ≤ base + len`; `none`
models the assertion failure. -/
def Surface.write (S : Surface) (i : Int) (t : TCKey) : Option Surface :=
  if i == S.base - 1 then some ⟨i, some t :: S.items⟩
  else if i == S.base + S.items.length then
    some ⟨S.base, S.items ++ [some t]⟩
  else if S.base ≤ i ∧ i < S.base + S.items.length then
    some ⟨S.base, S.items.set (i - S.base).toNat (some t)⟩
  else none

/-- One candidate check of the `EN` filter in `TakeArbitraryWalk`:
`e[1].tier()==0 or G.IPrecedent(e[1])==S[e[1].index()]`.  Reading the
surface expands it (threaded through), and comparing the precedent
`TransitionCase` against a `None` surface entry raises in the source
(`TransitionCase.__eq__` dereferences the operand), modelled as `none`. -/
def surfaceCheck (S : Surface) (f : Edge) : Option (Surface × Bool) :=
  if f.2.tier == 0 then some (S, true)
  else
    let (S, r) := S.read f.2.index
    match r with
    | none => none
    | some key => some (S, f.2.iprecedentKey == key)

/-- Evaluate the `EN` filter on all candidates left to right, threading the
surface. -/
def filterCandidates (S : Surface) :
    List Edge → Option (Surface × List Edge)
  | [] => some (S, [])
  | f :: r => do
    let (S, keep) ← surfaceCheck S f
    let (S, rest) ← filterCandidates S r
    some (S, if keep then f :: rest else rest)

/-- The `while e is not None` loop of `TakeArbitraryWalk`. -/
def walkLoop (M : Machine) (G : Graph) :
    Nat → Surface → List Edge → Edge → Option (List Edge)
  | 0, _, _, _ => none
  | fuel + 1, S, W, e => do
    let (u, _) := e
    let S ← S.write u.index (u.index, u.tier, u.state, u.symbol)
    let W := W ++ [e]
    let (S, EN) ← filterCandidates S (G.getNextEdges e)
    match EN with
    | [] => some W
    | f :: _ => walkLoop M G fuel S W f

/-- `TakeArbitraryWalk(G, V0)`: starts from the first outgoing edge of the
first vertex of `V0` (the source takes `list(V0)[0]`; the model's `V0` is an
ordered list, and every call site passes a singleton) and always follows the
first surface-consistent next edge. -/
def TakeArbitraryWalk (fuel : Nat) (M : Machine) (G : Graph)
    (V0 : List Vertex) : Option (List Edge) :=
  match V0 with
  | [] => none
  | v0 :: _ =>
    match G.outgoingEdgeOf v0 with
    | [] => some []
    | e :: _ => walkLoop M G fuel Surface.empty [] e

/-- `FindDisjointEdge(R, W)`: the first edge of the walk absent from the
reference graph. -/
def FindDisjointEdge (R : Graph) (W : List Edge) : Option Edge :=
  W.find? (fun e => !R.hasEdge e)

/-- Loop of `FindFeasibleOrDisjointEdge`.  The loop body's
`elif G.size()>0:` guard is implied by the `while` condition, so the model
takes that branch directly. -/
def ffdLoop (M : Machine) (G_U : Graph) (V0 : List Vertex) (ef : Edge) :
    Nat → Graph → Graph → Option (Option Edge × Option (List Edge))
  | 0, _, _ => none
  | fuel + 1, G, R => do
    if G.size == 0 then some (none, none)
    else do
      let W ← TakeArbitraryWalk fuel M G V0
      if W.isEmpty then some (none, none)
      else if W.getLast? == some ef || W.contains ef then some (some ef, some W)
      else if R.size > 0 then some (FindDisjointEdge R W, some W)
      else do
        let (H, G) ← PruneWalk fuel M G_U G V0 [ef] W false
        if H.size == 0 then
          let R := W.foldl Graph.addEdge R
          let (G2, _) ← PruneWalk fuel M G_U G V0 [ef] W true
          ffdLoop M G_U V0 ef fuel G2 R
        else ffdLoop M G_U V0 ef fuel H R

/-- `FindFeasibleOrDisjointEdge(G_U, G, V0, ef)`: works on a copy of `G` and
returns either `(ef, W)` for a feasible walk, `(f, W)` for a disjoint (or
`None`) edge, or `(None, None)`. -/
def FindFeasibleOrDisjointEdge (fuel : Nat) (M : Machine) (G_U G : Graph)
    (V0 : List Vertex) (ef : Edge) :
    Option (Option Edge × Option (List Edge)) :=
  ffdLoop M G_U V0 ef fuel G.getCopyedGraph Graph.empty

/-- Loop of `VerifyExistenceOfWalk`. -/
def verifyLoop (M : Machine) (G0 : Graph) (V0 : List Vertex) (ef : Edge) :
    Nat → Graph → Option (Option (List Edge))
  | 0, _ => none
  | fuel + 1, G => do
    if G.size == 0 then some none
    else do
      let (e, W) ← FindFeasibleOrDisjointEdge fuel M G0 G V0 ef
      match e with
      | some x =>
        if x == ef then some W
        else do
          let G := G.removeEdge x
          let G ← ComputeFeasibleGraph fuel M G V0 [ef] []
          verifyLoop M G0 V0 ef fuel G
      | none => some none

/-- `VerifyExistenceOfWalk(G0, V0, ef)`: computes the feasible graph of `G0`
with respect to `{ef}` and iterates `FindFeasibleOrDisjointEdge`, removing
disjoint edges, until a walk is found (`some (some W)`) or none exists
(`some none`). -/
def VerifyExistenceOfWalk (fuel : Nat) (M : Machine) (G0 : Graph)
    (V0 : List Vertex) (ef : Edge) : Option (Option (List Edge)) := do
  let G ← ComputeFeasibleGraph fuel M G0 V0 [ef] []
  verifyLoop M G0 V0 ef fuel G

/-! ## Well-formedness and operation sequences -/

/-- The per-entry contribution to the structural edge count of a slice: each
edge is stored exactly once in a right list (`right_outgoing` of its lower
endpoint for a rightward edge, `right_incoming` of its lower endpoint for a
leftward one). -/
def cntOf (l : EdgeListOf) : Nat :=
  l.right_incoming.length + l.right_outgoing.length

/-- The number of edges structurally stored in a slice. -/
def EdgeSlice.structCount (s : EdgeSlice) : Nat :=
  (s.entries.map (fun q => cntOf q.2)).sum

/-- Consistency of a single edge-list record at slice `i`, vertex `v`, with
the rest of the graph: every stored endpoint is at the index dictated by its
list, and the mirror list of the opposite endpoint stores `v` back; no list
holds duplicates. -/
def entryOK (G : Graph) (i : Int) (v : Vertex) (l : EdgeListOf) : Prop :=
  l.right_outgoing.Nodup ∧ l.left_incoming.Nodup ∧
  l.left_outgoing.Nodup ∧ l.right_incoming.Nodup ∧
  (∀ w ∈ l.right_outgoing,
    v.index = i ∧ w.index = i + 1 ∧ v ∈ (G.el i w).left_incoming) ∧
  (∀ u ∈ l.left_incoming,
    v.index = i + 1 ∧ u.index = i ∧ v ∈ (G.el i u).right_outgoing) ∧
  (∀ w ∈ l.left_outgoing,
    v.index = i + 1 ∧ w.index = i ∧ v ∈ (G.el i w).right_incoming) ∧
  (∀ u ∈ l.right_incoming,
    v.index = i ∧ u.index = i + 1 ∧ v ∈ (G.el i u).left_outgoing)

/-- Well-formedness of a graph state: the slice list is sorted by index with
each vertex appearing at most once per slice, every stored edge-list record
is `entryOK`, and both the per-slice and the global counters agree with the
structurally stored edges.  Every graph reachable from
`DynamicComputationGraph()` through non-aborting `addEdge`/`removeEdge`
calls satisfies this (proved below), and it is decidable, so concrete
graphs can be checked by evaluation. -/
def WF (G : Graph) : Prop :=
  List.Pairwise (fun p q => p.1 < q.1) G.slices ∧
  (∀ p ∈ G.slices,
    (p.2.entries.map Prod.fst).Nodup ∧
    p.2.edgeCount = p.2.structCount ∧
    ∀ q ∈ p.2.entries, entryOK G p.1 q.1 q.2) ∧
  G.edgeCount = (G.slices.map (fun p => p.2.structCount)).sum

instance (G : Graph) (i : Int) (v : Vertex) (l : EdgeListOf) :
    Decidable (entryOK G i v l) := by
  unfold entryOK; infer_instance

instance (G : Graph) : Decidable (WF G) := by
  unfold WF; infer_instance

/-- A graph mutation: one `addEdge` or `removeEdge` call. -/
inductive GOp where
  | add (e : Edge)
  | remove (e : Edge)
deriving DecidableEq, Repr

/-- Apply a mutation. -/
def GOp.apply (G : Graph) : GOp → Graph
  | .add e => G.addEdge e
  | .remove e => G.removeEdge e

/-- Apply a sequence of mutations. -/
def applyOps (G : Graph) (ops : List GOp) : Graph :=
  ops.foldl GOp.apply G

/-- An operation respects the `addEdge` precondition `|index(u)-index(v)|==1`
(under which the source's assertions pass; see `addEdgeRun`). -/
def GOp.adjacentOk : GOp → Prop
  | .add e => e.1.index + 1 = e.2.index ∨ e.2.index + 1 = e.1.index
  | .remove _ => True

instance (o : GOp) : Decidable o.adjacentOk := by
  cases o <;> (unfold GOp.adjacentOk; infer_instance)

/-- The conservation property of §8 of the spec: the global edge count
equals the sum of the per-slice edge counts over all materialized slices. -/
def conservation (G : Graph) : Prop :=
  G.edgeCount = (G.slices.map (fun p => p.2.edgeCount)).sum

/-- Consecutive edges of a walk are index-adjacent in the chain sense: each
edge starts at the head of the previous one. -/
def chainB : List Edge → Bool
  | [] => true
  | [_] => true
  | e :: f :: r => e.2 == f.1 && chainB (f :: r)

/-- `l` is a nonempty chain of edges of `G` starting at a vertex of `V0`. -/
def chainFromB (G : Graph) (V0 : List Vertex) (l : List Edge) : Bool :=
  match l with
  | [] => false
  | e :: _ => V0.contains e.1 && l.all G.hasEdge && chainB l

/-- An edge is reachable from `V0` when some chain of edges of `G` from a
`V0` vertex ends at it. -/
def EdgeReachable (G : Graph) (V0 : List Vertex) (f : Edge) : Prop :=
  ∃ l, chainFromB G V0 l = true ∧ l.getLast? = some f

/-- `S` absorbs every chain from `V0`: it contains all edges leaving `V0`
and is closed under `getNextEdges`.  Used to refute reachability on concrete
graphs. -/
def closedUnderB (G : Graph) (V0 : List Vertex) (S : List Edge) : Bool :=
  V0.all (fun v0 => (G.outgoingEdgeOf v0).all (fun e => S.contains e)) &&
    S.all (fun e => (G.getNextEdges e).all (fun f => S.contains f))

/-! ## Concrete instances

`exM` drives every transition to `("q", "a", +1)`; `exMb` outputs `"b"`
instead.  The graphs below realize the counterexamples and witnesses traced
from the source; their edge insertion orders are part of the construction
(they fix the Python list orders). -/

def exM : Machine := ⟨fun _ _ => ("q", "a", 1), ["a"]⟩

def exMb : Machine := ⟨fun _ _ => ("q", "b", 1), ["a", "b"]⟩

/-- C1/C4 instance: `v0 → a1` and `v0 → b1` with `b1` at tier 1 and no
precedent support, both edges final. -/
def xv0 : Vertex := ⟨0, 0, "q", "a", none⟩
def xa1 : Vertex := ⟨1, 0, "q", "a", none⟩
def xb1 : Vertex := ⟨1, 1, "q", "a", some ("q", "a")⟩
def xe0 : Edge := (xv0, xa1)
def xf : Edge := (xv0, xb1)
def xG : Graph := (Graph.empty.addEdge xe0).addEdge xf

/-- C1 instance for the empty-result part: a tier-0 cycle behind `v0` with
tier-1 support gadgets, and a disconnected final edge at indices 5–6. -/
def yv0 : Vertex := ⟨0, 0, "q", "a", none⟩
def ya : Vertex := ⟨1, 0, "q", "a", none⟩
def yb : Vertex := ⟨2, 0, "q", "a", none⟩
def yA1 : Vertex := ⟨1, 1, "q", "a", some ("q", "a")⟩
def yB2 : Vertex := ⟨2, 1, "q", "a", some ("q", "a")⟩
def yV01 : Vertex := ⟨0, 1, "q", "a", some ("q", "a")⟩
def yx : Vertex := ⟨5, 0, "q", "a", none⟩
def yy : Vertex := ⟨6, 0, "q", "a", none⟩
def yEf : Edge := (yx, yy)
def yG : Graph :=
  [((yv0, ya) : Edge), (ya, yb), (yb, ya), (yA1, yV01), (yB2, yA1),
    (yA1, yB2), (yx, yy)].foldl Graph.addEdge Graph.empty

/-- The closure set witnessing that `yEf` is unreachable from `yv0` in
`yG`. -/
def yClosure : List Edge := [(yv0, ya), (ya, yb), (yb, ya)]

/-- C2 instance: a verified walk that passes through the target edge
`zef = (a, b)` and continues to `(b, c)`, stalling there on the surface
constraint.  The `p`-branch makes the post-target edges reachable in the
candidate graph, and the gadget edges give every kept edge precedent and
succedent support. -/
def zv0 : Vertex := ⟨0, 0, "s0", "a", none⟩
def za : Vertex := ⟨1, 0, "sa", "a", none⟩
def zb : Vertex := ⟨2, 0, "sb", "a", none⟩
def zc : Vertex := ⟨3, 0, "sc", "a", none⟩
def zp1 : Vertex := ⟨1, 0, "sp1", "a", none⟩
def zp2 : Vertex := ⟨2, 0, "sp2", "a", none⟩
def zD : Vertex := ⟨2, 1, "sD", "a", some ("sx", "a")⟩
def zDd : Vertex := ⟨3, 1, "sDd", "a", some ("sy", "a")⟩
def zfD : Vertex := ⟨2, 0, "sx", "a", none⟩
def zfDd : Vertex := ⟨3, 0, "sy", "a", none⟩
def zg2 : Vertex := ⟨2, 0, "g2", "a", none⟩
def zg3 : Vertex := ⟨3, 0, "g3", "a", none⟩
def zg4 : Vertex := ⟨1, 0, "g4", "a", none⟩
def zg5 : Vertex := ⟨2, 0, "g5", "a", none⟩
def zg6 : Vertex := ⟨3, 0, "g6", "a", none⟩
def zg7 : Vertex := ⟨3, 0, "g7", "a", none⟩
def zg8 : Vertex := ⟨3, 0, "g8", "a", none⟩
def zg9 : Vertex := ⟨2, 0, "g9", "a", none⟩
def zg10 : Vertex := ⟨2, 0, "g10", "a", none⟩
def zV0s : Vertex := ⟨0, 1, "t0", "a", some ("s0", "a")⟩
def zP1s : Vertex := ⟨1, 1, "t1", "a", some ("sp1", "a")⟩
def zP2s : Vertex := ⟨2, 1, "t2", "a", some ("sp2", "a")⟩
def zB1s : Vertex := ⟨2, 1, "t3", "a", some ("sb", "a")⟩
def zC1s : Vertex := ⟨3, 1, "t4", "a", some ("sc", "a")⟩
def zD2s : Vertex := ⟨2, 2, "t5", "a", some ("sD", "a")⟩
def zDd2s : Vertex := ⟨3, 2, "t6", "a", some ("sDd", "a")⟩
def ze1 : Edge := (zv0, za)
def zef : Edge := (za, zb)
def ze4 : Edge := (zb, zc)
def zG : Graph :=
  [((zv0, zp1) : Edge), ze1, zef, ze4, (zp1, zp2), (zp2, zc), (zc, zD),
    (zD, zDd), (zDd, zD), (zfD, zg7), (zfDd, zg9), (zg4, zV0s),
    (zg5, zP1s), (zg6, zP2s), (zg3, zB1s), (zg2, zC1s), (zg8, zD2s),
    (zg10, zDd2s)].foldl Graph.addEdge Graph.empty

/-- C8/C9 instance vertices over `exMb` (whose output symbol is `"b"`). -/
def bu : Vertex := ⟨0, 0, "q", "a", none⟩
def bz : Vertex := ⟨1, 0, "q", "a", none⟩
def bw : Vertex := ⟨0, 1, "q", "a", some ("q", "a")⟩
def bz2 : Vertex := ⟨1, 0, "q2", "a", none⟩
def bG : Graph :=
  [((bu, bz) : Edge), (bw, bz2)].foldl Graph.addEdge Graph.empty

/-- C9 instance: a copy of the one-edge graph `cG` is extended with the
index-adjacent edge `(cw, cx)` (indices 1 and 2, so every `addEdge`
assertion passes); registering the new tier-1 vertex `cw` feeds
`ISuccedent` of `bz` through the shared `V` axis. -/
def cG : Graph := Graph.empty.addEdge (bu, bz)
def cw : Vertex := ⟨1, 1, "q", "b", some ("q", "a")⟩
def cx : Vertex := ⟨2, 0, "q", "a", none⟩

/-! ## Lookup/update lemmas for the sparse storage -/

theorem find?_insertSlice_self (i : Int) (s : EdgeSlice)
    (l : List (Int × EdgeSlice)) :
    (insertSlice i s l).find? (fun p => p.1 == i) = some (i, s) := by
  induction l with
  | nil =>
    rw [insertSlice, List.find?_cons_of_pos _ (by simp)]
  | cons p r ih =>
    rw [insertSlice]
    by_cases h1 : i < p.1
    · rw [if_pos h1, List.find?_cons_of_pos _ (by simp)]
    · rw [if_neg h1]
      by_cases h2 : i = p.1
      · rw [if_pos (beq_iff_eq.mpr h2), List.find?_cons_of_pos _ (by simp)]
      · rw [if_neg (by simp [h2]),
          List.find?_cons_of_neg _ (by simp [Ne.symm h2]), ih]

theorem find?_insertSlice_ne (i j : Int) (s : EdgeSlice)
    (l : List (Int × EdgeSlice)) (h : j ≠ i) :
    (insertSlice i s l).find? (fun p => p.1 == j) =
      l.find? (fun p => p.1 == j) := by
  induction l with
  | nil =>
    rw [insertSlice, List.find?_cons_of_neg _ (by simp [Ne.symm h])]
  | cons p r ih =>
    rw [insertSlice]
    by_cases h1 : i < p.1
    · rw [if_pos h1, List.find?_cons_of_neg _ (by simp [Ne.symm h])]
    · rw [if_neg h1]
      by_cases h2 : i = p.1
      · rw [if_pos (beq_iff_eq.mpr h2),
          List.find?_cons_of_neg _ (by simp [Ne.symm h])]
        rw [List.find?_cons_of_neg _ (by simp [← h2, Ne.symm h])]
      · rw [if_neg (by simp [h2])]
        by_cases h3 : p.1 = j
        · rw [List.find?_cons_of_pos _ (by simp [h3]),
            List.find?_cons_of_pos _ (by simp [h3])]
        · rw [List.find?_cons_of_neg _ (by simp [h3]),
            List.find?_cons_of_neg _ (by simp [h3]), ih]

theorem slice_updSlice_self (G : Graph) (i : Int) (f : EdgeSlice → EdgeSlice) :
    (G.updSlice i f).slice i = f (G.slice i) := by
  unfold Graph.updSlice Graph.slice
  rw [find?_insertSlice_self]

theorem slice_updSlice_ne (G : Graph) (i j : Int) (f : EdgeSlice → EdgeSlice)
    (h : j ≠ i) : (G.updSlice i f).slice j = G.slice j := by
  unfold Graph.updSlice Graph.slice
  rw [find?_insertSlice_ne _ _ _ _ h]

theorem find?_mapSet (l : List (Vertex × EdgeListOf)) (v : Vertex)
    (f : EdgeListOf → EdgeListOf) :
    (l.map (fun p => if p.1 == v then (p.1, f p.2) else p)).find?
        (fun p => p.1 == v) =
      (l.find? (fun p => p.1 == v)).map (fun q => (q.1, f q.2)) := by
  induction l with
  | nil => simp
  | cons p r ih =>
    rw [List.map_cons]
    by_cases h : p.1 = v
    · rw [if_pos (beq_iff_eq.mpr h), List.find?_cons_of_pos _ (by simp [h]),
        List.find?_cons_of_pos _ (by simp [h])]
      rfl
    · rw [if_neg (by simp [h]), List.find?_cons_of_neg _ (by simp [h]),
        List.find?_cons_of_neg _ (by simp [h]), ih]

theorem find?_mapSet_ne (l : List (Vertex × EdgeListOf)) (v w : Vertex)
    (f : EdgeListOf → EdgeListOf) (h : w ≠ v) :
    (l.map (fun p => if p.1 == v then (p.1, f p.2) else p)).find?
        (fun p => p.1 == w) =
      l.find? (fun p => p.1 == w) := by
  induction l with
  | nil => simp
  | cons p r ih =>
    rw [List.map_cons]
    by_cases h1 : p.1 = v
    · have h2 : ¬p.1 = w := fun hc => h ((hc ▸ h1 : w = v))
      rw [if_pos (beq_iff_eq.mpr h1), List.find?_cons_of_neg _ (by simp [h2]),
        List.find?_cons_of_neg _ (by simp [h2]), ih]
    · by_cases h2 : p.1 = w
      · rw [if_neg (by simp [h1]), List.find?_cons_of_pos _ (by simp [h2]),
          List.find?_cons_of_pos _ (by simp [h2])]
      · rw [if_neg (by simp [h1]), List.find?_cons_of_neg _ (by simp [h2]),
          List.find?_cons_of_neg _ (by simp [h2]), ih]

theorem find?_append_of_none {α : Type} (p : α → Bool) (l1 l2 : List α)
    (h : l1.find? p = none) : (l1 ++ l2).find? p = l2.find? p := by
  induction l1 with
  | nil => simp
  | cons a r ih =>
    by_cases h1 : p a = true
    · rw [List.find?_cons_of_pos _ h1] at h
      exact absurd h (by simp)
    · rw [List.find?_cons_of_neg _ h1] at h
      rw [List.cons_append, List.find?_cons_of_neg _ h1]
      exact ih h

theorem find?_append_of_some {α : Type} {p : α → Bool} {l1 : List α}
    {q : α} (l2 : List α) (h : l1.find? p = some q) :
    (l1 ++ l2).find? p = some q := by
  induction l1 with
  | nil => simp at h
  | cons a r ih =>
    by_cases h1 : p a = true
    · rw [List.find?_cons_of_pos _ h1] at h
      rw [List.cons_append, List.find?_cons_of_pos _ h1]
      exact h
    · rw [List.find?_cons_of_neg _ h1] at h
      rw [List.cons_append, List.find?_cons_of_neg _ h1]
      exact ih h

theorem get_set_self (s : EdgeSlice) (v : Vertex)
    (f : EdgeListOf → EdgeListOf) : (s.set v f).get v = f (s.get v) := by
  unfold EdgeSlice.set EdgeSlice.get
  cases h : s.entries.find? (fun p => p.1 == v) with
  | none =>
    simp only [h, Option.isSome_none, Bool.false_eq_true, if_false]
    rw [find?_append_of_none _ _ _ h, List.find?_cons_of_pos _ (by simp)]
  | some q =>
    simp only [h, Option.isSome_some, if_true]
    rw [find?_mapSet, h]
    rfl

theorem get_set_ne (s : EdgeSlice) (v w : Vertex)
    (f : EdgeListOf → EdgeListOf) (h : w ≠ v) :
    (s.set v f).get w = s.get w := by
  unfold EdgeSlice.set EdgeSlice.get
  cases hf : s.entries.find? (fun p => p.1 == v) with
  | none =>
    simp only [hf, Option.isSome_none, Bool.false_eq_true, if_false]
    cases hw : s.entries.find? (fun p => p.1 == w) with
    | none =>
      rw [find?_append_of_none _ _ _ hw,
        List.find?_cons_of_neg _ (by simp [Ne.symm h])]
      rfl
    | some q =>
      rw [find?_append_of_some _ hw]
  | some q =>
    simp only [hf, Option.isSome_some, if_true]
    rw [find?_mapSet_ne _ _ _ _ h]

theorem get_setCnt (s : EdgeSlice) (n : Nat) (v : Vertex) :
    ({ s with edgeCount := n } : EdgeSlice).get v = s.get v := rfl

theorem el_updSlice_cnt (G : Graph) (i : Int) (g : EdgeSlice → Nat)
    (j : Int) (w : Vertex) :
    (G.updSlice i (fun s => { s with edgeCount := g s })).el j w = G.el j w := by
  unfold Graph.el
  by_cases h : j = i
  · subst h; rw [slice_updSlice_self]; exact get_setCnt ..
  · rw [slice_updSlice_ne _ _ _ _ h]

theorem el_withCount (G : Graph) (n : Nat) (j : Int) (w : Vertex) :
    ({ G with edgeCount := n } : Graph).el j w = G.el j w := rfl

theorem el_updEl_self (G : Graph) (i : Int) (v : Vertex)
    (f : EdgeListOf → EdgeListOf) : (G.updEl i v f).el i v = f (G.el i v) := by
  unfold Graph.updEl Graph.el
  rw [slice_updSlice_self, get_set_self]

theorem el_updEl_ne (G : Graph) (i : Int) (v : Vertex)
    (f : EdgeListOf → EdgeListOf) (j : Int) (w : Vertex)
    (h : ¬(j = i ∧ w = v)) : (G.updEl i v f).el j w = G.el j w := by
  unfold Graph.updEl Graph.el
  by_cases hj : j = i
  · subst hj
    have hw : w ≠ v := fun hc => h ⟨rfl, hc⟩
    rw [slice_updSlice_self, get_set_ne _ _ _ _ hw]
  · rw [slice_updSlice_ne _ _ _ _ hj]

theorem edgeCount_updSlice (G : Graph) (i : Int) (f : EdgeSlice → EdgeSlice) :
    (G.updSlice i f).edgeCount = G.edgeCount := rfl

theorem edgeCount_updEl (G : Graph) (i : Int) (v : Vertex)
    (f : EdgeListOf → EdgeListOf) : (G.updEl i v f).edgeCount = G.edgeCount := rfl

theorem reg_updSlice (G : Graph) (i : Int) (f : EdgeSlice → EdgeSlice) :
    (G.updSlice i f).reg = G.reg := rfl

theorem reg_updEl (G : Graph) (i : Int) (v : Vertex)
    (f : EdgeListOf → EdgeListOf) : (G.updEl i v f).reg = G.reg := rfl

theorem slices_addVertex (G : Graph) (v : Vertex) :
    (G.addVertex v).slices = G.slices := by
  unfold Graph.addVertex; split <;> rfl

theorem el_addVertex (G : Graph) (v : Vertex) (i : Int) (w : Vertex) :
    (G.addVertex v).el i w = G.el i w := by
  unfold Graph.el Graph.slice
  rw [slices_addVertex]

theorem edgeCount_addVertex (G : Graph) (v : Vertex) :
    (G.addVertex v).edgeCount = G.edgeCount := by
  unfold Graph.addVertex; split <;> rfl

theorem hasEdge_addVertex (G : Graph) (v : Vertex) (e : Edge) :
    (G.addVertex v).hasEdge e = G.hasEdge e := by
  obtain ⟨x, y⟩ := e
  simp only [Graph.hasEdge, el_addVertex]

/-! ## Basic lemmas about addEdge / removeEdge / hasEdge -/

theorem hasEdge_empty (e : Edge) : Graph.empty.hasEdge e = false := by
  obtain ⟨u, v⟩ := e
  rfl

theorem addEdge_of_hasEdge {G : Graph} {e : Edge} (h : G.hasEdge e = true) :
    G.addEdge e = G := by
  obtain ⟨u, v⟩ := e
  unfold Graph.addEdge
  simp [h]

theorem removeEdge_of_not_hasEdge {G : Graph} {e : Edge}
    (h : G.hasEdge e = false) : G.removeEdge e = G := by
  obtain ⟨u, v⟩ := e
  unfold Graph.removeEdge
  simp [h]

theorem el_addEdge_lt {G : Graph} {u v : Vertex}
    (h : G.hasEdge (u, v) = false) (hlt : u.index < v.index) (j : Int)
    (w : Vertex) :
    (G.addEdge (u, v)).el j w =
      if j = u.index ∧ w = u then
        { G.el j w with right_outgoing := (G.el j w).right_outgoing ++ [v] }
      else if j = u.index ∧ w = v then
        { G.el j w with left_incoming := (G.el j w).left_incoming ++ [u] }
      else G.el j w := by
  have hne : u ≠ v := fun hc => by subst hc; exact lt_irrefl _ hlt
  unfold Graph.addEdge
  simp only [h, Bool.false_eq_true, if_false, hlt, if_true]
  simp only [el_withCount, el_updSlice_cnt]
  by_cases h2 : j = u.index ∧ w = u
  · obtain ⟨rfl, rfl⟩ := h2
    rw [el_updEl_ne _ _ _ _ _ _ (fun hc => hne hc.2), el_updEl_self]
    simp [el_addVertex]
  · by_cases h3 : j = u.index ∧ w = v
    · obtain ⟨rfl, rfl⟩ := h3
      rw [el_updEl_self]
      rw [el_updEl_ne _ _ _ _ _ _ (fun hc => hne hc.2.symm)]
      simp [el_addVertex, h2, Ne.symm hne]
    · rw [el_updEl_ne _ _ _ _ _ _ h3, el_updEl_ne _ _ _ _ _ _ h2]
      simp [el_addVertex, h2, h3]

theorem el_addEdge_ge_ne {G : Graph} {u v : Vertex}
    (h : G.hasEdge (u, v) = false) (hge : ¬u.index < v.index) (hne : u ≠ v)
    (j : Int) (w : Vertex) :
    (G.addEdge (u, v)).el j w =
      if j = v.index ∧ w = u then
        { G.el j w with left_outgoing := (G.el j w).left_outgoing ++ [v] }
      else if j = v.index ∧ w = v then
        { G.el j w with right_incoming := (G.el j w).right_incoming ++ [u] }
      else G.el j w := by
  unfold Graph.addEdge
  simp only [h, Bool.false_eq_true, if_false, hge, if_true]
  simp only [el_withCount, el_updSlice_cnt]
  by_cases h2 : j = v.index ∧ w = u
  · obtain ⟨rfl, rfl⟩ := h2
    rw [el_updEl_ne _ _ _ _ _ _ (fun hc => hne hc.2), el_updEl_self]
    simp [el_addVertex, hne]
  · by_cases h3 : j = v.index ∧ w = v
    · obtain ⟨rfl, rfl⟩ := h3
      rw [el_updEl_self]
      rw [el_updEl_ne _ _ _ _ _ _ (fun hc => hne hc.2.symm)]
      simp [el_addVertex, h2, Ne.symm hne]
    · rw [el_updEl_ne _ _ _ _ _ _ h3, el_updEl_ne _ _ _ _ _ _ h2]
      simp [el_addVertex, h2, h3]

theorem el_addEdge_ge_eq {G : Graph} {u v : Vertex}
    (h : G.hasEdge (u, v) = false) (hge : ¬u.index < v.index) (heq : u = v)
    (j : Int) (w : Vertex) :
    (G.addEdge (u, v)).el j w =
      if j = v.index ∧ w = v then
        { G.el j w with
            left_outgoing := (G.el j w).left_outgoing ++ [v],
            right_incoming := (G.el j w).right_incoming ++ [u] }
      else G.el j w := by
  subst heq
  unfold Graph.addEdge
  simp only [h, Bool.false_eq_true, if_false, hge, if_true]
  simp only [el_withCount, el_updSlice_cnt]
  by_cases h2 : j = u.index ∧ w = u
  · obtain ⟨rfl, rfl⟩ := h2
    rw [el_updEl_self, el_updEl_self]
    simp [el_addVertex]
  · rw [el_updEl_ne _ _ _ _ _ _ h2, el_updEl_ne _ _ _ _ _ _ h2]
    simp [el_addVertex, h2]

theorem hasEdge_addEdge_self (G : Graph) (e : Edge) :
    (G.addEdge e).hasEdge e = true := by
  obtain ⟨u, v⟩ := e
  by_cases h : G.hasEdge (u, v) = true
  · rw [addEdge_of_hasEdge h]; exact h
  · have h' : G.hasEdge (u, v) = false := by simpa using h
    simp only [Graph.hasEdge, Bool.or_eq_true, List.elem_eq_mem,
      decide_eq_true_eq]
    by_cases hlt : u.index < v.index
    · have hmin : min u.index v.index = u.index := min_eq_left (le_of_lt hlt)
      left
      rw [hmin, el_addEdge_lt h' hlt]
      simp
    · have hmin : min u.index v.index = v.index :=
        min_eq_right (le_of_not_lt hlt)
      right
      rw [hmin]
      by_cases heq : u = v
      · rw [el_addEdge_ge_eq h' hlt heq]
        simp
      · rw [el_addEdge_ge_ne h' hlt heq]
        simp [Ne.symm heq]

theorem mem_ro_addEdge {G : Graph} {e : Edge} {j : Int} {w x : Vertex}
    (hx : x ∈ (G.el j w).right_outgoing) :
    x ∈ ((G.addEdge e).el j w).right_outgoing := by
  obtain ⟨u, v⟩ := e
  by_cases h : G.hasEdge (u, v) = true
  · rw [addEdge_of_hasEdge h]; exact hx
  · have h' : G.hasEdge (u, v) = false := by simpa using h
    by_cases hlt : u.index < v.index
    · rw [el_addEdge_lt h' hlt]
      split
      · exact List.mem_append_left _ hx
      · split <;> exact hx
    · by_cases hne : u = v
      · rw [el_addEdge_ge_eq h' hlt hne]
        split <;> exact hx
      · rw [el_addEdge_ge_ne h' hlt hne]
        split
        · exact hx
        · split <;> exact hx

theorem mem_ri_addEdge {G : Graph} {e : Edge} {j : Int} {w x : Vertex}
    (hx : x ∈ (G.el j w).right_incoming) :
    x ∈ ((G.addEdge e).el j w).right_incoming := by
  obtain ⟨u, v⟩ := e
  by_cases h : G.hasEdge (u, v) = true
  · rw [addEdge_of_hasEdge h]; exact hx
  · have h' : G.hasEdge (u, v) = false := by simpa using h
    by_cases hlt : u.index < v.index
    · rw [el_addEdge_lt h' hlt]
      split
      · exact hx
      · split <;> exact hx
    · by_cases hne : u = v
      · rw [el_addEdge_ge_eq h' hlt hne]
        split
        · exact List.mem_append_left _ hx
        · exact hx
      · rw [el_addEdge_ge_ne h' hlt hne]
        split
        · exact hx
        · split
          · exact List.mem_append_left _ hx
          · exact hx

theorem hasEdge_mono_addEdge {G : Graph} {e f : Edge}
    (h : G.hasEdge f = true) : (G.addEdge e).hasEdge f = true := by
  obtain ⟨x, y⟩ := f
  unfold Graph.hasEdge at h ⊢
  simp only [Bool.or_eq_true, List.elem_eq_mem, decide_eq_true_eq] at h ⊢
  rcases h with h | h
  · exact Or.inl (mem_ro_addEdge h)
  · exact Or.inr (mem_ri_addEdge h)

theorem hasEdge_addEdge_inv {G : Graph} {e f : Edge}
    (h : (G.addEdge e).hasEdge f = true) : f = e ∨ G.hasEdge f = true := by
  obtain ⟨u, v⟩ := e
  obtain ⟨x, y⟩ := f
  by_cases he : G.hasEdge (u, v) = true
  · rw [addEdge_of_hasEdge he] at h; exact Or.inr h
  · have he' : G.hasEdge (u, v) = false := by simpa using he
    unfold Graph.hasEdge at h
    simp only [Bool.or_eq_true, List.elem_eq_mem, decide_eq_true_eq] at h
    by_cases hlt : u.index < v.index
    · rw [el_addEdge_lt he' hlt, el_addEdge_lt he' hlt] at h
      rcases h with h | h
      · split at h
        · rcases List.mem_append.mp h with h' | h'
          · refine Or.inr ?_
            unfold Graph.hasEdge
            simp only [Bool.or_eq_true, List.elem_eq_mem,
              decide_eq_true_eq]
            exact Or.inl h'
          · rename_i hcond
            obtain ⟨_, rfl⟩ := hcond
            simp only [List.mem_singleton] at h'
            subst h'
            exact Or.inl rfl
        · split at h
          all_goals
            refine Or.inr ?_
            unfold Graph.hasEdge
            simp only [Bool.or_eq_true, List.elem_eq_mem,
              decide_eq_true_eq]
            exact Or.inl h
      · have hri : x ∈ (G.el (min x.index y.index) y).right_incoming := by
          split at h
          · exact h
          · split at h
            · exact h
            · exact h
        refine Or.inr ?_
        unfold Graph.hasEdge
        simp only [Bool.or_eq_true, List.elem_eq_mem, decide_eq_true_eq]
        exact Or.inr hri
    · by_cases heq : u = v
      · rw [el_addEdge_ge_eq he' hlt heq, el_addEdge_ge_eq he' hlt heq] at h
        rcases h with h | h
        · have hro : y ∈ (G.el (min x.index y.index) x).right_outgoing := by
            split at h
            · exact h
            · exact h
          refine Or.inr ?_
          unfold Graph.hasEdge
          simp only [Bool.or_eq_true, List.elem_eq_mem, decide_eq_true_eq]
          exact Or.inl hro
        · split at h
          · rcases List.mem_append.mp h with h' | h'
            · refine Or.inr ?_
              unfold Graph.hasEdge
              simp only [Bool.or_eq_true, List.elem_eq_mem,
                decide_eq_true_eq]
              exact Or.inr h'
            · rename_i hcond
              obtain ⟨_, rfl⟩ := hcond
              simp only [List.mem_singleton] at h'
              subst h'
              exact Or.inl (by rw [heq])
          · refine Or.inr ?_
            unfold Graph.hasEdge
            simp only [Bool.or_eq_true, List.elem_eq_mem,
              decide_eq_true_eq]
            exact Or.inr h
      · rw [el_addEdge_ge_ne he' hlt heq, el_addEdge_ge_ne he' hlt heq] at h
        rcases h with h | h
        · have hro : y ∈ (G.el (min x.index y.index) x).right_outgoing := by
            split at h
            · exact h
            · split at h
              · exact h
              · exact h
          refine Or.inr ?_
          unfold Graph.hasEdge
          simp only [Bool.or_eq_true, List.elem_eq_mem, decide_eq_true_eq]
          exact Or.inl hro
        · split at h
          · refine Or.inr ?_
            unfold Graph.hasEdge
            simp only [Bool.or_eq_true, List.elem_eq_mem,
              decide_eq_true_eq]
            exact Or.inr h
          · split at h
            · rcases List.mem_append.mp h with h' | h'
              · refine Or.inr ?_
                unfold Graph.hasEdge
                simp only [Bool.or_eq_true, List.elem_eq_mem,
                  decide_eq_true_eq]
                exact Or.inr h'
              · rename_i hcond
                obtain ⟨_, rfl⟩ := hcond
                simp only [List.mem_singleton] at h'
                subst h'
                exact Or.inl rfl
            · refine Or.inr ?_
              unfold Graph.hasEdge
              simp only [Bool.or_eq_true, List.elem_eq_mem,
                decide_eq_true_eq]
              exact Or.inr h

theorem el_removeEdge_lt {G : Graph} {u v : Vertex}
    (h : G.hasEdge (u, v) = true) (hlt : u.index < v.index) (j : Int)
    (w : Vertex) :
    (G.removeEdge (u, v)).el j w =
      if j = u.index ∧ w = u then
        { G.el j w with right_outgoing := (G.el j w).right_outgoing.erase v }
      else if j = u.index ∧ w = v then
        { G.el j w with left_incoming := (G.el j w).left_incoming.erase u }
      else G.el j w := by
  have hne : u ≠ v := fun hc => by subst hc; exact lt_irrefl _ hlt
  unfold Graph.removeEdge
  simp only [h, Bool.not_true, Bool.false_eq_true, if_false, hlt, if_true]
  simp only [el_withCount, el_updSlice_cnt]
  by_cases h2 : j = u.index ∧ w = u
  · obtain ⟨rfl, rfl⟩ := h2
    rw [el_updEl_ne _ _ _ _ _ _ (fun hc => hne hc.2), el_updEl_self]
    simp
  · by_cases h3 : j = u.index ∧ w = v
    · obtain ⟨rfl, rfl⟩ := h3
      rw [el_updEl_self]
      rw [el_updEl_ne _ _ _ _ _ _ (fun hc => hne hc.2.symm)]
      simp [h2, Ne.symm hne]
    · rw [el_updEl_ne _ _ _ _ _ _ h3, el_updEl_ne _ _ _ _ _ _ h2]
      simp [h2, h3]

theorem el_removeEdge_ge_ne {G : Graph} {u v : Vertex}
    (h : G.hasEdge (u, v) = true) (hge : ¬u.index < v.index) (hne : u ≠ v)
    (j : Int) (w : Vertex) :
    (G.removeEdge (u, v)).el j w =
      if j = v.index ∧ w = u then
        { G.el j w with left_outgoing := (G.el j w).left_outgoing.erase v }
      else if j = v.index ∧ w = v then
        { G.el j w with right_incoming := (G.el j w).right_incoming.erase u }
      else G.el j w := by
  unfold Graph.removeEdge
  simp only [h, Bool.not_true, Bool.false_eq_true, if_false, hge, if_true]
  simp only [el_withCount, el_updSlice_cnt]
  by_cases h2 : j = v.index ∧ w = u
  · obtain ⟨rfl, rfl⟩ := h2
    rw [el_updEl_ne _ _ _ _ _ _ (fun hc => hne hc.2), el_updEl_self]
    simp [hne]
  · by_cases h3 : j = v.index ∧ w = v
    · obtain ⟨rfl, rfl⟩ := h3
      rw [el_updEl_self]
      rw [el_updEl_ne _ _ _ _ _ _ (fun hc => hne hc.2.symm)]
      simp [h2, Ne.symm hne]
    · rw [el_updEl_ne _ _ _ _ _ _ h3, el_updEl_ne _ _ _ _ _ _ h2]
      simp [h2, h3]

theorem el_removeEdge_ge_eq {G : Graph} {u v : Vertex}
    (h : G.hasEdge (u, v) = true) (hge : ¬u.index < v.index) (heq : u = v)
    (j : Int) (w : Vertex) :
    (G.removeEdge (u, v)).el j w =
      if j = v.index ∧ w = v then
        { G.el j w with
            left_outgoing := (G.el j w).left_outgoing.erase v,
            right_incoming := (G.el j w).right_incoming.erase u }
      else G.el j w := by
  subst heq
  unfold Graph.removeEdge
  simp only [h, Bool.not_true, Bool.false_eq_true, if_false, hge, if_true]
  simp only [el_withCount, el_updSlice_cnt]
  by_cases h2 : j = u.index ∧ w = u
  · obtain ⟨rfl, rfl⟩ := h2
    rw [el_updEl_self, el_updEl_self]
    simp
  · rw [el_updEl_ne _ _ _ _ _ _ h2, el_updEl_ne _ _ _ _ _ _ h2]
    simp [h2]

theorem hasEdge_removeEdge_sub {G : Graph} {e f : Edge}
    (h : (G.removeEdge e).hasEdge f = true) : G.hasEdge f = true := by
  obtain ⟨u, v⟩ := e
  obtain ⟨x, y⟩ := f
  by_cases he : G.hasEdge (u, v) = true
  · unfold Graph.hasEdge at h ⊢
    simp only [Bool.or_eq_true, List.elem_eq_mem, decide_eq_true_eq] at h ⊢
    by_cases hlt : u.index < v.index
    · rw [el_removeEdge_lt he hlt, el_removeEdge_lt he hlt] at h
      rcases h with h | h
      · refine Or.inl ?_
        split at h
        · exact List.mem_of_mem_erase h
        · split at h <;> exact h
      · refine Or.inr ?_
        split at h
        · exact h
        · split at h
          · exact h
          · exact h
    · by_cases heq : u = v
      · rw [el_removeEdge_ge_eq he hlt heq, el_removeEdge_ge_eq he hlt heq] at h
        rcases h with h | h
        · refine Or.inl ?_
          split at h
          · exact h
          · exact h
        · refine Or.inr ?_
          split at h
          · exact List.mem_of_mem_erase h
          · exact h
      · rw [el_removeEdge_ge_ne he hlt heq, el_removeEdge_ge_ne he hlt heq] at h
        rcases h with h | h
        · refine Or.inl ?_
          split at h
          · exact h
          · split at h <;> exact h
        · refine Or.inr ?_
          split at h
          · exact h
          · split at h
            · exact List.mem_of_mem_erase h
            · exact h
  · rw [removeEdge_of_not_hasEdge (by simpa using he)] at h
    exact h

theorem size_addEdge_new {G : Graph} {e : Edge} (h : G.hasEdge e = false) :
    (G.addEdge e).size = G.size + 1 := by
  obtain ⟨u, v⟩ := e
  unfold Graph.addEdge
  simp only [h, Bool.false_eq_true, if_false]
  split <;>
    simp [Graph.size, edgeCount_updSlice, edgeCount_updEl, edgeCount_addVertex]

theorem size_removeEdge {G : Graph} {e : Edge} (h : G.hasEdge e = true) :
    (G.removeEdge e).size = G.size - 1 := by
  obtain ⟨u, v⟩ := e
  unfold Graph.removeEdge
  simp only [h, Bool.not_true, Bool.false_eq_true, if_false]
  split <;>
    simp [Graph.size, edgeCount_updSlice, edgeCount_updEl]

theorem hasEdge_addEdge_ne {G : Graph} {e f : Edge} (hne : f ≠ e) :
    (G.addEdge e).hasEdge f = G.hasEdge f := by
  cases hf : G.hasEdge f with
  | true => exact hasEdge_mono_addEdge hf
  | false =>
    cases hf' : (G.addEdge e).hasEdge f with
    | true =>
      rcases hasEdge_addEdge_inv hf' with h | h
      · exact absurd h hne
      · simp [h] at hf
    | false => rfl

/-! ## Well-formedness: accessors and structural lemmas -/

theorem find?_eq_self_of_mem {α β : Type} [DecidableEq α]
    {l : List (α × β)} {p : α × β} (hm : p ∈ l)
    (hk : (l.map Prod.fst).Nodup) : l.find? (fun q => q.1 == p.1) = some p := by
  induction l with
  | nil => simp at hm
  | cons a r ih =>
    rcases List.mem_cons.mp hm with rfl | hm'
    · rw [List.find?_cons_of_pos _ (by simp)]
    · have ha : a.1 ≠ p.1 := by
        intro hc
        simp only [List.map_cons, List.nodup_cons] at hk
        exact hk.1 (hc ▸ List.mem_map_of_mem Prod.fst hm')
      rw [List.find?_cons_of_neg _ (by simpa using ha)]
      refine ih hm' ?_
      have h2 : (a.1 :: r.map Prod.fst).Nodup := by simpa using hk
      exact (List.nodup_cons.mp h2).2

theorem keys_nodup_of_sorted {l : List (Int × EdgeSlice)}
    (hs : List.Pairwise (fun p q => p.1 < q.1) l) :
    (l.map Prod.fst).Nodup :=
  List.pairwise_map.mpr (hs.imp (fun h => ne_of_lt h))

theorem slice_of_mem {G : Graph} {p : Int × EdgeSlice}
    (hs : List.Pairwise (fun p q => p.1 < q.1) G.slices)
    (hm : p ∈ G.slices) : G.slice p.1 = p.2 := by
  unfold Graph.slice
  rw [find?_eq_self_of_mem hm (keys_nodup_of_sorted hs)]

theorem get_of_mem {s : EdgeSlice} {q : Vertex × EdgeListOf}
    (hm : q ∈ s.entries) (hk : (s.entries.map Prod.fst).Nodup) :
    s.get q.1 = q.2 := by
  unfold EdgeSlice.get
  rw [find?_eq_self_of_mem hm hk]

theorem el_of_entry {G : Graph} {p : Int × EdgeSlice}
    {q : Vertex × EdgeListOf}
    (hs : List.Pairwise (fun p q => p.1 < q.1) G.slices)
    (hk : ∀ p ∈ G.slices, (p.2.entries.map Prod.fst).Nodup)
    (hp : p ∈ G.slices) (hq : q ∈ p.2.entries) : G.el p.1 q.1 = q.2 := by
  unfold Graph.el
  rw [slice_of_mem hs hp, get_of_mem hq (hk p hp)]

theorem wf_elOK {G : Graph} (h : WF G) (i : Int) (v : Vertex) :
    entryOK G i v (G.el i v) := by
  obtain ⟨hs, hent, _⟩ := h
  unfold Graph.el Graph.slice
  cases hf : G.slices.find? (fun p => p.1 == i) with
  | none =>
    show entryOK G i v (EdgeSlice.empty.get v)
    unfold EdgeSlice.get EdgeSlice.empty entryOK
    simp [EdgeListOf.empty]
  | some p =>
    have hp : p ∈ G.slices := List.mem_of_find?_eq_some hf
    have hpi : p.1 = i := by
      have := List.find?_some hf
      simpa using this
    obtain ⟨hk, _, hq⟩ := hent p hp
    unfold EdgeSlice.get
    cases hg : p.2.entries.find? (fun q => q.1 == v) with
    | none =>
      unfold entryOK
      simp [EdgeListOf.empty]
    | some q =>
      have hqm : q ∈ p.2.entries := List.mem_of_find?_eq_some hg
      have hqv : q.1 = v := by
        have := List.find?_some hg
        simpa using this
      have := hq q hqm
      rw [hpi, hqv] at this
      exact this

theorem wf_ro {G : Graph} (h : WF G) {i : Int} {v w : Vertex}
    (hm : w ∈ (G.el i v).right_outgoing) :
    v.index = i ∧ w.index = i + 1 ∧ v ∈ (G.el i w).left_incoming :=
  (wf_elOK h i v).2.2.2.2.1 w hm

theorem wf_li {G : Graph} (h : WF G) {i : Int} {v u : Vertex}
    (hm : u ∈ (G.el i v).left_incoming) :
    v.index = i + 1 ∧ u.index = i ∧ v ∈ (G.el i u).right_outgoing :=
  (wf_elOK h i v).2.2.2.2.2.1 u hm

theorem wf_lo {G : Graph} (h : WF G) {i : Int} {v w : Vertex}
    (hm : w ∈ (G.el i v).left_outgoing) :
    v.index = i + 1 ∧ w.index = i ∧ v ∈ (G.el i w).right_incoming :=
  (wf_elOK h i v).2.2.2.2.2.2.1 w hm

theorem wf_ri {G : Graph} (h : WF G) {i : Int} {v u : Vertex}
    (hm : u ∈ (G.el i v).right_incoming) :
    v.index = i ∧ u.index = i + 1 ∧ v ∈ (G.el i u).left_outgoing :=
  (wf_elOK h i v).2.2.2.2.2.2.2 u hm

theorem wf_nodup_ro {G : Graph} (h : WF G) (i : Int) (v : Vertex) :
    (G.el i v).right_outgoing.Nodup := (wf_elOK h i v).1

theorem wf_nodup_li {G : Graph} (h : WF G) (i : Int) (v : Vertex) :
    (G.el i v).left_incoming.Nodup := (wf_elOK h i v).2.1

theorem wf_nodup_lo {G : Graph} (h : WF G) (i : Int) (v : Vertex) :
    (G.el i v).left_outgoing.Nodup := (wf_elOK h i v).2.2.1

theorem wf_nodup_ri {G : Graph} (h : WF G) (i : Int) (v : Vertex) :
    (G.el i v).right_incoming.Nodup := (wf_elOK h i v).2.2.2.1

/-! ## Query lemmas under well-formedness -/

theorem hasEdge_of_mem_outgoing {G : Graph} (h : WF G) {v : Vertex} {f : Edge}
    (hm : f ∈ G.outgoingEdgeOf v) :
    G.hasEdge f = true ∧ f.1 = v ∧
      (f.1.index + 1 = f.2.index ∨ f.2.index + 1 = f.1.index) := by
  unfold Graph.outgoingEdgeOf at hm
  rw [List.mem_map] at hm
  obtain ⟨w, hw, rfl⟩ := hm
  rcases List.mem_append.mp hw with hro | hlo
  · obtain ⟨hv, hw', hpart⟩ := wf_ro h hro
    refine ⟨?_, rfl, Or.inl (show v.index + 1 = w.index by omega)⟩
    unfold Graph.hasEdge
    have hmin : min v.index w.index = v.index := by omega
    simp only [hmin, Bool.or_eq_true, List.elem_eq_mem, decide_eq_true_eq]
    exact Or.inl (hv ▸ hro)
  · obtain ⟨hv, hw', hpart⟩ := wf_lo h hlo
    refine ⟨?_, rfl, Or.inr (show w.index + 1 = v.index by omega)⟩
    unfold Graph.hasEdge
    have hmin : min v.index w.index = v.index - 1 := by omega
    simp only [hmin, Bool.or_eq_true, List.elem_eq_mem, decide_eq_true_eq]
    exact Or.inr (hw' ▸ hpart)

theorem hasEdge_of_mem_incoming {G : Graph} (h : WF G) {v : Vertex} {f : Edge}
    (hm : f ∈ G.incomingEdgeOf v) :
    G.hasEdge f = true ∧ f.2 = v ∧
      (f.1.index + 1 = f.2.index ∨ f.2.index + 1 = f.1.index) := by
  unfold Graph.incomingEdgeOf at hm
  rw [List.mem_map] at hm
  obtain ⟨w, hw, rfl⟩ := hm
  rcases List.mem_append.mp hw with hri | hli
  · obtain ⟨hv, hw', hpart⟩ := wf_ri h hri
    refine ⟨?_, rfl, Or.inr (show v.index + 1 = w.index by omega)⟩
    unfold Graph.hasEdge
    have hmin : min w.index v.index = v.index := by omega
    simp only [hmin, Bool.or_eq_true, List.elem_eq_mem, decide_eq_true_eq]
    exact Or.inr (hv ▸ hri)
  · obtain ⟨hv, hw', hpart⟩ := wf_li h hli
    refine ⟨?_, rfl, Or.inl (show w.index + 1 = v.index by omega)⟩
    unfold Graph.hasEdge
    have hmin : min w.index v.index = v.index - 1 := by omega
    simp only [hmin, Bool.or_eq_true, List.elem_eq_mem, decide_eq_true_eq]
    exact Or.inl (by
      have : w.index = v.index - 1 := by omega
      exact this ▸ hpart)

theorem adj_of_hasEdge {G : Graph} (h : WF G) {u v : Vertex}
    (he : G.hasEdge (u, v) = true) :
    u.index + 1 = v.index ∨ v.index + 1 = u.index := by
  unfold Graph.hasEdge at he
  simp only [Bool.or_eq_true, List.elem_eq_mem, decide_eq_true_eq] at he
  rcases he with he | he
  · obtain ⟨h1, h2, _⟩ := wf_ro h he
    left; omega
  · obtain ⟨h1, h2, _⟩ := wf_ri h he
    right
    rcases le_or_lt u.index v.index with hle | hlt
    · omega
    · omega

theorem mem_outgoing_of_hasEdge {G : Graph} (h : WF G) {u v : Vertex}
    (he : G.hasEdge (u, v) = true) : (u, v) ∈ G.outgoingEdgeOf u := by
  unfold Graph.hasEdge at he
  simp only [Bool.or_eq_true, List.elem_eq_mem, decide_eq_true_eq] at he
  unfold Graph.outgoingEdgeOf
  rw [List.mem_map]
  refine ⟨v, ?_, rfl⟩
  rw [List.mem_append]
  rcases he with he | he
  · obtain ⟨h1, h2, _⟩ := wf_ro h he
    exact Or.inl (h1 ▸ he)
  · obtain ⟨h1, h2, hpart⟩ := wf_ri h he
    refine Or.inr ?_
    have h4 : min u.index v.index = u.index - 1 := by omega
    rw [h4] at hpart
    exact hpart

theorem mem_incoming_of_hasEdge {G : Graph} (h : WF G) {u v : Vertex}
    (he : G.hasEdge (u, v) = true) : (u, v) ∈ G.incomingEdgeOf v := by
  unfold Graph.hasEdge at he
  simp only [Bool.or_eq_true, List.elem_eq_mem, decide_eq_true_eq] at he
  unfold Graph.incomingEdgeOf
  rw [List.mem_map]
  refine ⟨u, ?_, rfl⟩
  rw [List.mem_append]
  rcases he with he | he
  · obtain ⟨h1, h2, hpart⟩ := wf_ro h he
    refine Or.inr ?_
    have h3 : min u.index v.index = v.index - 1 := by omega
    rw [h3] at hpart
    exact hpart
  · obtain ⟨h1, h2, _⟩ := wf_ri h he
    exact Or.inl (h1 ▸ he)

/-! ## Structural lemmas for preservation of well-formedness -/

theorem nodup_append_singleton {α : Type} {l : List α} {x : α}
    (h : l.Nodup) (hx : x ∉ l) : (l ++ [x]).Nodup := by
  rw [List.nodup_append]
  exact ⟨h, List.nodup_singleton x, fun a ha hb => by
    rw [List.mem_singleton] at hb
    exact hx (hb ▸ ha)⟩

theorem lt_of_mem_insertSlice {r : List (Int × EdgeSlice)} {i : Int}
    {s : EdgeSlice} {c : Int} (hci : c < i)
    (hall : ∀ b ∈ r, c < b.1) : ∀ q ∈ insertSlice i s r, c < q.1 := by
  induction r with
  | nil =>
    intro q hq
    rw [insertSlice] at hq
    rcases List.mem_singleton.mp hq with rfl
    exact hci
  | cons a t ih =>
    intro q hq
    rw [insertSlice] at hq
    split at hq
    · rcases List.mem_cons.mp hq with rfl | hq'
      · exact hci
      · exact hall q hq'
    · split at hq
      · rcases List.mem_cons.mp hq with rfl | hq'
        · exact hci
        · exact hall q (List.mem_cons_of_mem a hq')
      · rcases List.mem_cons.mp hq with rfl | hq'
        · exact hall _ (List.mem_cons_self _ _)
        · exact ih (fun b hb => hall b (List.mem_cons_of_mem a hb)) q hq'

theorem insertSlice_sorted {l : List (Int × EdgeSlice)} {i : Int}
    {s : EdgeSlice} (h : List.Pairwise (fun p q => p.1 < q.1) l) :
    List.Pairwise (fun p q => p.1 < q.1) (insertSlice i s l) := by
  induction l with
  | nil => simp [insertSlice]
  | cons p r ih =>
    rw [List.pairwise_cons] at h
    rw [insertSlice]
    by_cases h1 : i < p.1
    · rw [if_pos h1, List.pairwise_cons]
      refine ⟨?_, List.pairwise_cons.mpr h⟩
      intro q hq
      rcases List.mem_cons.mp hq with rfl | hq'
      · exact h1
      · exact lt_trans h1 (h.1 q hq')
    · rw [if_neg h1]
      by_cases h2 : i = p.1
      · rw [if_pos (beq_iff_eq.mpr h2), List.pairwise_cons]
        exact ⟨fun q hq => h2 ▸ h.1 q hq, h.2⟩
      · rw [if_neg (by simp [h2]), List.pairwise_cons]
        have hlt : p.1 < i := by
          rcases lt_trichotomy i p.1 with hc | hc | hc
          · exact absurd hc h1
          · exact absurd hc h2
          · exact hc
        exact ⟨lt_of_mem_insertSlice hlt h.1, ih h.2⟩

theorem mem_insertSlice {l : List (Int × EdgeSlice)} {i : Int}
    {s : EdgeSlice} {q : Int × EdgeSlice}
    (hs : List.Pairwise (fun p q => p.1 < q.1) l) :
    q ∈ insertSlice i s l ↔ q = (i, s) ∨ (q ∈ l ∧ q.1 ≠ i) := by
  induction l with
  | nil =>
    rw [insertSlice]
    simp
  | cons p r ih =>
    rw [List.pairwise_cons] at hs
    rw [insertSlice]
    by_cases h1 : i < p.1
    · rw [if_pos h1]
      constructor
      · intro hm
        rcases List.mem_cons.mp hm with rfl | hm'
        · exact Or.inl rfl
        · refine Or.inr ⟨hm', ?_⟩
          rcases List.mem_cons.mp hm' with rfl | hm2
          · omega
          · have := hs.1 q hm2
            omega
      · intro hm
        rcases hm with rfl | ⟨hm', _⟩
        · exact List.mem_cons_self _ _
        · exact List.mem_cons_of_mem _ hm'
    · rw [if_neg h1]
      by_cases h2 : i = p.1
      · subst h2
        rw [if_pos (beq_iff_eq.mpr rfl)]
        constructor
        · intro hm
          rcases List.mem_cons.mp hm with rfl | hm'
          · exact Or.inl rfl
          · refine Or.inr ⟨List.mem_cons_of_mem _ hm', ?_⟩
            have := hs.1 q hm'
            omega
        · intro hm
          rcases hm with rfl | ⟨hm', hne⟩
          · exact List.mem_cons_self _ _
          · rcases List.mem_cons.mp hm' with rfl | hm2
            · exact absurd rfl hne
            · exact List.mem_cons_of_mem _ hm2
      · rw [if_neg (by simp [h2])]
        constructor
        · intro hm
          rcases List.mem_cons.mp hm with rfl | hm'
          · exact Or.inr ⟨List.mem_cons_self _ _, fun hc => h2 hc.symm⟩
          · rcases (ih hs.2).mp hm' with rfl | ⟨hm2, hne⟩
            · exact Or.inl rfl
            · exact Or.inr ⟨List.mem_cons_of_mem _ hm2, hne⟩
        · intro hm
          rcases hm with rfl | ⟨hm', hne⟩
          · exact List.mem_cons_of_mem _ ((ih hs.2).mpr (Or.inl rfl))
          · rcases List.mem_cons.mp hm' with rfl | hm2
            · exact List.mem_cons_self _ _
            · exact List.mem_cons_of_mem _ ((ih hs.2).mpr (Or.inr ⟨hm2, hne⟩))

theorem insertSlice_insertSlice (i : Int) (s s' : EdgeSlice)
    (l : List (Int × EdgeSlice)) :
    insertSlice i s (insertSlice i s' l) = insertSlice i s l := by
  induction l with
  | nil => simp [insertSlice]
  | cons p r ih =>
    rw [insertSlice]
    by_cases h1 : i < p.1
    · rw [if_pos h1]
      rw [insertSlice, if_neg (lt_irrefl i), if_pos (beq_iff_eq.mpr rfl)]
      rw [insertSlice, if_pos h1]
    · rw [if_neg h1]
      by_cases h2 : i = p.1
      · rw [if_pos (beq_iff_eq.mpr h2)]
        rw [insertSlice, if_neg (lt_irrefl i), if_pos (beq_iff_eq.mpr rfl)]
        rw [insertSlice, if_neg h1, if_pos (beq_iff_eq.mpr h2)]
      · rw [if_neg (by simp [h2])]
        rw [insertSlice, if_neg h1, if_neg (by simp [h2]), ih]
        rw [insertSlice, if_neg h1, if_neg (by simp [h2])]

theorem slices_updSlice (G : Graph) (i : Int) (f : EdgeSlice → EdgeSlice) :
    (G.updSlice i f).slices = insertSlice i (f (G.slice i)) G.slices := rfl

theorem slice_addVertex (G : Graph) (v : Vertex) (j : Int) :
    (G.addVertex v).slice j = G.slice j := by
  unfold Graph.slice
  rw [slices_addVertex]

theorem edgeCount_set (s : EdgeSlice) (v : Vertex)
    (f : EdgeListOf → EdgeListOf) : (s.set v f).edgeCount = s.edgeCount := by
  unfold EdgeSlice.set
  split <;> rfl

theorem structCount_withCount (s : EdgeSlice) (n : Nat) :
    ({ s with edgeCount := n } : EdgeSlice).structCount = s.structCount := rfl

theorem map_set_id_of_not_mem_keys {l : List (Vertex × EdgeListOf)}
    {v : Vertex} (f : EdgeListOf → EdgeListOf)
    (h : v ∉ l.map Prod.fst) :
    l.map (fun p => if p.1 == v then (p.1, f p.2) else p) = l := by
  induction l with
  | nil => rfl
  | cons a r ih =>
    simp only [List.map_cons, List.mem_cons] at h ⊢
    have ha : ¬a.1 = v := fun hc => h (Or.inl hc.symm)
    rw [if_neg (by simp [ha]), ih (fun hc => h (Or.inr hc))]

theorem structCount_mapSet {q : Vertex × EdgeListOf}
    (f : EdgeListOf → EdgeListOf) :
    ∀ {l : List (Vertex × EdgeListOf)}, (l.map Prod.fst).Nodup → q ∈ l →
    ((l.map (fun p => if p.1 == q.1 then (p.1, f p.2) else p)).map
        (fun p => cntOf p.2)).sum + cntOf q.2 =
      (l.map (fun p => cntOf p.2)).sum + cntOf (f q.2) := by
  intro l
  induction l with
  | nil => intro _ hm; simp at hm
  | cons a r ih =>
    intro hk hqm
    simp only [List.map_cons, List.nodup_cons] at hk
    rcases List.mem_cons.mp hqm with rfl | hm'
    · rw [List.map_cons, if_pos (beq_iff_eq.mpr rfl)]
      rw [map_set_id_of_not_mem_keys f hk.1]
      simp only [List.map_cons, List.sum_cons]
      omega
    · have ha : ¬a.1 = q.1 :=
        fun hc => hk.1 (hc ▸ List.mem_map_of_mem Prod.fst hm')
      rw [List.map_cons, if_neg (by simp [ha])]
      have := ih hk.2 hm'
      simp only [List.map_cons, List.sum_cons]
      omega

theorem structCount_set {s : EdgeSlice} {v : Vertex}
    {f : EdgeListOf → EdgeListOf}
    (hk : (s.entries.map Prod.fst).Nodup) :
    (s.set v f).structCount + cntOf (s.get v) =
      s.structCount + cntOf (f (s.get v)) := by
  unfold EdgeSlice.set EdgeSlice.get EdgeSlice.structCount
  cases hf : s.entries.find? (fun p => p.1 == v) with
  | none =>
    simp only [hf, Option.isSome_none, Bool.false_eq_true, if_false]
    simp [cntOf, EdgeListOf.empty]
  | some q =>
    simp only [hf, Option.isSome_some, if_true]
    have hqv : q.1 = v := by simpa using List.find?_some hf
    have hqm : q ∈ s.entries := List.mem_of_find?_eq_some hf
    subst hqv
    exact structCount_mapSet f hk hqm

theorem keysNodup_set {s : EdgeSlice} {v : Vertex}
    {f : EdgeListOf → EdgeListOf} (hk : (s.entries.map Prod.fst).Nodup) :
    ((s.set v f).entries.map Prod.fst).Nodup := by
  unfold EdgeSlice.set
  cases hf : s.entries.find? (fun p => p.1 == v) with
  | none =>
    simp only [hf, Option.isSome_none, Bool.false_eq_true, if_false]
    rw [List.map_append]
    refine nodup_append_singleton hk ?_
    intro hc
    obtain ⟨p, hp, hpv⟩ := List.mem_map.mp hc
    have := List.find?_eq_none.mp hf p hp
    simp [hpv] at this
  | some q =>
    simp only [hf, Option.isSome_some, if_true]
    have hkeys : (s.entries.map
        (fun p => if p.1 == v then (p.1, f p.2) else p)).map Prod.fst =
        s.entries.map Prod.fst := by
      rw [List.map_map]
      refine List.map_congr_left ?_
      intro p _
      show (Prod.fst (if p.1 == v then (p.1, f p.2) else p)) = p.1
      split <;> rfl
    rw [hkeys]
    exact hk

theorem sum_map_insertSlice (g : EdgeSlice → Nat)
    (hg : g EdgeSlice.empty = 0) (i : Int) (s : EdgeSlice)
    {l : List (Int × EdgeSlice)}
    (hs : List.Pairwise (fun p q => p.1 < q.1) l) :
    ((insertSlice i s l).map (fun p => g p.2)).sum +
        g (match l.find? (fun p => p.1 == i) with
          | some p => p.2
          | none => EdgeSlice.empty) =
      (l.map (fun p => g p.2)).sum + g s := by
  induction l with
  | nil =>
    rw [insertSlice]
    simp [hg]
  | cons p r ih =>
    rw [List.pairwise_cons] at hs
    rw [insertSlice]
    by_cases h1 : i < p.1
    · rw [if_pos h1]
      have hnone : r.find? (fun q => q.1 == i) = none := by
        rw [List.find?_eq_none]
        intro a ha
        have := hs.1 a ha
        simp
        omega
      rw [List.find?_cons_of_neg _ (by simp; omega), hnone]
      simp [hg]
      omega
    · rw [if_neg h1]
      by_cases h2 : i = p.1
      · rw [if_pos (beq_iff_eq.mpr h2)]
        rw [List.find?_cons_of_pos _ (by simp [h2])]
        simp
        omega
      · rw [if_neg (by simp [h2])]
        rw [List.find?_cons_of_neg _ (by simp; exact fun hc => h2 hc.symm)]
        have := ih hs.2
        simp only [List.map_cons, List.sum_cons]
        omega

theorem slices_withCount (G : Graph) (n : Nat) :
    ({ G with edgeCount := n } : Graph).slices = G.slices := rfl

theorem mem_li_addEdge {G : Graph} {e : Edge} {j : Int} {w x : Vertex}
    (hx : x ∈ (G.el j w).left_incoming) :
    x ∈ ((G.addEdge e).el j w).left_incoming := by
  obtain ⟨u, v⟩ := e
  by_cases h : G.hasEdge (u, v) = true
  · rw [addEdge_of_hasEdge h]; exact hx
  · have h' : G.hasEdge (u, v) = false := by simpa using h
    by_cases hlt : u.index < v.index
    · rw [el_addEdge_lt h' hlt]
      split
      · exact hx
      · split
        · exact List.mem_append_left _ hx
        · exact hx
    · by_cases hne : u = v
      · rw [el_addEdge_ge_eq h' hlt hne]
        split <;> exact hx
      · rw [el_addEdge_ge_ne h' hlt hne]
        split
        · exact hx
        · split <;> exact hx

theorem mem_lo_addEdge {G : Graph} {e : Edge} {j : Int} {w x : Vertex}
    (hx : x ∈ (G.el j w).left_outgoing) :
    x ∈ ((G.addEdge e).el j w).left_outgoing := by
  obtain ⟨u, v⟩ := e
  by_cases h : G.hasEdge (u, v) = true
  · rw [addEdge_of_hasEdge h]; exact hx
  · have h' : G.hasEdge (u, v) = false := by simpa using h
    by_cases hlt : u.index < v.index
    · rw [el_addEdge_lt h' hlt]
      split
      · exact hx
      · split <;> exact hx
    · by_cases hne : u = v
      · rw [el_addEdge_ge_eq h' hlt hne]
        split
        · exact List.mem_append_left _ hx
        · exact hx
      · rw [el_addEdge_ge_ne h' hlt hne]
        split
        · exact List.mem_append_left _ hx
        · split <;> exact hx

theorem slices_addEdge_lt {G : Graph} {u v : Vertex}
    (h : G.hasEdge (u, v) = false) (hlt : u.index < v.index) :
    (G.addEdge (u, v)).slices =
      insertSlice u.index
        { ((G.slice u.index).set u
              (fun l => { l with
                right_outgoing := l.right_outgoing ++ [v] })).set v
            (fun l => { l with left_incoming := l.left_incoming ++ [u] }) with
          edgeCount := (G.slice u.index).edgeCount + 1 }
        G.slices := by
  unfold Graph.addEdge
  simp only [h, Bool.false_eq_true, if_false, hlt, if_true]
  rw [slices_withCount]
  rw [show u.index ⊓ v.index = u.index from min_eq_left (le_of_lt hlt)]
  unfold Graph.updEl
  rw [slices_updSlice, slices_updSlice, slices_updSlice]
  rw [insertSlice_insertSlice, insertSlice_insertSlice]
  rw [slices_addVertex, slices_addVertex]
  rw [slice_updSlice_self, slice_updSlice_self]
  rw [slice_addVertex, slice_addVertex]
  rw [edgeCount_set, edgeCount_set]

theorem slices_addEdge_ge {G : Graph} {u v : Vertex}
    (h : G.hasEdge (u, v) = false) (hge : ¬u.index < v.index) :
    (G.addEdge (u, v)).slices =
      insertSlice v.index
        { ((G.slice v.index).set u
              (fun l => { l with
                left_outgoing := l.left_outgoing ++ [v] })).set v
            (fun l => { l with
              right_incoming := l.right_incoming ++ [u] }) with
          edgeCount := (G.slice v.index).edgeCount + 1 }
        G.slices := by
  unfold Graph.addEdge
  simp only [h, Bool.false_eq_true, if_false, hge]
  rw [slices_withCount]
  rw [show u.index ⊓ v.index = v.index from min_eq_right (le_of_not_lt hge)]
  unfold Graph.updEl
  rw [slices_updSlice, slices_updSlice, slices_updSlice]
  rw [insertSlice_insertSlice, insertSlice_insertSlice]
  rw [slices_addVertex, slices_addVertex]
  rw [slice_updSlice_self, slice_updSlice_self]
  rw [slice_addVertex, slice_addVertex]
  rw [edgeCount_set, edgeCount_set]

theorem wf_cnt_slice {G : Graph} (h : WF G) (i : Int) :
    (G.slice i).edgeCount = (G.slice i).structCount := by
  unfold Graph.slice
  cases hf : G.slices.find? (fun p => p.1 == i) with
  | none => rfl
  | some p => exact (h.2.1 p (List.mem_of_find?_eq_some hf)).2.1

theorem wf_keysN_slice {G : Graph} (h : WF G) (i : Int) :
    ((G.slice i).entries.map Prod.fst).Nodup := by
  unfold Graph.slice
  cases hf : G.slices.find? (fun p => p.1 == i) with
  | none => exact List.nodup_nil
  | some p => exact (h.2.1 p (List.mem_of_find?_eq_some hf)).1

theorem entryOK_mono {G : Graph} {e : Edge} {j : Int} {w : Vertex}
    {L : EdgeListOf} (hOK : entryOK G j w L) : entryOK (G.addEdge e) j w L := by
  obtain ⟨n1, n2, n3, n4, r1, r2, r3, r4⟩ := hOK
  exact ⟨n1, n2, n3, n4,
    fun x hx => ⟨(r1 x hx).1, (r1 x hx).2.1, mem_li_addEdge (r1 x hx).2.2⟩,
    fun x hx => ⟨(r2 x hx).1, (r2 x hx).2.1, mem_ro_addEdge (r2 x hx).2.2⟩,
    fun x hx => ⟨(r3 x hx).1, (r3 x hx).2.1, mem_ri_addEdge (r3 x hx).2.2⟩,
    fun x hx => ⟨(r4 x hx).1, (r4 x hx).2.1, mem_lo_addEdge (r4 x hx).2.2⟩⟩

theorem elOK_addEdge_lt {G : Graph} {u v : Vertex} (hWF : WF G)
    (h' : G.hasEdge (u, v) = false) (hadj : u.index + 1 = v.index) :
    ∀ j w, entryOK (G.addEdge (u, v)) j w ((G.addEdge (u, v)).el j w) := by
  have hlt : u.index < v.index := by omega
  have hne : u ≠ v := fun hc => by subst hc; omega
  have hvro : v ∉ (G.el u.index u).right_outgoing := by
    intro hc
    have hm : G.hasEdge (u, v) = true := by
      unfold Graph.hasEdge
      have hmin : min u.index v.index = u.index := min_eq_left (le_of_lt hlt)
      simp only [hmin, Bool.or_eq_true, List.elem_eq_mem, decide_eq_true_eq]
      exact Or.inl hc
    rw [h'] at hm
    exact absurd hm (by simp)
  have huli : u ∉ (G.el u.index v).left_incoming := by
    intro hc
    exact hvro (wf_li hWF hc).2.2
  intro j w
  rw [el_addEdge_lt h' hlt j w]
  by_cases hcu : j = u.index ∧ w = u
  · rw [hcu.1, hcu.2, if_pos ⟨rfl, rfl⟩]
    obtain ⟨n1, n2, n3, n4, r1, r2, r3, r4⟩ := wf_elOK hWF u.index u
    refine ⟨nodup_append_singleton n1 hvro, n2, n3, n4, ?_,
      fun x hx => ⟨(r2 x hx).1, (r2 x hx).2.1, mem_ro_addEdge (r2 x hx).2.2⟩,
      fun x hx => ⟨(r3 x hx).1, (r3 x hx).2.1, mem_ri_addEdge (r3 x hx).2.2⟩,
      fun x hx => ⟨(r4 x hx).1, (r4 x hx).2.1, mem_lo_addEdge (r4 x hx).2.2⟩⟩
    intro x hx
    rcases List.mem_append.mp hx with hx | hx
    · exact ⟨(r1 x hx).1, (r1 x hx).2.1, mem_li_addEdge (r1 x hx).2.2⟩
    · rcases List.mem_singleton.mp hx with rfl
      refine ⟨rfl, by omega, ?_⟩
      rw [el_addEdge_lt h' hlt u.index x]
      rw [if_neg (fun hc => hne hc.2.symm), if_pos ⟨rfl, rfl⟩]
      exact List.mem_append_right _ (List.mem_singleton.mpr rfl)
  · rw [if_neg hcu]
    by_cases hcv : j = u.index ∧ w = v
    · rw [hcv.1, hcv.2, if_pos ⟨rfl, rfl⟩]
      obtain ⟨n1, n2, n3, n4, r1, r2, r3, r4⟩ := wf_elOK hWF u.index v
      refine ⟨n1, nodup_append_singleton n2 huli, n3, n4,
        fun x hx => ⟨(r1 x hx).1, (r1 x hx).2.1, mem_li_addEdge (r1 x hx).2.2⟩,
        ?_,
        fun x hx => ⟨(r3 x hx).1, (r3 x hx).2.1, mem_ri_addEdge (r3 x hx).2.2⟩,
        fun x hx => ⟨(r4 x hx).1, (r4 x hx).2.1, mem_lo_addEdge (r4 x hx).2.2⟩⟩
      intro x hx
      rcases List.mem_append.mp hx with hx | hx
      · exact ⟨(r2 x hx).1, (r2 x hx).2.1, mem_ro_addEdge (r2 x hx).2.2⟩
      · rw [List.mem_singleton.mp hx]
        refine ⟨by omega, rfl, ?_⟩
        rw [el_addEdge_lt h' hlt u.index u]
        rw [if_pos ⟨rfl, rfl⟩]
        exact List.mem_append_right _ (List.mem_singleton.mpr rfl)
    · rw [if_neg hcv]
      exact entryOK_mono (wf_elOK hWF j w)

theorem elOK_addEdge_ge {G : Graph} {u v : Vertex} (hWF : WF G)
    (h' : G.hasEdge (u, v) = false) (hadj : v.index + 1 = u.index) :
    ∀ j w, entryOK (G.addEdge (u, v)) j w ((G.addEdge (u, v)).el j w) := by
  have hge : ¬u.index < v.index := by omega
  have hne : u ≠ v := fun hc => by subst hc; omega
  have huri : u ∉ (G.el v.index v).right_incoming := by
    intro hc
    have hm : G.hasEdge (u, v) = true := by
      unfold Graph.hasEdge
      have hmin : min u.index v.index = v.index := min_eq_right (by omega)
      simp only [hmin, Bool.or_eq_true, List.elem_eq_mem, decide_eq_true_eq]
      exact Or.inr hc
    rw [h'] at hm
    exact absurd hm (by simp)
  have hvlo : v ∉ (G.el v.index u).left_outgoing := by
    intro hc
    exact huri (wf_lo hWF hc).2.2
  intro j w
  rw [el_addEdge_ge_ne h' hge hne j w]
  by_cases hcu : j = v.index ∧ w = u
  · rw [hcu.1, hcu.2, if_pos ⟨rfl, rfl⟩]
    obtain ⟨n1, n2, n3, n4, r1, r2, r3, r4⟩ := wf_elOK hWF v.index u
    refine ⟨n1, n2, nodup_append_singleton n3 hvlo, n4,
      fun x hx => ⟨(r1 x hx).1, (r1 x hx).2.1, mem_li_addEdge (r1 x hx).2.2⟩,
      fun x hx => ⟨(r2 x hx).1, (r2 x hx).2.1, mem_ro_addEdge (r2 x hx).2.2⟩,
      ?_,
      fun x hx => ⟨(r4 x hx).1, (r4 x hx).2.1, mem_lo_addEdge (r4 x hx).2.2⟩⟩
    intro x hx
    rcases List.mem_append.mp hx with hx | hx
    · exact ⟨(r3 x hx).1, (r3 x hx).2.1, mem_ri_addEdge (r3 x hx).2.2⟩
    · rw [List.mem_singleton.mp hx]
      refine ⟨by omega, rfl, ?_⟩
      rw [el_addEdge_ge_ne h' hge hne v.index v]
      rw [if_neg (fun hc => hne hc.2.symm), if_pos ⟨rfl, rfl⟩]
      exact List.mem_append_right _ (List.mem_singleton.mpr rfl)
  · rw [if_neg hcu]
    by_cases hcv : j = v.index ∧ w = v
    · rw [hcv.1, hcv.2, if_pos ⟨rfl, rfl⟩]
      obtain ⟨n1, n2, n3, n4, r1, r2, r3, r4⟩ := wf_elOK hWF v.index v
      refine ⟨n1, n2, n3, nodup_append_singleton n4 huri,
        fun x hx => ⟨(r1 x hx).1, (r1 x hx).2.1, mem_li_addEdge (r1 x hx).2.2⟩,
        fun x hx => ⟨(r2 x hx).1, (r2 x hx).2.1, mem_ro_addEdge (r2 x hx).2.2⟩,
        fun x hx => ⟨(r3 x hx).1, (r3 x hx).2.1, mem_ri_addEdge (r3 x hx).2.2⟩,
        ?_⟩
      intro x hx
      rcases List.mem_append.mp hx with hx | hx
      · exact ⟨(r4 x hx).1, (r4 x hx).2.1, mem_lo_addEdge (r4 x hx).2.2⟩
      · rcases List.mem_singleton.mp hx with rfl
        refine ⟨rfl, by omega, ?_⟩
        rw [el_addEdge_ge_ne h' hge hne v.index x]
        rw [if_pos ⟨rfl, rfl⟩]
        exact List.mem_append_right _ (List.mem_singleton.mpr rfl)
    · rw [if_neg hcv]
      exact entryOK_mono (wf_elOK hWF j w)

theorem sum_map_insertSlice_slice (G : Graph) (i : Int) (s : EdgeSlice)
    (hs : List.Pairwise (fun p q => p.1 < q.1) G.slices) :
    ((insertSlice i s G.slices).map (fun p => p.2.structCount)).sum +
        (G.slice i).structCount =
      (G.slices.map (fun p => p.2.structCount)).sum + s.structCount := by
  have h := sum_map_insertSlice EdgeSlice.structCount rfl i s hs
  unfold Graph.slice
  exact h

theorem wf_empty : WF Graph.empty := by
  refine ⟨?_, ?_, ?_⟩
  · exact List.Pairwise.nil
  · intro p hp
    simp [Graph.empty] at hp
  · rfl

theorem wf_addEdge {G : Graph} (hWF : WF G) {u v : Vertex}
    (hadj : u.index + 1 = v.index ∨ v.index + 1 = u.index) :
    WF (G.addEdge (u, v)) := by
  by_cases he : G.hasEdge (u, v) = true
  · rw [addEdge_of_hasEdge he]; exact hWF
  · have h' : G.hasEdge (u, v) = false := by
      cases hh : G.hasEdge (u, v)
      · rfl
      · exact absurd hh he
    have hec : (G.addEdge (u, v)).edgeCount = G.edgeCount + 1 :=
      size_addEdge_new h'
    rcases hadj with hadj | hadj
    · have hlt : u.index < v.index := by omega
      have hsl := slices_addEdge_lt h' hlt
      have hk0 := wf_keysN_slice hWF u.index
      have hk1 := keysNodup_set (v := u)
        (f := fun l => { l with right_outgoing := l.right_outgoing ++ [v] }) hk0
      have hk2 := keysNodup_set (v := v)
        (f := fun l => { l with left_incoming := l.left_incoming ++ [u] }) hk1
      have hsorted' : List.Pairwise (fun p q => p.1 < q.1)
          (G.addEdge (u, v)).slices := by
        rw [hsl]; exact insertSlice_sorted hWF.1
      have hkN' : ∀ p ∈ (G.addEdge (u, v)).slices,
          (p.2.entries.map Prod.fst).Nodup := by
        intro p hp
        rw [hsl] at hp
        rcases (mem_insertSlice hWF.1).mp hp with rfl | ⟨hpold, _⟩
        · exact hk2
        · exact (hWF.2.1 p hpold).1
      have h1 := structCount_set (s := G.slice u.index) (v := u)
        (f := fun l => { l with right_outgoing := l.right_outgoing ++ [v] }) hk0
      have h2 := structCount_set
        (s := (G.slice u.index).set u
          (fun l => { l with right_outgoing := l.right_outgoing ++ [v] }))
        (v := v)
        (f := fun l => { l with left_incoming := l.left_incoming ++ [u] }) hk1
      simp only [cntOf, List.length_append, List.length_singleton] at h1 h2
      refine ⟨hsorted', ?_, ?_⟩
      · intro p hp
        refine ⟨hkN' p hp, ?_, ?_⟩
        · rw [hsl] at hp
          rcases (mem_insertSlice hWF.1).mp hp with rfl | ⟨hpold, _⟩
          · have h3 := wf_cnt_slice hWF u.index
            show (G.slice u.index).edgeCount + 1 =
              (((G.slice u.index).set u
                  (fun l => { l with
                    right_outgoing := l.right_outgoing ++ [v] })).set v
                (fun l => { l with
                  left_incoming := l.left_incoming ++ [u] })).structCount
            omega
          · exact (hWF.2.1 p hpold).2.1
        · intro q hq
          rw [← el_of_entry hsorted' hkN' hp hq]
          exact elOK_addEdge_lt hWF h' hadj p.1 q.1
      · rw [hsl, hec]
        have hsum := sum_map_insertSlice_slice G u.index
          { ((G.slice u.index).set u
                (fun l => { l with
                  right_outgoing := l.right_outgoing ++ [v] })).set v
              (fun l => { l with
                left_incoming := l.left_incoming ++ [u] }) with
            edgeCount := (G.slice u.index).edgeCount + 1 } hWF.1
        have hwc : ({ ((G.slice u.index).set u
              (fun l => { l with
                right_outgoing := l.right_outgoing ++ [v] })).set v
            (fun l => { l with
              left_incoming := l.left_incoming ++ [u] }) with
            edgeCount := (G.slice u.index).edgeCount + 1 } : EdgeSlice).structCount =
            (((G.slice u.index).set u
              (fun l => { l with
                right_outgoing := l.right_outgoing ++ [v] })).set v
            (fun l => { l with
              left_incoming := l.left_incoming ++ [u] })).structCount := rfl
        have htot := hWF.2.2
        omega
    · have hge : ¬u.index < v.index := by omega
      have hsl := slices_addEdge_ge h' hge
      have hk0 := wf_keysN_slice hWF v.index
      have hk1 := keysNodup_set (v := u)
        (f := fun l => { l with left_outgoing := l.left_outgoing ++ [v] }) hk0
      have hk2 := keysNodup_set (v := v)
        (f := fun l => { l with right_incoming := l.right_incoming ++ [u] }) hk1
      have hsorted' : List.Pairwise (fun p q => p.1 < q.1)
          (G.addEdge (u, v)).slices := by
        rw [hsl]; exact insertSlice_sorted hWF.1
      have hkN' : ∀ p ∈ (G.addEdge (u, v)).slices,
          (p.2.entries.map Prod.fst).Nodup := by
        intro p hp
        rw [hsl] at hp
        rcases (mem_insertSlice hWF.1).mp hp with rfl | ⟨hpold, _⟩
        · exact hk2
        · exact (hWF.2.1 p hpold).1
      have h1 := structCount_set (s := G.slice v.index) (v := u)
        (f := fun l => { l with left_outgoing := l.left_outgoing ++ [v] }) hk0
      have h2 := structCount_set
        (s := (G.slice v.index).set u
          (fun l => { l with left_outgoing := l.left_outgoing ++ [v] }))
        (v := v)
        (f := fun l => { l with right_incoming := l.right_incoming ++ [u] }) hk1
      simp only [cntOf, List.length_append, List.length_singleton] at h1 h2
      refine ⟨hsorted', ?_, ?_⟩
      · intro p hp
        refine ⟨hkN' p hp, ?_, ?_⟩
        · rw [hsl] at hp
          rcases (mem_insertSlice hWF.1).mp hp with rfl | ⟨hpold, _⟩
          · have h3 := wf_cnt_slice hWF v.index
            show (G.slice v.index).edgeCount + 1 =
              (((G.slice v.index).set u
                  (fun l => { l with
                    left_outgoing := l.left_outgoing ++ [v] })).set v
                (fun l => { l with
                  right_incoming := l.right_incoming ++ [u] })).structCount
            omega
          · exact (hWF.2.1 p hpold).2.1
        · intro q hq
          rw [← el_of_entry hsorted' hkN' hp hq]
          exact elOK_addEdge_ge hWF h' hadj p.1 q.1
      · rw [hsl, hec]
        have hsum := sum_map_insertSlice_slice G v.index
          { ((G.slice v.index).set u
                (fun l => { l with
                  left_outgoing := l.left_outgoing ++ [v] })).set v
              (fun l => { l with
                right_incoming := l.right_incoming ++ [u] }) with
            edgeCount := (G.slice v.index).edgeCount + 1 } hWF.1
        have hwc : ({ ((G.slice v.index).set u
              (fun l => { l with
                left_outgoing := l.left_outgoing ++ [v] })).set v
            (fun l => { l with
              right_incoming := l.right_incoming ++ [u] }) with
            edgeCount := (G.slice v.index).edgeCount + 1 } : EdgeSlice).structCount =
            (((G.slice v.index).set u
              (fun l => { l with
                left_outgoing := l.left_outgoing ++ [v] })).set v
            (fun l => { l with
              right_incoming := l.right_incoming ++ [u] })).structCount := rfl
        have htot := hWF.2.2
        omega

theorem hasEdge_wf_lt {G : Graph} (hWF : WF G) {u v : Vertex}
    (h : G.hasEdge (u, v) = true) (hlt : u.index < v.index) :
    v ∈ (G.el u.index u).right_outgoing ∧
      u ∈ (G.el u.index v).left_incoming ∧ v.index = u.index + 1 := by
  unfold Graph.hasEdge at h
  have hmin : min u.index v.index = u.index := min_eq_left (le_of_lt hlt)
  simp only [hmin, Bool.or_eq_true, List.elem_eq_mem, decide_eq_true_eq] at h
  rcases h with h | h
  · obtain ⟨_, hvi, hback⟩ := wf_ro hWF h
    exact ⟨h, hback, hvi⟩
  · obtain ⟨hvi, _, _⟩ := wf_ri hWF h
    omega

theorem hasEdge_wf_gt {G : Graph} (hWF : WF G) {u v : Vertex}
    (h : G.hasEdge (u, v) = true) (hgt : v.index < u.index) :
    u ∈ (G.el v.index v).right_incoming ∧
      v ∈ (G.el v.index u).left_outgoing ∧ u.index = v.index + 1 := by
  unfold Graph.hasEdge at h
  have hmin : min u.index v.index = v.index := min_eq_right (le_of_lt hgt)
  simp only [hmin, Bool.or_eq_true, List.elem_eq_mem, decide_eq_true_eq] at h
  rcases h with h | h
  · obtain ⟨hui, _, _⟩ := wf_ro hWF h
    omega
  · obtain ⟨_, hui, hback⟩ := wf_ri hWF h
    exact ⟨h, hback, hui⟩

theorem hasEdge_wf_eq {G : Graph} (hWF : WF G) {u v : Vertex}
    (heq : u.index = v.index) : G.hasEdge (u, v) = false := by
  cases hh : G.hasEdge (u, v)
  · rfl
  · exfalso
    unfold Graph.hasEdge at hh
    have hmin : min u.index v.index = u.index := min_eq_left (le_of_eq heq)
    simp only [hmin, Bool.or_eq_true, List.elem_eq_mem,
      decide_eq_true_eq] at hh
    rcases hh with h | h
    · obtain ⟨_, hvi, _⟩ := wf_ro hWF h
      omega
    · obtain ⟨hvi, hui, _⟩ := wf_ri hWF h
      omega

theorem ro_removeEdge_lt {G : Graph} {u v : Vertex}
    (h : G.hasEdge (u, v) = true) (hlt : u.index < v.index) (j : Int)
    (w : Vertex) :
    ((G.removeEdge (u, v)).el j w).right_outgoing =
      if j = u.index ∧ w = u then (G.el j w).right_outgoing.erase v
      else (G.el j w).right_outgoing := by
  rw [el_removeEdge_lt h hlt j w]
  by_cases h1 : j = u.index ∧ w = u
  · rw [if_pos h1, if_pos h1]
  · rw [if_neg h1, if_neg h1]
    by_cases h2 : j = u.index ∧ w = v
    · rw [if_pos h2]
    · rw [if_neg h2]

theorem li_removeEdge_lt {G : Graph} {u v : Vertex}
    (h : G.hasEdge (u, v) = true) (hlt : u.index < v.index) (j : Int)
    (w : Vertex) :
    ((G.removeEdge (u, v)).el j w).left_incoming =
      if j = u.index ∧ w = v then (G.el j w).left_incoming.erase u
      else (G.el j w).left_incoming := by
  rw [el_removeEdge_lt h hlt j w]
  have hne : u ≠ v := fun hc => by subst hc; exact lt_irrefl _ hlt
  by_cases h1 : j = u.index ∧ w = u
  · rw [if_pos h1, if_neg (show ¬(j = u.index ∧ w = v) from
      fun hc => hne (h1.2.symm.trans hc.2))]
  · rw [if_neg h1]
    by_cases h2 : j = u.index ∧ w = v
    · rw [if_pos h2, if_pos h2]
    · rw [if_neg h2, if_neg h2]

theorem lo_removeEdge_lt {G : Graph} {u v : Vertex}
    (h : G.hasEdge (u, v) = true) (hlt : u.index < v.index) (j : Int)
    (w : Vertex) :
    ((G.removeEdge (u, v)).el j w).left_outgoing =
      (G.el j w).left_outgoing := by
  rw [el_removeEdge_lt h hlt j w]
  by_cases h1 : j = u.index ∧ w = u
  · rw [if_pos h1]
  · rw [if_neg h1]
    by_cases h2 : j = u.index ∧ w = v
    · rw [if_pos h2]
    · rw [if_neg h2]

theorem ri_removeEdge_lt {G : Graph} {u v : Vertex}
    (h : G.hasEdge (u, v) = true) (hlt : u.index < v.index) (j : Int)
    (w : Vertex) :
    ((G.removeEdge (u, v)).el j w).right_incoming =
      (G.el j w).right_incoming := by
  rw [el_removeEdge_lt h hlt j w]
  by_cases h1 : j = u.index ∧ w = u
  · rw [if_pos h1]
  · rw [if_neg h1]
    by_cases h2 : j = u.index ∧ w = v
    · rw [if_pos h2]
    · rw [if_neg h2]

theorem lo_removeEdge_gt {G : Graph} {u v : Vertex}
    (h : G.hasEdge (u, v) = true) (hgt : v.index < u.index) (j : Int)
    (w : Vertex) :
    ((G.removeEdge (u, v)).el j w).left_outgoing =
      if j = v.index ∧ w = u then (G.el j w).left_outgoing.erase v
      else (G.el j w).left_outgoing := by
  have hge : ¬u.index < v.index := by omega
  have hne : u ≠ v := fun hc => by subst hc; exact lt_irrefl _ hgt
  rw [el_removeEdge_ge_ne h hge hne j w]
  by_cases h1 : j = v.index ∧ w = u
  · rw [if_pos h1, if_pos h1]
  · rw [if_neg h1, if_neg h1]
    by_cases h2 : j = v.index ∧ w = v
    · rw [if_pos h2]
    · rw [if_neg h2]

theorem ri_removeEdge_gt {G : Graph} {u v : Vertex}
    (h : G.hasEdge (u, v) = true) (hgt : v.index < u.index) (j : Int)
    (w : Vertex) :
    ((G.removeEdge (u, v)).el j w).right_incoming =
      if j = v.index ∧ w = v then (G.el j w).right_incoming.erase u
      else (G.el j w).right_incoming := by
  have hge : ¬u.index < v.index := by omega
  have hne : u ≠ v := fun hc => by subst hc; exact lt_irrefl _ hgt
  rw [el_removeEdge_ge_ne h hge hne j w]
  by_cases h1 : j = v.index ∧ w = u
  · rw [if_pos h1, if_neg (show ¬(j = v.index ∧ w = v) from
      fun hc => hne (h1.2.symm.trans hc.2))]
  · rw [if_neg h1]
    by_cases h2 : j = v.index ∧ w = v
    · rw [if_pos h2, if_pos h2]
    · rw [if_neg h2, if_neg h2]

theorem ro_removeEdge_gt {G : Graph} {u v : Vertex}
    (h : G.hasEdge (u, v) = true) (hgt : v.index < u.index) (j : Int)
    (w : Vertex) :
    ((G.removeEdge (u, v)).el j w).right_outgoing =
      (G.el j w).right_outgoing := by
  have hge : ¬u.index < v.index := by omega
  have hne : u ≠ v := fun hc => by subst hc; exact lt_irrefl _ hgt
  rw [el_removeEdge_ge_ne h hge hne j w]
  by_cases h1 : j = v.index ∧ w = u
  · rw [if_pos h1]
  · rw [if_neg h1]
    by_cases h2 : j = v.index ∧ w = v
    · rw [if_pos h2]
    · rw [if_neg h2]

theorem li_removeEdge_gt {G : Graph} {u v : Vertex}
    (h : G.hasEdge (u, v) = true) (hgt : v.index < u.index) (j : Int)
    (w : Vertex) :
    ((G.removeEdge (u, v)).el j w).left_incoming =
      (G.el j w).left_incoming := by
  have hge : ¬u.index < v.index := by omega
  have hne : u ≠ v := fun hc => by subst hc; exact lt_irrefl _ hgt
  rw [el_removeEdge_ge_ne h hge hne j w]
  by_cases h1 : j = v.index ∧ w = u
  · rw [if_pos h1]
  · rw [if_neg h1]
    by_cases h2 : j = v.index ∧ w = v
    · rw [if_pos h2]
    · rw [if_neg h2]

theorem elOK_removeEdge_lt {G : Graph} {u v : Vertex} (hWF : WF G)
    (h : G.hasEdge (u, v) = true) (hlt : u.index < v.index) :
    ∀ j w, entryOK (G.removeEdge (u, v)) j w
      ((G.removeEdge (u, v)).el j w) := by
  intro j w
  refine ⟨?_, ?_, ?_, ?_, ?_, ?_, ?_, ?_⟩
  · rw [ro_removeEdge_lt h hlt j w]
    split
    · exact (wf_nodup_ro hWF j w).erase _
    · exact wf_nodup_ro hWF j w
  · rw [li_removeEdge_lt h hlt j w]
    split
    · exact (wf_nodup_li hWF j w).erase _
    · exact wf_nodup_li hWF j w
  · rw [lo_removeEdge_lt h hlt j w]
    exact wf_nodup_lo hWF j w
  · rw [ri_removeEdge_lt h hlt j w]
    exact wf_nodup_ri hWF j w
  · intro x hx
    rw [ro_removeEdge_lt h hlt j w] at hx
    by_cases hc : j = u.index ∧ w = u
    · rw [if_pos hc] at hx
      have hxv := ((wf_nodup_ro hWF j w).mem_erase_iff).mp hx
      obtain ⟨hwj, hxj, hpart⟩ := wf_ro hWF hxv.2
      refine ⟨hwj, hxj, ?_⟩
      rw [li_removeEdge_lt h hlt j x, if_neg (fun hc2 => hxv.1 hc2.2)]
      exact hpart
    · rw [if_neg hc] at hx
      obtain ⟨hwj, hxj, hpart⟩ := wf_ro hWF hx
      refine ⟨hwj, hxj, ?_⟩
      rw [li_removeEdge_lt h hlt j x]
      by_cases hc2 : j = u.index ∧ x = v
      · rw [if_pos hc2]
        refine ((wf_nodup_li hWF j x).mem_erase_iff).mpr ⟨?_, hpart⟩
        intro hwu
        exact hc ⟨hc2.1, hwu⟩
      · rw [if_neg hc2]
        exact hpart
  · intro x hx
    rw [li_removeEdge_lt h hlt j w] at hx
    by_cases hc : j = u.index ∧ w = v
    · rw [if_pos hc] at hx
      have hxu := ((wf_nodup_li hWF j w).mem_erase_iff).mp hx
      obtain ⟨hwj, hxj, hpart⟩ := wf_li hWF hxu.2
      refine ⟨hwj, hxj, ?_⟩
      rw [ro_removeEdge_lt h hlt j x, if_neg (fun hc2 => hxu.1 hc2.2)]
      exact hpart
    · rw [if_neg hc] at hx
      obtain ⟨hwj, hxj, hpart⟩ := wf_li hWF hx
      refine ⟨hwj, hxj, ?_⟩
      rw [ro_removeEdge_lt h hlt j x]
      by_cases hc2 : j = u.index ∧ x = u
      · rw [if_pos hc2]
        refine ((wf_nodup_ro hWF j x).mem_erase_iff).mpr ⟨?_, hpart⟩
        intro hwv
        exact hc ⟨hc2.1, hwv⟩
      · rw [if_neg hc2]
        exact hpart
  · intro x hx
    rw [lo_removeEdge_lt h hlt j w] at hx
    obtain ⟨hwj, hxj, hpart⟩ := wf_lo hWF hx
    refine ⟨hwj, hxj, ?_⟩
    rw [ri_removeEdge_lt h hlt j x]
    exact hpart
  · intro x hx
    rw [ri_removeEdge_lt h hlt j w] at hx
    obtain ⟨hwj, hxj, hpart⟩ := wf_ri hWF hx
    refine ⟨hwj, hxj, ?_⟩
    rw [lo_removeEdge_lt h hlt j x]
    exact hpart

theorem elOK_removeEdge_gt {G : Graph} {u v : Vertex} (hWF : WF G)
    (h : G.hasEdge (u, v) = true) (hgt : v.index < u.index) :
    ∀ j w, entryOK (G.removeEdge (u, v)) j w
      ((G.removeEdge (u, v)).el j w) := by
  intro j w
  refine ⟨?_, ?_, ?_, ?_, ?_, ?_, ?_, ?_⟩
  · rw [ro_removeEdge_gt h hgt j w]
    exact wf_nodup_ro hWF j w
  · rw [li_removeEdge_gt h hgt j w]
    exact wf_nodup_li hWF j w
  · rw [lo_removeEdge_gt h hgt j w]
    split
    · exact (wf_nodup_lo hWF j w).erase _
    · exact wf_nodup_lo hWF j w
  · rw [ri_removeEdge_gt h hgt j w]
    split
    · exact (wf_nodup_ri hWF j w).erase _
    · exact wf_nodup_ri hWF j w
  · intro x hx
    rw [ro_removeEdge_gt h hgt j w] at hx
    obtain ⟨hwj, hxj, hpart⟩ := wf_ro hWF hx
    refine ⟨hwj, hxj, ?_⟩
    rw [li_removeEdge_gt h hgt j x]
    exact hpart
  · intro x hx
    rw [li_removeEdge_gt h hgt j w] at hx
    obtain ⟨hwj, hxj, hpart⟩ := wf_li hWF hx
    refine ⟨hwj, hxj, ?_⟩
    rw [ro_removeEdge_gt h hgt j x]
    exact hpart
  · intro x hx
    rw [lo_removeEdge_gt h hgt j w] at hx
    by_cases hc : j = v.index ∧ w = u
    · rw [if_pos hc] at hx
      have hxv := ((wf_nodup_lo hWF j w).mem_erase_iff).mp hx
      obtain ⟨hwj, hxj, hpart⟩ := wf_lo hWF hxv.2
      refine ⟨hwj, hxj, ?_⟩
      rw [ri_removeEdge_gt h hgt j x, if_neg (fun hc2 => hxv.1 hc2.2)]
      exact hpart
    · rw [if_neg hc] at hx
      obtain ⟨hwj, hxj, hpart⟩ := wf_lo hWF hx
      refine ⟨hwj, hxj, ?_⟩
      rw [ri_removeEdge_gt h hgt j x]
      by_cases hc2 : j = v.index ∧ x = v
      · rw [if_pos hc2]
        refine ((wf_nodup_ri hWF j x).mem_erase_iff).mpr ⟨?_, hpart⟩
        intro hwu
        exact hc ⟨hc2.1, hwu⟩
      · rw [if_neg hc2]
        exact hpart
  · intro x hx
    rw [ri_removeEdge_gt h hgt j w] at hx
    by_cases hc : j = v.index ∧ w = v
    · rw [if_pos hc] at hx
      have hxu := ((wf_nodup_ri hWF j w).mem_erase_iff).mp hx
      obtain ⟨hwj, hxj, hpart⟩ := wf_ri hWF hxu.2
      refine ⟨hwj, hxj, ?_⟩
      rw [lo_removeEdge_gt h hgt j x, if_neg (fun hc2 => hxu.1 hc2.2)]
      exact hpart
    · rw [if_neg hc] at hx
      obtain ⟨hwj, hxj, hpart⟩ := wf_ri hWF hx
      refine ⟨hwj, hxj, ?_⟩
      rw [lo_removeEdge_gt h hgt j x]
      by_cases hc2 : j = v.index ∧ x = u
      · rw [if_pos hc2]
        refine ((wf_nodup_lo hWF j x).mem_erase_iff).mpr ⟨?_, hpart⟩
        intro hwv
        exact hc ⟨hc2.1, hwv⟩
      · rw [if_neg hc2]
        exact hpart

theorem slices_removeEdge_lt {G : Graph} {u v : Vertex}
    (h : G.hasEdge (u, v) = true) (hlt : u.index < v.index) :
    (G.removeEdge (u, v)).slices =
      insertSlice u.index
        { ((G.slice u.index).set u
              (fun l => { l with
                right_outgoing := l.right_outgoing.erase v })).set v
            (fun l => { l with left_incoming := l.left_incoming.erase u }) with
          edgeCount := (G.slice u.index).edgeCount - 1 }
        G.slices := by
  unfold Graph.removeEdge
  simp only [h, Bool.not_true, Bool.false_eq_true, if_false, hlt, if_true]
  rw [slices_withCount]
  unfold Graph.updEl
  rw [slices_updSlice, slices_updSlice, slices_updSlice]
  rw [insertSlice_insertSlice, insertSlice_insertSlice]
  rw [slice_updSlice_self, slice_updSlice_self]
  rw [edgeCount_set, edgeCount_set]

theorem slices_removeEdge_ge {G : Graph} {u v : Vertex}
    (h : G.hasEdge (u, v) = true) (hge : ¬u.index < v.index) :
    (G.removeEdge (u, v)).slices =
      insertSlice v.index
        { ((G.slice v.index).set u
              (fun l => { l with
                left_outgoing := l.left_outgoing.erase v })).set v
            (fun l => { l with
              right_incoming := l.right_incoming.erase u }) with
          edgeCount := (G.slice v.index).edgeCount - 1 }
        G.slices := by
  unfold Graph.removeEdge
  simp only [h, Bool.not_true, Bool.false_eq_true, if_false, hge, if_false]
  rw [slices_withCount]
  unfold Graph.updEl
  rw [slices_updSlice, slices_updSlice, slices_updSlice]
  rw [insertSlice_insertSlice, insertSlice_insertSlice]
  rw [slice_updSlice_self, slice_updSlice_self]
  rw [edgeCount_set, edgeCount_set]

theorem wf_removeEdge {G : Graph} (hWF : WF G) (e : Edge) :
    WF (G.removeEdge e) := by
  obtain ⟨u, v⟩ := e
  by_cases he : G.hasEdge (u, v) = true
  · have hec : (G.removeEdge (u, v)).edgeCount = G.edgeCount - 1 :=
      size_removeEdge he
    rcases lt_trichotomy u.index v.index with hlt | heq | hgt
    · obtain ⟨hvro, huli, hadj⟩ := hasEdge_wf_lt hWF he hlt
      have hsl := slices_removeEdge_lt he hlt
      have hk0 := wf_keysN_slice hWF u.index
      have hk1 := keysNodup_set (v := u)
        (f := fun l => { l with
          right_outgoing := l.right_outgoing.erase v }) hk0
      have hk2 := keysNodup_set (v := v)
        (f := fun l => { l with
          left_incoming := l.left_incoming.erase u }) hk1
      have hsorted' : List.Pairwise (fun p q => p.1 < q.1)
          (G.removeEdge (u, v)).slices := by
        rw [hsl]; exact insertSlice_sorted hWF.1
      have hkN' : ∀ p ∈ (G.removeEdge (u, v)).slices,
          (p.2.entries.map Prod.fst).Nodup := by
        intro p hp
        rw [hsl] at hp
        rcases (mem_insertSlice hWF.1).mp hp with rfl | ⟨hpold, _⟩
        · exact hk2
        · exact (hWF.2.1 p hpold).1
      have h1 := structCount_set (s := G.slice u.index) (v := u)
        (f := fun l => { l with
          right_outgoing := l.right_outgoing.erase v }) hk0
      have h2 := structCount_set
        (s := (G.slice u.index).set u
          (fun l => { l with
            right_outgoing := l.right_outgoing.erase v }))
        (v := v)
        (f := fun l => { l with
          left_incoming := l.left_incoming.erase u }) hk1
      simp only [cntOf] at h1 h2
      have hm : v ∈ ((G.slice u.index).get u).right_outgoing := hvro
      have hlen : (((G.slice u.index).get u).right_outgoing.erase v).length +
          1 = ((G.slice u.index).get u).right_outgoing.length := by
        rw [List.length_erase_of_mem hm]
        have := List.length_pos_of_mem hm
        omega
      refine ⟨hsorted', ?_, ?_⟩
      · intro p hp
        refine ⟨hkN' p hp, ?_, ?_⟩
        · rw [hsl] at hp
          rcases (mem_insertSlice hWF.1).mp hp with rfl | ⟨hpold, _⟩
          · have h3 := wf_cnt_slice hWF u.index
            show (G.slice u.index).edgeCount - 1 =
              (((G.slice u.index).set u
                  (fun l => { l with
                    right_outgoing := l.right_outgoing.erase v })).set v
                (fun l => { l with
                  left_incoming := l.left_incoming.erase u })).structCount
            omega
          · exact (hWF.2.1 p hpold).2.1
        · intro q hq
          rw [← el_of_entry hsorted' hkN' hp hq]
          exact elOK_removeEdge_lt hWF he hlt p.1 q.1
      · rw [hsl, hec]
        have hsum := sum_map_insertSlice_slice G u.index
          { ((G.slice u.index).set u
                (fun l => { l with
                  right_outgoing := l.right_outgoing.erase v })).set v
              (fun l => { l with
                left_incoming := l.left_incoming.erase u }) with
            edgeCount := (G.slice u.index).edgeCount - 1 } hWF.1
        have hwc : ({ ((G.slice u.index).set u
              (fun l => { l with
                right_outgoing := l.right_outgoing.erase v })).set v
            (fun l => { l with
              left_incoming := l.left_incoming.erase u }) with
            edgeCount :=
              (G.slice u.index).edgeCount - 1 } : EdgeSlice).structCount =
            (((G.slice u.index).set u
              (fun l => { l with
                right_outgoing := l.right_outgoing.erase v })).set v
            (fun l => { l with
              left_incoming := l.left_incoming.erase u })).structCount := rfl
        have h3 := wf_cnt_slice hWF u.index
        have htot := hWF.2.2
        omega
    · rw [hasEdge_wf_eq hWF heq] at he
      exact absurd he (by simp)
    · obtain ⟨huri, hvlo, hadj⟩ := hasEdge_wf_gt hWF he hgt
      have hge : ¬u.index < v.index := by omega
      have hsl := slices_removeEdge_ge he hge
      have hk0 := wf_keysN_slice hWF v.index
      have hk1 := keysNodup_set (v := u)
        (f := fun l => { l with
          left_outgoing := l.left_outgoing.erase v }) hk0
      have hk2 := keysNodup_set (v := v)
        (f := fun l => { l with
          right_incoming := l.right_incoming.erase u }) hk1
      have hsorted' : List.Pairwise (fun p q => p.1 < q.1)
          (G.removeEdge (u, v)).slices := by
        rw [hsl]; exact insertSlice_sorted hWF.1
      have hkN' : ∀ p ∈ (G.removeEdge (u, v)).slices,
          (p.2.entries.map Prod.fst).Nodup := by
        intro p hp
        rw [hsl] at hp
        rcases (mem_insertSlice hWF.1).mp hp with rfl | ⟨hpold, _⟩
        · exact hk2
        · exact (hWF.2.1 p hpold).1
      have h1 := structCount_set (s := G.slice v.index) (v := u)
        (f := fun l => { l with
          left_outgoing := l.left_outgoing.erase v }) hk0
      have h2 := structCount_set
        (s := (G.slice v.index).set u
          (fun l => { l with
            left_outgoing := l.left_outgoing.erase v }))
        (v := v)
        (f := fun l => { l with
          right_incoming := l.right_incoming.erase u }) hk1
      have hvu : v ≠ u := fun hc => by
        rw [hc] at hgt; exact lt_irrefl _ hgt
      have hgs : (((G.slice v.index).set u
          (fun l => { l with
            left_outgoing := l.left_outgoing.erase v })).get v) =
          (G.slice v.index).get v :=
        get_set_ne (G.slice v.index) u v _ hvu
      rw [hgs] at h2
      simp only [cntOf] at h1 h2
      have hm : u ∈ ((G.slice v.index).get v).right_incoming := huri
      have hlen : (((G.slice v.index).get v).right_incoming.erase u).length +
          1 = ((G.slice v.index).get v).right_incoming.length := by
        rw [List.length_erase_of_mem hm]
        have := List.length_pos_of_mem hm
        omega
      refine ⟨hsorted', ?_, ?_⟩
      · intro p hp
        refine ⟨hkN' p hp, ?_, ?_⟩
        · rw [hsl] at hp
          rcases (mem_insertSlice hWF.1).mp hp with rfl | ⟨hpold, _⟩
          · have h3 := wf_cnt_slice hWF v.index
            show (G.slice v.index).edgeCount - 1 =
              (((G.slice v.index).set u
                  (fun l => { l with
                    left_outgoing := l.left_outgoing.erase v })).set v
                (fun l => { l with
                  right_incoming := l.right_incoming.erase u })).structCount
            omega
          · exact (hWF.2.1 p hpold).2.1
        · intro q hq
          rw [← el_of_entry hsorted' hkN' hp hq]
          exact elOK_removeEdge_gt hWF he hgt p.1 q.1
      · rw [hsl, hec]
        have hsum := sum_map_insertSlice_slice G v.index
          { ((G.slice v.index).set u
                (fun l => { l with
                  left_outgoing := l.left_outgoing.erase v })).set v
              (fun l => { l with
                right_incoming := l.right_incoming.erase u }) with
            edgeCount := (G.slice v.index).edgeCount - 1 } hWF.1
        have hwc : ({ ((G.slice v.index).set u
              (fun l => { l with
                left_outgoing := l.left_outgoing.erase v })).set v
            (fun l => { l with
              right_incoming := l.right_incoming.erase u }) with
            edgeCount :=
              (G.slice v.index).edgeCount - 1 } : EdgeSlice).structCount =
            (((G.slice v.index).set u
              (fun l => { l with
                left_outgoing := l.left_outgoing.erase v })).set v
            (fun l => { l with
              right_incoming := l.right_incoming.erase u })).structCount := rfl
        have h3 := wf_cnt_slice hWF v.index
        have htot := hWF.2.2
        omega
  · rw [removeEdge_of_not_hasEdge (by simpa using he)]
    exact hWF

theorem wf_applyOps {G : Graph} (hWF : WF G) {ops : List GOp}
    (hok : ∀ o ∈ ops, o.adjacentOk) : WF (applyOps G ops) := by
  induction ops generalizing G with
  | nil => exact hWF
  | cons o r ih =>
    show WF (applyOps (GOp.apply G o) r)
    refine ih ?_ (fun o' ho' => hok o' (List.mem_cons_of_mem _ ho'))
    cases o with
    | add e =>
      obtain ⟨u, v⟩ := e
      exact wf_addEdge hWF (hok _ (List.mem_cons_self _ _))
    | remove e => exact wf_removeEdge hWF e

theorem conservation_of_wf {G : Graph} (h : WF G) : conservation G := by
  unfold conservation
  rw [h.2.2]
  congr 1
  refine List.map_congr_left ?_
  intro p hp
  exact (h.2.1 p hp).2.1.symm

/-! ## Traversal helpers: set model, chains, subgraph invariants -/

theorem mem_insD {α : Type} [BEq α] {l : List α} {x y : α}
    (h : y ∈ insD l x) : y ∈ l ∨ y = x := by
  unfold insD at h
  split at h
  · exact Or.inl h
  · rcases List.mem_append.mp h with h | h
    · exact Or.inl h
    · exact Or.inr (List.mem_singleton.mp h)

theorem mem_unionD {α : Type} [BEq α] {xs : List α} :
    ∀ {l : List α} {y : α}, y ∈ unionD l xs → y ∈ l ∨ y ∈ xs := by
  induction xs with
  | nil => intro l y h; exact Or.inl h
  | cons a r ih =>
    intro l y h
    rcases ih h with h' | h'
    · rcases mem_insD h' with h'' | h''
      · exact Or.inl h''
      · exact Or.inr (h'' ▸ List.mem_cons_self _ _)
    · exact Or.inr (List.mem_cons_of_mem _ h')

theorem mem_outgoingEdgeOf_fst {G : Graph} {v : Vertex} {f : Edge}
    (h : f ∈ G.outgoingEdgeOf v) : f.1 = v := by
  unfold Graph.outgoingEdgeOf at h
  rw [List.mem_map] at h
  obtain ⟨w, _, rfl⟩ := h
  rfl

theorem hasEdge_getNextEdges {G : Graph} (h : WF G) {e f : Edge}
    (hm : f ∈ G.getNextEdges e) :
    G.hasEdge f = true ∧ f.1 = e.2 := by
  unfold Graph.getNextEdges at hm
  exact ⟨(hasEdge_of_mem_outgoing h hm).1, (hasEdge_of_mem_outgoing h hm).2.1⟩

theorem hasEdge_getPrevEdges {G : Graph} (h : WF G) {e f : Edge}
    (hm : f ∈ G.getPrevEdges e) :
    G.hasEdge f = true ∧ f.2 = e.1 := by
  unfold Graph.getPrevEdges at hm
  exact ⟨(hasEdge_of_mem_incoming h hm).1, (hasEdge_of_mem_incoming h hm).2.1⟩

theorem chainB_snoc {l : List Edge} {e f : Edge} (hc : chainB l = true)
    (hl : l.getLast? = some e) (hef : e.2 = f.1) :
    chainB (l ++ [f]) = true := by
  induction l with
  | nil => simp at hl
  | cons a r ih =>
    cases r with
    | nil =>
      have ha : some a = some e := hl
      have ha' : a = e := by injection ha
      subst ha'
      show chainB [a, f] = true
      simp [chainB, hef]
    | cons b s =>
      unfold chainB at hc
      simp only [Bool.and_eq_true, beq_iff_eq] at hc
      have hl' : (b :: s).getLast? = some e := by
        rw [List.getLast?_cons_cons] at hl
        exact hl
      have := ih hc.2 hl'
      show chainB (a :: b :: (s ++ [f])) = true
      rw [show chainB (a :: b :: (s ++ [f])) =
        ((a.2 == b.1) && chainB (b :: (s ++ [f]))) from rfl]
      simp only [Bool.and_eq_true, beq_iff_eq]
      exact ⟨hc.1, this⟩

theorem chainFromB_mono {G G' : Graph} {V0 : List Vertex} {l : List Edge}
    (hsub : ∀ e, G.hasEdge e = true → G'.hasEdge e = true)
    (h : chainFromB G V0 l = true) : chainFromB G' V0 l = true := by
  unfold chainFromB at h ⊢
  cases l with
  | nil => exact h
  | cons e r =>
    simp only [Bool.and_eq_true, List.all_eq_true] at h ⊢
    exact ⟨⟨h.1.1, fun f hf => hsub f (h.1.2 f hf)⟩, h.2⟩

theorem hasEdge_empty' (e : Edge) : Graph.empty.hasEdge e = false := by
  obtain ⟨u, v⟩ := e
  rfl

theorem pruneCascade_sub {M : Machine} {C Ef : List Edge} :
    ∀ fuel (H : Graph) (T Ef_ : List Edge) (H' : Graph),
      pruneCascade M C Ef fuel H T Ef_ = some H' →
      ∀ e, H'.hasEdge e = true → H.hasEdge e = true := by
  intro fuel
  induction fuel with
  | zero => intro H T Ef_ H' h; exact absurd h (by simp [pruneCascade])
  | succ n ih =>
    intro H T Ef_ H' h e he
    rw [pruneCascade] at h
    split at h
    · cases h
      exact he
    · split at h
      · exact ih _ _ _ _ h e he
      · repeat'
          first
            | split at h
            | simp only [] at h
        all_goals
          first
            | exact hasEdge_removeEdge_sub (ih _ _ _ _ h e he)
            | (injection h with h'
               rw [← h', hasEdge_empty'] at he
               exact absurd he (by simp))

theorem pruneCascade_wf {M : Machine} {C Ef : List Edge} :
    ∀ fuel (H : Graph) (T Ef_ : List Edge) (H' : Graph),
      WF H → pruneCascade M C Ef fuel H T Ef_ = some H' → WF H' := by
  intro fuel
  induction fuel with
  | zero => intro H T Ef_ H' _ h; exact absurd h (by simp [pruneCascade])
  | succ n ih =>
    intro H T Ef_ H' hWF h
    rw [pruneCascade] at h
    split at h
    · cases h
      exact hWF
    · split at h
      · exact ih _ _ _ _ hWF h
      · repeat'
          first
            | split at h
            | simp only [] at h
        all_goals
          first
            | exact ih _ _ _ _ (wf_removeEdge hWF _) h
            | (injection h with h'
               exact h' ▸ wf_empty)

set_option maxHeartbeats 2000000 in
theorem stepPendentLoop_sound {M : Machine} {G : Graph} {C : List Edge}
    {V0 : List Vertex} {Ef : List Edge} (hWF : WF G) :
    ∀ fuel (T : List Edge) (H : Graph) (Er : List Edge),
      (∀ e ∈ T, G.hasEdge e = true) → WF H →
      (∀ e, H.hasEdge e = true → G.hasEdge e = true) →
      ∀ H' Er', stepPendentLoop M G C V0 Ef fuel T H Er = some (H', Er') →
        WF H' ∧ ∀ e, H'.hasEdge e = true → G.hasEdge e = true := by
  intro fuel
  induction fuel with
  | zero =>
    intro T H Er _ _ _ H' Er' h
    exact absurd h (by simp [stepPendentLoop])
  | succ n ih =>
    intro T H Er hT hWFH hsub H' Er' h
    rw [stepPendentLoop] at h
    split at h
    · injection h with h1
      injection h1 with h2 h3
      subst h2
      exact ⟨hWFH, hsub⟩
    · rename_i f heq
      have hf : f ∈ T := List.mem_of_mem_getLast? heq
      have hfG : G.hasEdge f = true := hT f hf
      have hT1 : ∀ e ∈ T.dropLast, G.hasEdge e = true :=
        fun e he => hT e (List.mem_of_mem_dropLast he)
      split at h
      · exact ih _ _ _ hT1 hWFH hsub _ _ h
      · obtain ⟨u, v⟩ := f
        have hadj := adj_of_hasEdge hWF hfG
        have hWF1 : WF (H.addEdge (u, v)) := wf_addEdge hWFH hadj
        have hsub1 : ∀ e, (H.addEdge (u, v)).hasEdge e = true →
            G.hasEdge e = true := by
          intro e he
          rcases hasEdge_addEdge_inv he with rfl | he'
          · exact hfG
          · exact hsub e he'
        repeat'
          first
            | split at h
            | simp only [] at h
        all_goals
          refine ih _ _ _ ?_ hWF1 hsub1 _ _ h
        all_goals
          intro e he
        all_goals
          have hor : e ∈ T.dropLast ∨ e ∈ G.getNextEdges (u, v) ∨
              e ∈ G.getPrevEdges (u, v) := by
            simp only [List.mem_append] at he
            tauto
        all_goals
          rcases hor with h1 | h1 | h1
        all_goals
          first
            | exact hT1 e h1
            | exact (hasEdge_getNextEdges hWF h1).1
            | exact (hasEdge_getPrevEdges hWF h1).1

theorem GetStepPendent_sound {fuel : Nat} {M : Machine} {G : Graph}
    {C : List Edge} {V0 : List Vertex} {Ef : List Edge} (hWF : WF G)
    {H' : Graph} {Er' : List Edge}
    (h : GetStepPendentEdgesWithReachableGraph fuel M G C V0 Ef =
      some (H', Er')) :
    WF H' ∧ ∀ e, H'.hasEdge e = true → G.hasEdge e = true := by
  unfold GetStepPendentEdgesWithReachableGraph at h
  refine stepPendentLoop_sound hWF fuel _ _ _ ?_ wf_empty ?_ _ _ h
  · intro e he
    rcases mem_unionD he with h0 | h0
    · exact absurd h0 (by simp)
    · rw [List.mem_flatMap] at h0
      obtain ⟨v0, _, hm⟩ := h0
      exact (hasEdge_of_mem_outgoing hWF hm).1
  · intro e he
    rw [hasEdge_empty'] at he
    exact absurd he (by simp)

theorem cfg_sound {fuel : Nat} {M : Machine} {G : Graph} {V0 : List Vertex}
    {Ef Er_ : List Edge} (hWF : WF G) {H' : Graph}
    (h : ComputeFeasibleGraph fuel M G V0 Ef Er_ = some H') :
    WF H' ∧ ∀ e, H'.hasEdge e = true → G.hasEdge e = true := by
  unfold ComputeFeasibleGraph at h
  cases hC : ComputeCoverEdges fuel G Ef with
  | none =>
    rw [hC] at h
    exact absurd h (by simp)
  | some Cv =>
    rw [hC] at h
    simp only [Option.bind_eq_bind, Option.some_bind] at h
    cases hS : GetStepPendentEdgesWithReachableGraph fuel M G Cv V0 Ef with
    | none =>
      rw [hS] at h
      exact absurd h (by simp)
    | some p =>
      obtain ⟨H0, Er0⟩ := p
      rw [hS] at h
      simp only [Option.some_bind] at h
      obtain ⟨hWF0, hsub0⟩ := GetStepPendent_sound hWF hS
      exact ⟨pruneCascade_wf _ _ _ _ _ hWF0 h,
        fun e he => hsub0 e (pruneCascade_sub _ _ _ _ _ h e he)⟩

theorem closed_absorb {G : Graph} {V0 : List Vertex} {S : List Edge}
    (hcl : closedUnderB G V0 S = true) (hWF : WF G) :
    ∀ l, chainFromB G V0 l = true → ∀ e ∈ l, e ∈ S := by
  unfold closedUnderB at hcl
  simp only [Bool.and_eq_true, List.all_eq_true, List.elem_eq_mem,
    decide_eq_true_eq] at hcl
  obtain ⟨hcl1, hcl2⟩ := hcl
  have step : ∀ (l : List Edge) (e : Edge), e ∈ S →
      chainB (e :: l) = true → (∀ f ∈ l, G.hasEdge f = true) →
      ∀ f ∈ l, f ∈ S := by
    intro l
    induction l with
    | nil =>
      intro e _ _ _ f hf
      exact absurd hf (by simp)
    | cons g r ih =>
      intro e heS hch hhe f hf
      have hch' : (e.2 == g.1 && chainB (g :: r)) = true := hch
      simp only [Bool.and_eq_true, beq_iff_eq] at hch'
      have hgE : G.hasEdge g = true := hhe g (List.mem_cons_self _ _)
      have hgS : g ∈ S := by
        have hmo : g ∈ G.outgoingEdgeOf g.1 := by
          obtain ⟨g1, g2⟩ := g
          exact mem_outgoing_of_hasEdge hWF hgE
        have hmn : g ∈ G.getNextEdges e := by
          unfold Graph.getNextEdges
          rw [hch'.1]
          exact hmo
        exact hcl2 e heS g hmn
      rcases List.mem_cons.mp hf with rfl | hf'
      · exact hgS
      · exact ih g hgS hch'.2
          (fun f' hf'' => hhe f' (List.mem_cons_of_mem _ hf'')) f hf'
  intro l hl e hel
  cases l with
  | nil => exact absurd hel (by simp)
  | cons e0 r =>
    have hl' : (V0.contains e0.1 && (e0 :: r).all G.hasEdge &&
        chainB (e0 :: r)) = true := hl
    simp only [Bool.and_eq_true, List.all_eq_true, List.elem_eq_mem,
      decide_eq_true_eq] at hl'
    have h0S : e0 ∈ S := by
      have h0E := hl'.1.2 e0 (List.mem_cons_self _ _)
      have hmo : e0 ∈ G.outgoingEdgeOf e0.1 := by
        obtain ⟨a, b⟩ := e0
        exact mem_outgoing_of_hasEdge hWF h0E
      exact hcl1 e0.1 hl'.1.1 e0 hmo
    rcases List.mem_cons.mp hel with rfl | hel'
    · exact h0S
    · exact step r e0 h0S hl'.2
        (fun f hf => hl'.1.2 f (List.mem_cons_of_mem _ hf)) e hel'

theorem yEf_not_reachable : ¬ EdgeReachable yG [yv0] yEf := by
  rintro ⟨l, hch, hlast⟩
  have hmem : yEf ∈ l := List.mem_of_mem_getLast? hlast
  have hclo : closedUnderB yG [yv0] yClosure = true := by decide
  have hWFy : WF yG := by decide
  have := closed_absorb hclo hWFy l hch yEf hmem
  exact absurd this (by decide)

theorem hasEdge_foldl_addEdge_inv :
    ∀ (es : List Edge) (G0 : Graph) (f : Edge),
      (es.foldl Graph.addEdge G0).hasEdge f = true →
      f ∈ es ∨ G0.hasEdge f = true := by
  intro es
  induction es with
  | nil => intro G0 f h; exact Or.inr h
  | cons e r ih =>
    intro G0 f h
    rcases ih _ f h with h' | h'
    · exact Or.inl (List.mem_cons_of_mem _ h')
    · rcases hasEdge_addEdge_inv h' with rfl | h''
      · exact Or.inl (List.mem_cons_self _ _)
      · exact Or.inr h''

theorem wf_foldl_addEdge :
    ∀ (es : List Edge) (G0 : Graph), WF G0 →
      (∀ e ∈ es, e.1.index + 1 = e.2.index ∨ e.2.index + 1 = e.1.index) →
      WF (es.foldl Graph.addEdge G0) := by
  intro es
  induction es with
  | nil => intro G0 h _; exact h
  | cons e r ih =>
    intro G0 h hadj
    refine ih _ ?_ (fun f hf => hadj f (List.mem_cons_of_mem _ hf))
    obtain ⟨u, v⟩ := e
    exact wf_addEdge h (hadj _ (List.mem_cons_self _ _))

theorem mem_allStoredEdges {G : Graph} (hWF : WF G) {e : Edge}
    (hm : e ∈ G.allStoredEdges) :
    G.hasEdge e = true ∧
      (e.1.index + 1 = e.2.index ∨ e.2.index + 1 = e.1.index) := by
  unfold Graph.allStoredEdges at hm
  rw [List.mem_flatMap] at hm
  obtain ⟨p, hp, hm⟩ := hm
  rw [List.mem_flatMap] at hm
  obtain ⟨q, hq, hm⟩ := hm
  have hqel : G.el p.1 q.1 = q.2 :=
    el_of_entry hWF.1 (fun p hp => (hWF.2.1 p hp).1) hp hq
  rcases List.mem_append.mp hm with hm | hm
  · rw [List.mem_map] at hm
    obtain ⟨w, hw, rfl⟩ := hm
    rw [← hqel] at hw
    obtain ⟨hq1, hw1, hpart⟩ := wf_ri hWF hw
    constructor
    · show G.hasEdge (w, q.1) = true
      show ((G.el (min w.index q.1.index) w).right_outgoing.contains q.1 ||
        (G.el (min w.index q.1.index) q.1).right_incoming.contains w) = true
      rw [show min w.index q.1.index = p.1 from
        (min_eq_right (by omega)).trans hq1]
      simp only [Bool.or_eq_true, List.elem_eq_mem, decide_eq_true_eq]
      exact Or.inr hw
    · show (w.index + 1 = q.1.index ∨ q.1.index + 1 = w.index)
      omega
  · rw [List.mem_map] at hm
    obtain ⟨w, hw, rfl⟩ := hm
    rw [← hqel] at hw
    obtain ⟨hq1, hw1, hpart⟩ := wf_ro hWF hw
    constructor
    · show G.hasEdge (q.1, w) = true
      show ((G.el (min q.1.index w.index) q.1).right_outgoing.contains w ||
        (G.el (min q.1.index w.index) w).right_incoming.contains q.1) = true
      rw [show min q.1.index w.index = p.1 from
        (min_eq_left (by omega)).trans hq1]
      simp only [Bool.or_eq_true, List.elem_eq_mem, decide_eq_true_eq]
      exact Or.inl hw
    · show (q.1.index + 1 = w.index ∨ w.index + 1 = q.1.index)
      omega

theorem wf_empty_reg (r : List Vertex) :
    WF { Graph.empty with reg := r } := by
  refine ⟨List.Pairwise.nil, ?_, rfl⟩
  intro p hp
  exact absurd hp (by simp [Graph.empty])

theorem hasEdge_empty_reg (r : List Vertex) (e : Edge) :
    ({ Graph.empty with reg := r } : Graph).hasEdge e = false := by
  obtain ⟨u, v⟩ := e
  rfl

theorem copy_sound {G : Graph} (hWF : WF G) :
    WF G.getCopyedGraph ∧
      ∀ e, G.getCopyedGraph.hasEdge e = true → G.hasEdge e = true := by
  unfold Graph.getCopyedGraph
  split
  · refine ⟨wf_empty, ?_⟩
    intro e he
    rw [hasEdge_empty'] at he
    exact absurd he (by simp)
  · constructor
    · exact wf_foldl_addEdge _ _ (wf_empty_reg G.reg)
        (fun e he => (mem_allStoredEdges hWF he).2)
    · intro e he
      rcases hasEdge_foldl_addEdge_inv _ _ _ he with h' | h'
      · exact (mem_allStoredEdges hWF h').1
      · rw [hasEdge_empty_reg] at h'
        exact absurd h' (by simp)

theorem ffme_mem {G : Graph} : ∀ {W : List Edge} {e : Edge},
    FindFirstMergingEdgeOrFinalEdge G W = some e → e ∈ W := by
  intro W
  induction W with
  | nil =>
    intro e h
    exact absurd h (by simp [FindFirstMergingEdgeOrFinalEdge])
  | cons a r ih =>
    intro e h
    cases r with
    | nil =>
      have h' : some a = some e := h
      injection h' with h''
      cases h''
      exact List.mem_cons_self _ _
    | cons b s =>
      rw [FindFirstMergingEdgeOrFinalEdge] at h
      split at h
      · injection h with h''
        cases h''
        exact List.mem_cons_self _ _
      · exact List.mem_cons_of_mem _ (ih h)

theorem filterCandidates_subset :
    ∀ {l : List Edge} {S S' : Surface} {kept : List Edge},
      filterCandidates S l = some (S', kept) → ∀ f ∈ kept, f ∈ l := by
  intro l
  induction l with
  | nil =>
    intro S S' kept h f hf
    have h' : (some (S, ([] : List Edge)) :
        Option (Surface × List Edge)) = some (S', kept) := h
    injection h' with h1
    injection h1 with h2 h3
    subst h3
    exact absurd hf (by simp)
  | cons a r ih =>
    intro S S' kept h f hf
    rw [filterCandidates] at h
    cases hc : surfaceCheck S a with
    | none =>
      rw [hc] at h
      exact absurd h (by simp)
    | some p =>
      obtain ⟨S1, keep⟩ := p
      rw [hc] at h
      simp only [Option.bind_eq_bind, Option.some_bind] at h
      cases hr : filterCandidates S1 r with
      | none =>
        rw [hr] at h
        exact absurd h (by simp)
      | some q =>
        obtain ⟨S2, rest⟩ := q
        rw [hr] at h
        simp only [Option.some_bind] at h
        injection h with h1
        injection h1 with h2 h3
        subst h3
        by_cases hk : keep = true
        · rw [if_pos hk] at hf
          rcases List.mem_cons.mp hf with rfl | hf'
          · exact List.mem_cons_self _ _
          · exact List.mem_cons_of_mem _ (ih hr f hf')
        · rw [if_neg hk] at hf
          exact List.mem_cons_of_mem _ (ih hr f hf)

theorem walkLoop_sound {M : Machine} {G : Graph} (hWF : WF G) :
    ∀ fuel (S : Surface) (W : List Edge) (e : Edge),
      chainB (W ++ [e]) = true →
      (∀ f ∈ W ++ [e], G.hasEdge f = true) →
      ∀ W', walkLoop M G fuel S W e = some W' →
        chainB W' = true ∧ (∀ f ∈ W', G.hasEdge f = true) ∧
          W'.head? = (W ++ [e]).head? := by
  intro fuel
  induction fuel with
  | zero =>
    intro S W e _ _ W' h
    exact absurd h (by simp [walkLoop])
  | succ n ih =>
    intro S W e hch hhe W' h
    obtain ⟨u, v⟩ := e
    rw [walkLoop] at h
    simp only [] at h
    cases hw : Surface.write S u.index (u.index, u.tier, u.state, u.symbol) with
    | none =>
      rw [hw] at h
      exact absurd h (by simp)
    | some S1 =>
      rw [hw] at h
      simp only [Option.bind_eq_bind, Option.some_bind] at h
      cases hf : filterCandidates S1 (G.getNextEdges (u, v)) with
      | none =>
        rw [hf] at h
        exact absurd h (by simp)
      | some p =>
        obtain ⟨S2, EN⟩ := p
        rw [hf] at h
        simp only [Option.some_bind] at h
        cases EN with
        | nil =>
          injection h with h1
          subst h1
          exact ⟨hch, hhe, rfl⟩
        | cons g r =>
          have hgin : g ∈ G.getNextEdges (u, v) :=
            filterCandidates_subset hf g (List.mem_cons_self _ _)
          obtain ⟨hgE, hg1⟩ := hasEdge_getNextEdges hWF hgin
          have hch' : chainB ((W ++ [(u, v)]) ++ [g]) = true :=
            chainB_snoc hch (List.getLast?_concat _) hg1.symm
          have hhe' : ∀ f ∈ (W ++ [(u, v)]) ++ [g],
              G.hasEdge f = true := by
            intro f hf'
            rcases List.mem_append.mp hf' with hf' | hf'
            · exact hhe f hf'
            · rcases List.mem_singleton.mp hf' with rfl
              exact hgE
          obtain ⟨c1, c2, c3⟩ := ih S2 (W ++ [(u, v)]) g hch' hhe' W' h
          refine ⟨c1, c2, ?_⟩
          rw [c3]
          cases W with
          | nil => rfl
          | cons w0 ws => rfl

theorem takeWalk_sound {fuel : Nat} {M : Machine} {G : Graph}
    {V0 : List Vertex} (hWF : WF G) {W : List Edge}
    (h : TakeArbitraryWalk fuel M G V0 = some W) (hne : W ≠ []) :
    chainFromB G V0 W = true := by
  unfold TakeArbitraryWalk at h
  cases V0 with
  | nil => exact absurd h (by simp)
  | cons v0 rest =>
    simp only [] at h
    cases ho : G.outgoingEdgeOf v0 with
    | nil =>
      rw [ho] at h
      injection h with h1
      exact absurd h1.symm hne
    | cons e es =>
      rw [ho] at h
      have he0 : e ∈ G.outgoingEdgeOf v0 := by
        rw [ho]
        exact List.mem_cons_self _ _
      obtain ⟨heE, he1, _⟩ := hasEdge_of_mem_outgoing hWF he0
      have hch0 : chainB (([] : List Edge) ++ [e]) = true := rfl
      have hhe0 : ∀ f ∈ ([] : List Edge) ++ [e], G.hasEdge f = true := by
        intro f hf
        rcases List.mem_singleton.mp hf with rfl
        exact heE
      obtain ⟨c1, c2, c3⟩ := walkLoop_sound hWF fuel Surface.empty [] e
        hch0 hhe0 W h
      cases W with
      | nil => exact absurd rfl hne
      | cons w0 ws =>
        have hw0 : w0 = e := by
          have : some w0 = some e := c3
          injection this
        subst hw0
        show (List.contains (v0 :: rest) w0.1 &&
          (w0 :: ws).all G.hasEdge && chainB (w0 :: ws)) = true
        simp only [Bool.and_eq_true, List.all_eq_true, List.elem_eq_mem,
          decide_eq_true_eq]
        refine ⟨⟨?_, c2⟩, c1⟩
        rw [he1]
        exact List.mem_cons_self _ _

theorem adj_of_hasEdge' {G : Graph} (h : WF G) {e : Edge}
    (he : G.hasEdge e = true) :
    e.1.index + 1 = e.2.index ∨ e.2.index + 1 = e.1.index := by
  obtain ⟨u, v⟩ := e
  exact adj_of_hasEdge h he

theorem wf_addEdge' {G : Graph} (h : WF G) {e : Edge}
    (hadj : e.1.index + 1 = e.2.index ∨ e.2.index + 1 = e.1.index) :
    WF (G.addEdge e) := by
  obtain ⟨u, v⟩ := e
  exact wf_addEdge h hadj

theorem addFinalObsoleteLoop_sound {M : Machine} {G_U : Graph}
    (hWFU : WF G_U) :
    ∀ fuel (T Ev : List Edge) (G : Graph) (Eo : List Edge),
      (∀ e ∈ T, G_U.hasEdge e = true) → WF G →
      (∀ e, G.hasEdge e = true → G_U.hasEdge e = true) →
      ∀ G' Eo', addFinalObsoleteLoop M G_U fuel T Ev G Eo = some (G', Eo') →
        WF G' ∧ ∀ e, G'.hasEdge e = true → G_U.hasEdge e = true := by
  intro fuel
  induction fuel with
  | zero =>
    intro T Ev G Eo _ _ _ G' Eo' h
    exact absurd h (by simp [addFinalObsoleteLoop])
  | succ n ih =>
    intro T Ev G Eo hT hWFG hsub G' Eo' h
    rw [addFinalObsoleteLoop] at h
    split at h
    · injection h with h1
      injection h1 with h2 h3
      subst h2
      exact ⟨hWFG, hsub⟩
    · rename_i f heq
      have hf : G_U.hasEdge f = true := hT f (List.mem_of_mem_getLast? heq)
      have hT1 : ∀ e ∈ T.dropLast, G_U.hasEdge e = true :=
        fun e he => hT e (List.mem_of_mem_dropLast he)
      have hTn : ∀ e ∈ T.dropLast ++ G_U.getNextEdges f,
          G_U.hasEdge e = true := by
        intro e he
        rcases List.mem_append.mp he with he | he
        · exact hT1 e he
        · exact (hasEdge_getNextEdges hWFU he).1
      split at h
      · exact ih _ _ _ _ hT1 hWFG hsub _ _ h
      · split at h
        · exact ih _ _ _ _ hTn hWFG hsub _ _ h
        · split at h
          · have hadjf : f.1.index + 1 = f.2.index ∨
                f.2.index + 1 = f.1.index := adj_of_hasEdge' hWFU hf
            have hWF1 : WF (G.addEdge f) := wf_addEdge' hWFG hadjf
            refine ih _ _ _ _ hT1 hWF1 ?_ _ _ h
            intro e he
            rcases hasEdge_addEdge_inv he with rfl | he'
            · exact hf
            · exact hsub e he'
          · exact ih _ _ _ _ hT1 hWFG hsub _ _ h

theorem AddFinal_sound {fuel : Nat} {M : Machine} {G_U G : Graph}
    {V0 : List Vertex} (hWFU : WF G_U) (hWFG : WF G)
    (hsub : ∀ e, G.hasEdge e = true → G_U.hasEdge e = true)
    {G' : Graph} {Eo' : List Edge}
    (h : AddFinalEdgesOfObsoleteWalks fuel M G_U G V0 = some (G', Eo')) :
    WF G' ∧ ∀ e, G'.hasEdge e = true → G_U.hasEdge e = true := by
  unfold AddFinalEdgesOfObsoleteWalks at h
  refine addFinalObsoleteLoop_sound hWFU fuel _ _ _ _ ?_ hWFG hsub _ _ h
  intro e he
  rcases mem_unionD he with h0 | h0
  · exact absurd h0 (by simp)
  · rw [List.mem_flatMap] at h0
    obtain ⟨v0, _, hm⟩ := h0
    exact (hasEdge_of_mem_outgoing hWFU hm).1

theorem condRemoveFoldl_sound {G_U : Graph} :
    ∀ (Eo : List Edge) (G : Graph), WF G →
      (∀ e, G.hasEdge e = true → G_U.hasEdge e = true) →
      WF (Eo.foldl
        (fun g e => if g.hasEdge e then g.removeEdge e else g) G) ∧
      ∀ e, (Eo.foldl
          (fun g e => if g.hasEdge e then g.removeEdge e else g) G).hasEdge
            e = true →
        G_U.hasEdge e = true := by
  intro Eo
  induction Eo with
  | nil => intro G h hs; exact ⟨h, hs⟩
  | cons a r ih =>
    intro G h hs
    refine ih _ ?_ ?_
    · show WF (if G.hasEdge a then G.removeEdge a else G)
      split
      · exact wf_removeEdge h a
      · exact h
    · intro e he
      have he' : (if G.hasEdge a then G.removeEdge a else G).hasEdge
          e = true := he
      split at he'
      · exact hs e (hasEdge_removeEdge_sub he')
      · exact hs e he'

theorem PruneWalk_sound {fuel : Nat} {M : Machine} {G_U : Graph}
    (hWFU : WF G_U) {G : Graph} {V0 : List Vertex} {Ef W : List Edge}
    {po : Bool} (hWFG : WF G)
    (hsub : ∀ e, G.hasEdge e = true → G_U.hasEdge e = true)
    (hW : ∀ f ∈ W, G_U.hasEdge f = true)
    {G_ Gm : Graph}
    (h : PruneWalk fuel M G_U G V0 Ef W po = some (G_, Gm)) :
    (WF G_ ∧ ∀ e, G_.hasEdge e = true → G_U.hasEdge e = true) ∧
      (WF Gm ∧ ∀ e, Gm.hasEdge e = true → G_U.hasEdge e = true) := by
  unfold PruneWalk at h
  cases he_ : FindFirstMergingEdgeOrFinalEdge G W with
  | none =>
    rw [he_] at h
    exact absurd h (by simp)
  | some e_ =>
    rw [he_] at h
    simp only [Option.bind_eq_bind, Option.some_bind] at h
    have he_U : G_U.hasEdge e_ = true := hW e_ (ffme_mem he_)
    have hadj_ := adj_of_hasEdge' hWFU he_U
    have tail : ∀ (G1 : Graph) (Eo : List Edge), WF G1 →
        (∀ e, G1.hasEdge e = true → G_U.hasEdge e = true) →
        (ComputeFeasibleGraph fuel M (G1.removeEdge e_) V0
            (unionD Eo Ef) [] >>=
          fun G_0 =>
            some (if G_0.size > 0 &&
                Ef.any (fun f =>
                  ((G1.removeEdge e_).addEdge e_).hasEdge f) then
                Eo.foldl
                  (fun g e => if g.hasEdge e then g.removeEdge e else g)
                  G_0
              else G_0,
              (G1.removeEdge e_).addEdge e_)) = some (G_, Gm) →
        (WF G_ ∧ ∀ e, G_.hasEdge e = true → G_U.hasEdge e = true) ∧
          (WF Gm ∧ ∀ e, Gm.hasEdge e = true → G_U.hasEdge e = true) := by
      intro G1 Eo hWF1 hsub1 hh
      cases hC : ComputeFeasibleGraph fuel M (G1.removeEdge e_) V0
          (unionD Eo Ef) [] with
      | none =>
        rw [hC] at hh
        exact absurd hh (by simp)
      | some G0 =>
        rw [hC] at hh
        simp only [Option.bind_eq_bind, Option.some_bind] at hh
        injection hh with h1
        injection h1 with hG hGm
        have hWF2 : WF (G1.removeEdge e_) := wf_removeEdge hWF1 e_
        have hsub2 : ∀ e, (G1.removeEdge e_).hasEdge e = true →
            G_U.hasEdge e = true :=
          fun e he => hsub1 e (hasEdge_removeEdge_sub he)
        obtain ⟨hWF0, hsub0⟩ := cfg_sound hWF2 hC
        have hsub0' : ∀ e, G0.hasEdge e = true → G_U.hasEdge e = true :=
          fun e he => hsub2 e (hsub0 e he)
        constructor
        · rw [← hG]
          split
          · exact condRemoveFoldl_sound Eo G0 hWF0 hsub0'
          · exact ⟨hWF0, hsub0'⟩
        · rw [← hGm]
          refine ⟨wf_addEdge' hWF2 hadj_, ?_⟩
          intro e he
          rcases hasEdge_addEdge_inv he with rfl | he'
          · exact he_U
          · exact hsub2 e he'
    by_cases hpo : po = true
    · rw [if_pos hpo] at h
      cases hA : AddFinalEdgesOfObsoleteWalks fuel M G_U G V0 with
      | none =>
        rw [hA] at h
        exact absurd h (by simp)
      | some p =>
        obtain ⟨G1, Eo⟩ := p
        rw [hA] at h
        simp only [Option.bind_eq_bind, Option.some_bind] at h
        obtain ⟨hWF1, hsub1⟩ := AddFinal_sound hWFU hWFG hsub hA
        exact tail G1 Eo hWF1 hsub1 h
    · rw [if_neg hpo] at h
      exact tail G [] hWFG hsub h

theorem chainFromB_all {G : Graph} {V0 : List Vertex} {l : List Edge}
    (h : chainFromB G V0 l = true) : ∀ f ∈ l, G.hasEdge f = true := by
  unfold chainFromB at h
  cases l with
  | nil =>
    intro f hf
    exact absurd hf (by simp)
  | cons e r =>
    simp only [Bool.and_eq_true, List.all_eq_true] at h
    exact h.1.2

theorem ffdLoop_sound {M : Machine} {G_U : Graph} {V0 : List Vertex}
    {ef : Edge} (hWFU : WF G_U) :
    ∀ fuel (G R : Graph), WF G →
      (∀ e, G.hasEdge e = true → G_U.hasEdge e = true) →
      ∀ r W, ffdLoop M G_U V0 ef fuel G R = some (r, some W) →
        chainFromB G_U V0 W = true ∧ ∀ x, r = some x → x ∈ W := by
  intro fuel
  induction fuel with
  | zero =>
    intro G R _ _ r W h
    exact absurd h (by simp [ffdLoop])
  | succ n ih =>
    intro G R hWFG hsub r W h
    rw [ffdLoop] at h
    split at h
    · injection h with h1
      injection h1 with h2 h3
      exact absurd h3 (by simp)
    · cases hTW : TakeArbitraryWalk n M G V0 with
      | none =>
        rw [hTW] at h
        exact absurd h (by simp)
      | some W1 =>
        rw [hTW] at h
        simp only [Option.bind_eq_bind, Option.some_bind] at h
        split at h
        · injection h with h1
          injection h1 with h2 h3
          exact absurd h3 (by simp)
        · rename_i hne0
          have hne1 : W1 ≠ [] := by
            intro hc
            subst hc
            exact hne0 rfl
          have hchain1 : chainFromB G V0 W1 = true :=
            takeWalk_sound hWFG hTW hne1
          have hW1 : ∀ f ∈ W1, G_U.hasEdge f = true :=
            fun f hf => hsub f (chainFromB_all hchain1 f hf)
          have hchainU : chainFromB G_U V0 W1 = true :=
            chainFromB_mono hsub hchain1
          split at h
          · rename_i hcond
            injection h with h1
            injection h1 with h2 h3
            injection h3 with h3'
            subst h3'
            subst h2
            refine ⟨hchainU, ?_⟩
            intro x hx
            injection hx with hx'
            subst hx'
            simp only [Bool.or_eq_true, beq_iff_eq, List.elem_eq_mem,
              decide_eq_true_eq] at hcond
            rcases hcond with hc | hc
            · exact List.mem_of_mem_getLast? hc
            · exact hc
          · split at h
            · injection h with h1
              injection h1 with h2 h3
              injection h3 with h3'
              subst h3'
              subst h2
              refine ⟨hchainU, ?_⟩
              intro x hx
              exact List.mem_of_find?_eq_some hx
            · cases hP1 : PruneWalk n M G_U G V0 [ef] W1 false with
              | none =>
                rw [hP1] at h
                exact absurd h (by simp)
              | some p =>
                obtain ⟨H1, G1⟩ := p
                rw [hP1] at h
                simp only [Option.bind_eq_bind, Option.some_bind] at h
                obtain ⟨⟨hWFH1, hsubH1⟩, hWFG1, hsubG1⟩ :=
                  PruneWalk_sound hWFU hWFG hsub hW1 hP1
                split at h
                · cases hP2 : PruneWalk n M G_U G1 V0 [ef] W1 true with
                  | none =>
                    rw [hP2] at h
                    exact absurd h (by simp)
                  | some q =>
                    obtain ⟨G2, Gm2⟩ := q
                    rw [hP2] at h
                    simp only [Option.bind_eq_bind, Option.some_bind] at h
                    obtain ⟨⟨hWFG2, hsubG2⟩, _⟩ :=
                      PruneWalk_sound hWFU hWFG1 hsubG1 hW1 hP2
                    exact ih G2 _ hWFG2 hsubG2 r W h
                · exact ih H1 R hWFH1 hsubH1 r W h

theorem verifyLoop_sound {M : Machine} {G0 : Graph} {V0 : List Vertex}
    {ef : Edge} (hWF0 : WF G0) :
    ∀ fuel (G : Graph), WF G →
      (∀ e, G.hasEdge e = true → G0.hasEdge e = true) →
      ∀ W, verifyLoop M G0 V0 ef fuel G = some (some W) →
        chainFromB G0 V0 W = true ∧ ef ∈ W := by
  intro fuel
  induction fuel with
  | zero =>
    intro G _ _ W h
    exact absurd h (by simp [verifyLoop])
  | succ n ih =>
    intro G hWFG hsub W h
    rw [verifyLoop] at h
    split at h
    · injection h with h1
      exact absurd h1 (by simp)
    · cases hF : FindFeasibleOrDisjointEdge n M G0 G V0 ef with
      | none =>
        rw [hF] at h
        exact absurd h (by simp)
      | some p =>
        obtain ⟨eo, Wo⟩ := p
        rw [hF] at h
        simp only [Option.bind_eq_bind, Option.some_bind] at h
        cases eo with
        | some x =>
          simp only [] at h
          split at h
          · rename_i hbeq
            have hx : x = ef := by
              simpa using hbeq
            injection h with h1
            have hWo : Wo = some W := h1
            have hffd : ffdLoop M G0 V0 ef n G.getCopyedGraph
                Graph.empty = some (some x, some W) := by
              have hffd0 := hF
              unfold FindFeasibleOrDisjointEdge at hffd0
              rw [hWo] at hffd0
              exact hffd0
            obtain ⟨hcopyWF, hcopySub⟩ := copy_sound hWFG
            obtain ⟨hch, hmem⟩ := ffdLoop_sound hWF0 n _ _ hcopyWF
              (fun e he => hsub e (hcopySub e he)) (some x) W hffd
            exact ⟨hch, hx ▸ hmem x rfl⟩
          · cases hC : ComputeFeasibleGraph n M (G.removeEdge x) V0
                [ef] [] with
            | none =>
              rw [hC] at h
              exact absurd h (by simp)
            | some G2 =>
              rw [hC] at h
              simp only [Option.bind_eq_bind, Option.some_bind] at h
              obtain ⟨hWF2, hsub2⟩ := cfg_sound (wf_removeEdge hWFG x) hC
              exact ih G2 hWF2
                (fun e he => hsub e (hasEdge_removeEdge_sub (hsub2 e he)))
                W h
        | none =>
          simp only [] at h
          injection h with h1
          exact absurd h1 (by simp)

theorem VEW_sound {fuel : Nat} {M : Machine} {G0 : Graph}
    {V0 : List Vertex} {ef : Edge} (hWF0 : WF G0) {W : List Edge}
    (h : VerifyExistenceOfWalk fuel M G0 V0 ef = some (some W)) :
    chainFromB G0 V0 W = true ∧ ef ∈ W := by
  unfold VerifyExistenceOfWalk at h
  cases hC : ComputeFeasibleGraph fuel M G0 V0 [ef] [] with
  | none =>
    rw [hC] at h
    exact absurd h (by simp)
  | some G1 =>
    rw [hC] at h
    simp only [Option.bind_eq_bind, Option.some_bind] at h
    obtain ⟨hWF1, hsub1⟩ := cfg_sound hWF0 hC
    exact verifyLoop_sound hWF0 fuel G1 hWF1 hsub1 W h

theorem filter_false_eq_nil {α : Type} :
    ∀ l : List α, l.filter (fun _ => false) = []
  | [] => rfl
  | a :: r => by simp [List.filter, filter_false_eq_nil r]

set_option maxRecDepth 100000 in
/-- Shared evaluation fact for claim C2: on the `zG` instance the verifier
returns the walk `[ze1, zef, ze4]`, which passes through the target edge
`zef` in second position and continues past it. -/
theorem zG_VEW_eval :
    VerifyExistenceOfWalk 120 exM zG [zv0] zef =
      some (some [ze1, zef, ze4]) := by decide

/-! ## Claim theorems -/

set_option maxRecDepth 100000

/-- Claim C1 (amended, the provable part): the graph returned by
`ComputeFeasibleGraph` is a subgraph of the input — every edge of the result
is an edge of `G` — for every well-formed `G` and any `V0`, `Ef`, `Er_`.
The other two parts of the original claim are refuted by
`C1_reachable_and_empty_counterexample`. -/
theorem C1_feasible_subgraph {fuel : Nat} {M : Machine} {G : Graph}
    {V0 : List Vertex} {Ef Er_ : List Edge} (hWF : WF G) {H : Graph}
    (h : ComputeFeasibleGraph fuel M G V0 Ef Er_ = some H) :
    ∀ e, H.hasEdge e = true → G.hasEdge e = true :=
  (cfg_sound hWF h).2

theorem C1_feasible_subgraph_witness :
    WF xG ∧
    ∃ H, ComputeFeasibleGraph 40 exM xG [xv0] [xe0, xf] [] = some H ∧
      ∀ e, H.hasEdge e = true → xG.hasEdge e = true := by
  refine ⟨by decide, _, rfl, ?_⟩
  exact @C1_feasible_subgraph 40 exM xG [xv0] [xe0, xf] [] (by decide) _ rfl

set_option maxRecDepth 100000 in
/-- Claim C1, counterexample to the other two parts: on `xG` the target edge
`xf` is reachable from `V0` (the one-edge chain `[xf]`) yet absent from the
result, and on `yG` no target edge is reachable from `V0` yet the result has
size 3, not 0. -/
theorem C1_reachable_and_empty_counterexample :
    (∃ H, ComputeFeasibleGraph 40 exM xG [xv0] [xe0, xf] [] = some H ∧
      EdgeReachable xG [xv0] xf ∧ H.hasEdge xf = false) ∧
    (∃ H, ComputeFeasibleGraph 60 exM yG [yv0] [yEf] [] = some H ∧
      ¬ EdgeReachable yG [yv0] yEf ∧ H.size = 3) := by
  constructor
  · refine ⟨_, rfl, ⟨[xf], by decide, by decide⟩, ?_⟩
    decide
  · refine ⟨_, rfl, yEf_not_reachable, ?_⟩
    decide

/-- Claim C2 (amended): whenever `VerifyExistenceOfWalk` returns a walk on a
well-formed graph, the walk is a nonempty contiguous chain of edges of `G0`
starting at a `V0` vertex and it contains the target edge `ef` — but it need
not end at `ef` (see `C2_walk_end_counterexample`). -/
theorem C2_verifier_soundness {fuel : Nat} {M : Machine} {G0 : Graph}
    {V0 : List Vertex} {ef : Edge} (hWF0 : WF G0) {W : List Edge}
    (h : VerifyExistenceOfWalk fuel M G0 V0 ef = some (some W)) :
    chainFromB G0 V0 W = true ∧ ef ∈ W :=
  VEW_sound hWF0 h

theorem C2_verifier_soundness_witness :
    WF zG ∧
    (chainFromB zG [zv0] [ze1, zef, ze4] = true ∧ zef ∈ [ze1, zef, ze4]) :=
  ⟨by decide, C2_verifier_soundness (by decide) zG_VEW_eval⟩

/-- Claim C2, counterexample to the "ends at the target edge" part: the
returned walk on `zG` contains `zef` in its middle and ends at `ze4`. -/
theorem C2_walk_end_counterexample :
    VerifyExistenceOfWalk 120 exM zG [zv0] zef =
      some (some [ze1, zef, ze4]) ∧
    [ze1, zef, ze4].getLast? ≠ some zef ∧ zef ∈ [ze1, zef, ze4] :=
  ⟨zG_VEW_eval, by decide, by decide⟩

/-- Claim C3: `addEdge` (run with its assertions, `addEdgeRun`) aborts with
an error for every well-formed graph and endpoint pair whose indices do not
differ by exactly 1, and completes, performing the `addEdge` mutation,
whenever they do (endpoint symbols being in the declared alphabet, as every
vertex the program constructs satisfies). -/
theorem C3_addEdge_precondition {M : Machine} {G : Graph} (hWF : WF G)
    {u v : Vertex}
    (hu : M.symbols.contains u.symbol = true)
    (hv : M.symbols.contains v.symbol = true) :
    (¬(u.index + 1 = v.index ∨ v.index + 1 = u.index) →
      ∃ msg, addEdgeRun M G (u, v) = Except.error msg) ∧
    ((u.index + 1 = v.index ∨ v.index + 1 = u.index) →
      addEdgeRun M G (u, v) = Except.ok (G.addEdge (u, v))) := by
  constructor
  · intro hnadj
    unfold addEdgeRun
    simp only []
    by_cases h0 : u.index - v.index = 0
    · rw [if_pos (by simp [h0])]
      exact ⟨_, rfl⟩
    · rw [if_neg (by simp [h0])]
      rcases lt_trichotomy u.index v.index with hlt | heq | hgt
      · have hmin : min u.index v.index = u.index :=
          min_eq_left (le_of_lt hlt)
        rw [hmin]
        rw [if_neg (by simp)]
        have hro : (G.el u.index u).right_outgoing.contains v = false := by
          rcases Bool.eq_false_or_eq_true
              ((G.el u.index u).right_outgoing.contains v) with hc | hc
          · exfalso
            have hm : v ∈ (G.el u.index u).right_outgoing := by
              simpa using hc
            obtain ⟨_, hvi, _⟩ := wf_ro hWF hm
            omega
          · exact hc
        rw [if_neg (by rw [hro]; simp)]
        rw [if_pos ?pc1]
        case pc1 =>
          have hx1 : (u.index == v.index) = false := by simp; omega
          have hx2 : (u.index == v.index - 1) = false := by simp; omega
          rw [hx1, hx2]
          rfl
        exact ⟨_, rfl⟩
      · exact absurd heq (by omega)
      · have hmin : min u.index v.index = v.index :=
          min_eq_right (le_of_lt hgt)
        rw [hmin]
        rw [if_pos ?pc2]
        case pc2 =>
          have hx1 : (v.index == u.index) = false := by simp; omega
          have hx2 : (v.index == u.index - 1) = false := by simp; omega
          rw [hx1, hx2]
          rfl
        exact ⟨_, rfl⟩
  · intro hadj
    unfold addEdgeRun
    simp only []
    rcases hadj with hadj | hadj
    · rw [if_neg (by simp; omega)]
      have hmin : min u.index v.index = u.index := min_eq_left (by omega)
      rw [hmin]
      rw [if_neg (by simp)]
      rcases Bool.eq_false_or_eq_true
          ((G.el u.index u).right_outgoing.contains v) with hro | hro
      · rw [if_pos hro]
        have hhe : G.hasEdge (u, v) = true := by
          show ((G.el (min u.index v.index) u).right_outgoing.contains v ||
            (G.el (min u.index v.index) v).right_incoming.contains u) = true
          rw [hmin, hro, Bool.true_or]
        rw [addEdge_of_hasEdge hhe]
      · rw [if_neg (by rw [hro]; simp)]
        rw [if_neg (by simp; omega)]
        rcases Bool.eq_false_or_eq_true
            ((G.el u.index v).right_incoming.contains u) with hri | hri
        · rw [if_pos hri]
          have hhe : G.hasEdge (u, v) = true := by
            show ((G.el (min u.index v.index) u).right_outgoing.contains v ||
              (G.el (min u.index v.index) v).right_incoming.contains u) =
                true
            rw [hmin, hri, Bool.or_true]
          rw [addEdge_of_hasEdge hhe]
        · rw [if_neg (by rw [hri]; simp)]
          rw [if_neg (by rw [hu]; simp)]
          rw [if_neg (by rw [hv]; simp)]
    · rw [if_neg (by simp; omega)]
      have hmin : min u.index v.index = v.index := min_eq_right (by omega)
      rw [hmin]
      rw [if_neg (by simp; omega)]
      rcases Bool.eq_false_or_eq_true
          ((G.el v.index u).right_outgoing.contains v) with hro | hro
      · rw [if_pos hro]
        have hhe : G.hasEdge (u, v) = true := by
          show ((G.el (min u.index v.index) u).right_outgoing.contains v ||
            (G.el (min u.index v.index) v).right_incoming.contains u) = true
          rw [hmin, hro, Bool.true_or]
        rw [addEdge_of_hasEdge hhe]
      · rw [if_neg (by rw [hro]; simp)]
        rw [if_neg (by simp)]
        rcases Bool.eq_false_or_eq_true
            ((G.el v.index v).right_incoming.contains u) with hri | hri
        · rw [if_pos hri]
          have hhe : G.hasEdge (u, v) = true := by
            show ((G.el (min u.index v.index) u).right_outgoing.contains v ||
              (G.el (min u.index v.index) v).right_incoming.contains u) =
                true
            rw [hmin, hri, Bool.or_true]
          rw [addEdge_of_hasEdge hhe]
        · rw [if_neg (by rw [hri]; simp)]
          rw [if_neg (by rw [hu]; simp)]
          rw [if_neg (by rw [hv]; simp)]


theorem C3_addEdge_precondition_witness :
    (WF Graph.empty ∧ exM.symbols.contains xv0.symbol = true ∧
      exM.symbols.contains xa1.symbol = true) ∧
    ((¬(xv0.index + 1 = xa1.index ∨ xa1.index + 1 = xv0.index) →
        ∃ msg, addEdgeRun exM Graph.empty (xv0, xa1) = Except.error msg) ∧
      ((xv0.index + 1 = xa1.index ∨ xa1.index + 1 = xv0.index) →
        addEdgeRun exM Graph.empty (xv0, xa1) =
          Except.ok (Graph.empty.addEdge (xv0, xa1)))) :=
  ⟨⟨by decide, by decide, by decide⟩,
    C3_addEdge_precondition (by decide) (by decide) (by decide)⟩

/-- Claim C4 (amended, the provable part): the whole-graph short-circuit of
the pendant cascade — when the popped edge is present, is the last remaining
final edge, and its removal empties `Ef_`, `pruneCascade` immediately
returns the empty graph.  The "final edges are never removed otherwise"
part is refuted by `C4_target_removed_counterexample`. -/
theorem C4_short_circuit {M : Machine} {C Ef : List Edge} {fuel : Nat}
    {H : Graph} {T Ef_ : List Edge} {e : Edge}
    (hT : T.getLast? = some e) (hH : H.hasEdge e = true)
    (hc : Ef_.contains e = true) (he : (Ef_.erase e).isEmpty = true) :
    pruneCascade M C Ef (fuel + 1) H T Ef_ = some Graph.empty := by
  rw [pruneCascade, hT]
  simp only [hH, Bool.not_true, Bool.false_eq_true, if_false, hc, he,
    eq_self_iff_true, if_true]

theorem C4_short_circuit_witness :
    ([xe0].getLast? = some xe0 ∧
      (Graph.empty.addEdge xe0).hasEdge xe0 = true ∧
      [xe0].contains xe0 = true ∧ ([xe0].erase xe0).isEmpty = true) ∧
    pruneCascade exM [] [xe0] 5 (Graph.empty.addEdge xe0) [xe0] [xe0] =
      some Graph.empty :=
  ⟨⟨by decide, by decide, by decide, by decide⟩,
    @C4_short_circuit exM [] [xe0] 4 (Graph.empty.addEdge xe0) [xe0] [xe0]
      xe0 (by decide) (by decide) (by decide) (by decide)⟩

/-- Claim C4, counterexample to the preservation part: on `xG` with both
edges final, the reachable-graph phase stores the final edge `xf` in `H`,
the cascade then removes it (it is pendent: `xb1` has no precedent
support), and the final result keeps size 1 — so a final edge was removed
without the whole-graph short-circuit. -/
theorem C4_target_removed_counterexample :
    ∃ C0 H0 Er0 H,
      ComputeCoverEdges 40 xG [xe0, xf] = some C0 ∧
      GetStepPendentEdgesWithReachableGraph 40 exM xG C0 [xv0]
        [xe0, xf] = some (H0, Er0) ∧
      H0.hasEdge xf = true ∧
      ComputeFeasibleGraph 40 exM xG [xv0] [xe0, xf] [] = some H ∧
      H.hasEdge xf = false ∧ H.size = 1 := by
  refine ⟨_, _, _, _, rfl, rfl, ?_, rfl, ?_, ?_⟩
  · decide
  · decide
  · decide

/-- Claim C5: starting from the empty graph, any sequence of `addEdge` and
`removeEdge` operations whose added edges satisfy the index-adjacency
contract preserves conservation: the global edge counter (`size`) equals
the sum of the per-slice `edgeCount` fields over all materialized slices. -/
theorem C5_conservation (ops : List GOp)
    (hok : ∀ o ∈ ops, o.adjacentOk) :
    conservation (applyOps Graph.empty ops) ∧
    (applyOps Graph.empty ops).size =
      ((applyOps Graph.empty ops).slices.map
        (fun p => p.2.edgeCount)).sum := by
  have h := conservation_of_wf (wf_applyOps wf_empty hok)
  exact ⟨h, h⟩

theorem C5_conservation_witness :
    (∀ o ∈ [GOp.add (xv0, xa1), GOp.add (xv0, xb1),
        GOp.remove (xv0, xa1), GOp.remove (xv0, xa1)], o.adjacentOk) ∧
    (conservation (applyOps Graph.empty
        [GOp.add (xv0, xa1), GOp.add (xv0, xb1),
          GOp.remove (xv0, xa1), GOp.remove (xv0, xa1)]) ∧
      (applyOps Graph.empty
        [GOp.add (xv0, xa1), GOp.add (xv0, xb1),
          GOp.remove (xv0, xa1), GOp.remove (xv0, xa1)]).size =
        ((applyOps Graph.empty
          [GOp.add (xv0, xa1), GOp.add (xv0, xb1),
            GOp.remove (xv0, xa1), GOp.remove (xv0, xa1)]).slices.map
          (fun p => p.2.edgeCount)).sum) :=
  ⟨by decide, C5_conservation _ (by decide)⟩

/-- Claim C6: adding an already-present edge is a no-op (so `addEdge`
followed by `addEdge` of the same pair leaves the graph, hence the edge
count and all edge lists, unchanged), and removing an absent edge is a
no-op. -/
theorem C6_idempotence (G : Graph) (e : Edge) :
    (G.addEdge e).addEdge e = G.addEdge e ∧
    (G.hasEdge e = false → G.removeEdge e = G) :=
  ⟨addEdge_of_hasEdge (hasEdge_addEdge_self G e),
    removeEdge_of_not_hasEdge⟩

theorem C6_idempotence_witness :
    xG.hasEdge (xa1, xv0) = false ∧
    ((xG.addEdge (xa1, xv0)).addEdge (xa1, xv0) = xG.addEdge (xa1, xv0) ∧
      (xG.hasEdge (xa1, xv0) = false → xG.removeEdge (xa1, xv0) = xG)) :=
  ⟨by decide, C6_idempotence xG (xa1, xv0)⟩

/-- Claim C7 (amended): storage is directional per ordered pair — after
`addEdge (u, v)` the edge is queryable as `(u, v)` but the reverse query
`(v, u)` is unchanged (for distinct endpoints), and adding both
orientations of a fresh pair stores two edge objects, incrementing the size
twice.  The original undirected-storage claim is refuted by
`C7_undirected_counterexample`. -/
theorem C7_directional_storage (G : Graph) (u v : Vertex) (hne : u ≠ v)
    (hf : G.hasEdge (u, v) = false) (hr : G.hasEdge (v, u) = false) :
    (G.addEdge (u, v)).hasEdge (u, v) = true ∧
    (G.addEdge (u, v)).hasEdge (v, u) = false ∧
    ((G.addEdge (u, v)).addEdge (v, u)).size = G.size + 2 := by
  have hpair : ((v, u) : Edge) ≠ (u, v) := by
    intro hc
    injection hc with hc1 hc2
    exact hne hc2
  have h2 : (G.addEdge (u, v)).hasEdge (v, u) = G.hasEdge (v, u) :=
    hasEdge_addEdge_ne hpair
  refine ⟨hasEdge_addEdge_self G (u, v), by rw [h2, hr], ?_⟩
  rw [size_addEdge_new (by rw [h2, hr]), size_addEdge_new hf]

theorem C7_directional_storage_witness :
    (xv0 ≠ xa1 ∧ Graph.empty.hasEdge (xv0, xa1) = false ∧
      Graph.empty.hasEdge (xa1, xv0) = false) ∧
    ((Graph.empty.addEdge (xv0, xa1)).hasEdge (xv0, xa1) = true ∧
      (Graph.empty.addEdge (xv0, xa1)).hasEdge (xa1, xv0) = false ∧
      ((Graph.empty.addEdge (xv0, xa1)).addEdge (xa1, xv0)).size =
        Graph.empty.size + 2) :=
  ⟨⟨by decide, by decide, by decide⟩,
    C7_directional_storage Graph.empty xv0 xa1 (by decide) (by decide)
      (by decide)⟩

/-- Claim C7, counterexample to the undirected-storage parts: after
`addEdge (xv0, xa1)` the reverse query is false, and the "no-op" reverse
`addEdge` stores a second edge object (size 2). -/
theorem C7_undirected_counterexample :
    (Graph.empty.addEdge (xv0, xa1)).hasEdge (xv0, xa1) = true ∧
    (Graph.empty.addEdge (xv0, xa1)).hasEdge (xa1, xv0) = false ∧
    ((Graph.empty.addEdge (xv0, xa1)).addEdge (xa1, xv0)).size = 2 :=
  ⟨by decide, by decide, by decide⟩

/-- Claim C8 (amended): `ISuccedent u` contains exactly the registered
vertices at `u`'s index, tier `tier(u) + 1`, whose recorded predecessor
case matches `u`'s `(state, symbol)` and — the restriction the original
claim misses — whose symbol equals `u`'s oracle output, because the source
looks only inside `V[i][t][q][v.output()]`.  The inverse relation with
`IPrecedent` is refuted by `C8_inversion_counterexample`. -/
theorem C8_ISuccedent_characterization (M : Machine) (G : Graph)
    (u w : Vertex) :
    w ∈ G.ISuccedent M u ↔
      w ∈ G.reg ∧ w.index = u.index ∧ w.tier = u.tier + 1 ∧
        w.symbol = u.output M ∧ w.pred = some (u.state, u.symbol) := by
  unfold Graph.ISuccedent
  rw [List.mem_filter]
  simp [and_assoc]

/-- Claim C8, counterexample to the inversion part: in `bG` over `exMb`
(whose output symbol is `"b"`), `bu` is the `IPrecedent` of the registered
tier-1 vertex `bw` (same index, matching predecessor case), yet `bw` is not
in `ISuccedent bu`, because `bw`'s symbol `"a"` differs from `bu`'s output
`"b"`. -/
theorem C8_inversion_counterexample :
    bu ∈ bG.IPrecedent bw ∧ bw ∈ bG.reg ∧
    bw.index = bu.index ∧ bw.tier = bu.tier + 1 ∧
    bw.pred = some (bu.state, bu.symbol) ∧
    bw ∉ bG.ISuccedent exMb bu := by decide

/-- Claim C9 (amended): the observable state of the original after the copy
has been mutated (`origAfterCopyMutation`: own edge structure, shared
vertex registry) leaves every edge-state observation unchanged — `hasEdge`,
`size` and the whole slice storage are those of the original.  The claim's
"all queries unaffected" part is refuted by `C9_succedent_counterexample`:
`IPrecedent`/`ISuccedent` read the shared registry. -/
theorem C9_edge_state_independence (G G' : Graph) :
    (∀ e, (origAfterCopyMutation G G').hasEdge e = G.hasEdge e) ∧
    (origAfterCopyMutation G G').size = G.size ∧
    (origAfterCopyMutation G G').slices = G.slices := by
  refine ⟨?_, rfl, rfl⟩
  intro e
  obtain ⟨u, v⟩ := e
  rfl

/-- Claim C9, counterexample to the frame part: extending a copy of `cG`
with the index-adjacent edge `(cw, cx)` — a mutation that passes every
`addEdge` assertion, as the `addEdgeRun` conjunct certifies — registers the
new tier-1 vertex `cw` in the shared `V` axis, which changes the original's
`ISuccedent` answer for `bz` from the empty set to `[cw]`, while the
original's edge state (`hasEdge`, `size`) is indeed unaffected. -/
theorem C9_succedent_counterexample :
    addEdgeRun exMb cG.getCopyedGraph (cw, cx) =
      Except.ok (cG.getCopyedGraph.addEdge (cw, cx)) ∧
    cG.ISuccedent exMb bz = [] ∧
    (origAfterCopyMutation cG
      (cG.getCopyedGraph.addEdge (cw, cx))).ISuccedent exMb bz = [cw] ∧
    (origAfterCopyMutation cG
      (cG.getCopyedGraph.addEdge (cw, cx))).hasEdge (cw, cx) = false ∧
    (origAfterCopyMutation cG
      (cG.getCopyedGraph.addEdge (cw, cx))).size = cG.size := by
  exact ⟨rfl, by decide, by decide, by decide, by decide⟩

/-- Claim C10: for a `TransitionCase` above tier 0, two `vertex` calls with
predecessor keys passing the index/tier assertions and sharing the same
`(state, symbol)` return one and the same vertex, the second call leaves
the case unchanged, and the vertex set only grows. -/
theorem C10_vertex_dedup (T : TransitionCaseS) (i2 : Int)
    (t2 : Nat) (pq ps : String) (ht : T.tier ≠ 0)
    (h3 : i2 = T.index) (h4 : t2 + 1 = T.tier) :
    ∃ v T', T.vertexCall (some (T.index, T.tier - 1, pq, ps)) =
        some (v, T') ∧
      T'.vertexCall (some (i2, t2, pq, ps)) = some (v, T') ∧
      (∀ x ∈ T.vset, x ∈ T'.vset) ∧
      v.pred = some (pq, ps) := by
  have hb0 : (T.tier == 0) = false := by simp [ht]
  have hg1 : (T.index == T.index && T.tier - 1 + 1 == T.tier) = true := by
    simp
    omega
  have hg2 : (i2 == T.index && t2 + 1 == T.tier) = true := by
    simp [h3]
    omega
  refine ⟨⟨T.index, T.tier, T.state, T.symbol, some (pq, ps)⟩,
    { T with vset :=
        if T.vset.contains ⟨T.index, T.tier, T.state, T.symbol,
            some (pq, ps)⟩ then T.vset
        else T.vset ++ [⟨T.index, T.tier, T.state, T.symbol,
          some (pq, ps)⟩] }, ?_, ?_, ?_, rfl⟩
  · unfold TransitionCaseS.vertexCall
    rw [hb0]
    simp only [Bool.false_eq_true, if_false]
    rw [hg1]
    simp only [if_true, filter_false_eq_nil]
  · unfold TransitionCaseS.vertexCall
    simp only []
    rw [hb0]
    simp only [Bool.false_eq_true, if_false]
    rw [hg2]
    simp only [if_true, filter_false_eq_nil]
    have hcv : (if T.vset.contains ⟨T.index, T.tier, T.state, T.symbol,
          some (pq, ps)⟩ then T.vset
        else T.vset ++ [⟨T.index, T.tier, T.state, T.symbol,
          some (pq, ps)⟩]).contains
        ⟨T.index, T.tier, T.state, T.symbol, some (pq, ps)⟩ = true := by
      split
      · assumption
      · simp
    rw [hcv]
    simp only [if_true]
  · intro x hx
    split
    · exact hx
    · exact List.mem_append_left _ hx

theorem C10_vertex_dedup_witness :
    ((TransitionCaseS.mkTC 1 1 "q" "a").tier ≠ 0 ∧
      (1 : Int) = (TransitionCaseS.mkTC 1 1 "q" "a").index ∧
      0 + 1 = (TransitionCaseS.mkTC 1 1 "q" "a").tier) ∧
    ∃ v T', (TransitionCaseS.mkTC 1 1 "q" "a").vertexCall
        (some ((TransitionCaseS.mkTC 1 1 "q" "a").index,
          (TransitionCaseS.mkTC 1 1 "q" "a").tier - 1, "p", "b")) =
        some (v, T') ∧
      T'.vertexCall (some (1, 0, "p", "b")) = some (v, T') ∧
      (∀ x ∈ (TransitionCaseS.mkTC 1 1 "q" "a").vset, x ∈ T'.vset) ∧
      v.pred = some ("p", "b") :=
  ⟨⟨by decide, by decide, by decide⟩,
    C10_vertex_dedup (TransitionCaseS.mkTC 1 1 "q" "a") 1 0 "p" "b"
      (by decide) (by decide) (by decide)⟩

end PolyNP
